import Mathlib

/-!
Verification of the CPU-scheduling core of the OS-CPP simulator.

The development shallowly embeds the scheduling engine:
the `Process` record (`models/process.py`), the shared scheduler contract
(`scheduling/base_scheduler.py`), the seven concrete algorithms
(FCFS, SJF, Priority, SRTF, Round Robin, Preemptive Priority with Aging, MLFQ)
and the Adaptive Selector (`scheduling/adaptive_selector.py`).

Python `int` times are modelled as `Int`; Python `float` metrics as `ℚ`.
Each scheduler's `while` loop is embedded as a fuel-indexed recursion; the
fuel supplied by the top-level `schedule` wrappers is proved sufficient, which
is how termination of the discrete-event loops is established.  Mutable
`Process` objects shared between the master list and the internal queues are
modelled by a master `List Proc` together with queues of indices into it
(index = object identity), matching Python aliasing.
-/

namespace OSSim

/-- Process states (`models/process.py`, `ProcessState`). -/
inductive PState where
  | NEW
  | READY
  | RUNNING
  | BLOCKED
  | TERMINATED
deriving DecidableEq, Repr

/-- The `Process` dataclass (`models/process.py`), restricted to the fields the
scheduling core reads or writes.  `name`, `memory_pages`, `page_table`,
resource dictionaries and `created_at` are never consulted by any scheduler
and are omitted. -/
structure Proc where
  pid : Int
  burst : Int
  priority : Int
  arrival : Int
  ioBound : Bool
  state : PState := PState.NEW
  remainingTime : Int := 0
  waitingTime : Int := 0
  turnaroundTime : Int := 0
  responseTime : Int := -1
  completionTime : Int := 0
  startTime : Int := -1
  queueLevel : Nat := 0
  agingCounter : Int := 0
deriving DecidableEq, Repr

instance : Inhabited Proc := ⟨{ pid := 0, burst := 0, priority := 0, arrival := 0, ioBound := false }⟩

/-- `Process.reset` (`models/process.py`): clear all runtime fields for
re-simulation (every `schedule()` begins by resetting each input process). -/
def resetP (p : Proc) : Proc :=
  { p with
    remainingTime := p.burst
    waitingTime := 0
    turnaroundTime := 0
    responseTime := -1
    completionTime := 0
    startTime := -1
    state := PState.NEW
    queueLevel := 0
    agingCounter := 0 }

/-- Read the process stored at index `i` of the master list. -/
def getP (ps : List Proc) (i : Nat) : Proc := ps.getD i default

/-- Apply an in-place field update to the process at index `i`. -/
def updAt (ps : List Proc) (i : Nat) (f : Proc → Proc) : List Proc :=
  ps.set i (f (getP ps i))

/-- Apply an in-place field update to every listed index. -/
def updAll (f : Proc → Proc) (ps : List Proc) (is2 : List Nat) : List Proc :=
  is2.foldl (fun a i => updAt a i f) ps

/-- `BaseScheduler.calculate_process_metrics`: the completion-time bookkeeping
shared by all seven algorithms (`base_scheduler.py` lines 111-114). -/
def calcProcessMetrics (p : Proc) : Proc :=
  let p1 := { p with turnaroundTime := p.completionTime - p.arrival }
  { p1 with waitingTime := p1.turnaroundTime - p1.burst }

/-- Stable insertion used by `sortStable`: `x` is placed before the first
element strictly greater than it, hence after all elements tied with it. -/
def insStable (lt : α → α → Bool) (x : α) : List α → List α
  | [] => [x]
  | y :: ys => if lt x y then x :: y :: ys else y :: insStable lt x ys

/-- Stable sort modelling Python's `list.sort(key=...)` (Timsort is stable). -/
def sortStable (lt : α → α → Bool) (l : List α) : List α :=
  l.foldl (fun acc x => insStable lt x acc) []

/-- Sort key of `FCFSScheduler.select_next` and of the initial
`sorted(processes, key=(arrival_time, pid))` used by several schedulers. -/
def arrivalPidLt (p q : Proc) : Bool :=
  decide (p.arrival < q.arrival) ||
    (decide (p.arrival = q.arrival) && decide (p.pid < q.pid))

/-- Sort key of `SJFScheduler.select_next`: `(burst_time, arrival_time, pid)`. -/
def sjfLt (p q : Proc) : Bool :=
  decide (p.burst < q.burst) || (decide (p.burst = q.burst) && arrivalPidLt p q)

/-- Sort key of `PriorityScheduler.select_next`: `(priority, arrival_time, pid)`. -/
def prioLt (p q : Proc) : Bool :=
  decide (p.priority < q.priority) ||
    (decide (p.priority = q.priority) && arrivalPidLt p q)

/-- Sort key of `SRTFScheduler.select_next`:
`(remaining_time, arrival_time, pid)`. -/
def srtfLt (p q : Proc) : Bool :=
  decide (p.remainingTime < q.remainingTime) ||
    (decide (p.remainingTime = q.remainingTime) && arrivalPidLt p q)

/-- Sort key of `PreemptivePriorityScheduler.select_next`:
`(priority - aging_counter, arrival_time, pid)`. -/
def ppLt (p q : Proc) : Bool :=
  decide (p.priority - p.agingCounter < q.priority - q.agingCounter) ||
    (decide (p.priority - p.agingCounter = q.priority - q.agingCounter) &&
      arrivalPidLt p q)

/-- One Gantt-chart entry: the `(pid, start, end)` triples collected in
`BaseScheduler.gantt_chart`. -/
structure GEntry where
  pid : Int
  start : Int
  stop : Int
deriving DecidableEq, Repr

/-- Total CPU time recorded in a Gantt chart. -/
def ganttSpan (g : List GEntry) : Int := (g.map (fun e => e.stop - e.start)).sum

/-- CPU time charged so far to one process. -/
def spentOf (p : Proc) : Int := p.burst - p.remainingTime

/-- CPU time charged so far to the whole master list. -/
def spent (ps : List Proc) : Int := (ps.map spentOf).sum

/-- Sum of the burst times of a process list. -/
def burstSum (ps : List Proc) : Int := (ps.map Proc.burst).sum

/-- Boolean: the process has not terminated. -/
def alive (p : Proc) : Bool := decide (p.state ≠ PState.TERMINATED)

/-- The `SchedulingResult` dataclass (`base_scheduler.py`). -/
structure SchedResult where
  algorithm : String
  processes : List Proc
  gantt : List GEntry
  contextSwitches : Nat
  totalTime : Int
  avgWaitingTime : ℚ := 0
  avgTurnaroundTime : ℚ := 0
  avgResponseTime : ℚ := 0
  avgCompletionTime : ℚ := 0
  cpuUtilization : ℚ := 0
  throughput : ℚ := 0
deriving DecidableEq, Repr

/-- `SchedulingResult.calculate_metrics`: derived averages, CPU utilization and
throughput; an empty process list leaves every metric at zero. -/
def calcMetrics (r : SchedResult) : SchedResult :=
  if r.processes.isEmpty then r
  else
    let n : ℚ := (r.processes.length : ℚ)
    let totalWaiting : Int := (r.processes.map Proc.waitingTime).sum
    let totalTurnaround : Int := (r.processes.map Proc.turnaroundTime).sum
    let totalResponse : Int :=
      ((r.processes.filter (fun p => decide (0 ≤ p.responseTime))).map
        Proc.responseTime).sum
    let totalCompletion : Int := (r.processes.map Proc.completionTime).sum
    let r1 :=
      { r with
        avgWaitingTime := (totalWaiting : ℚ) / n
        avgTurnaroundTime := (totalTurnaround : ℚ) / n
        avgResponseTime := (totalResponse : ℚ) / n
        avgCompletionTime := (totalCompletion : ℚ) / n }
    if 0 < r.totalTime then
      { r1 with
        cpuUtilization := ((burstSum r.processes : ℚ) / (r.totalTime : ℚ)) * 100
        throughput := n / ((r.totalTime : ℚ) / 1000) }
    else r1

/-- `BaseScheduler.create_result`: package the final simulation state. -/
def mkResult (name : String) (procs : List Proc) (gantt : List GEntry)
    (cs : Nat) (t : Int) : SchedResult :=
  calcMetrics
    { algorithm := name, processes := procs, gantt := gantt,
      contextSwitches := cs, totalTime := t }

/-- `BaseScheduler.add_to_ready_queue` applied to a batch: mark each listed
process READY (the queue itself is threaded separately). -/
def setReady (ps : List Proc) (is2 : List Nat) : List Proc :=
  updAll (fun p => { p with state := PState.READY }) ps is2

/-- Move arrived processes out of the pending list.  `byWhile = true` models
the prefix pop `while remaining and remaining[0].arrival_time <= t` used by
FCFS (and Round Robin / MLFQ); `byWhile = false` models the list-comprehension
filter used by SJF and Priority.  On a pending list sorted by arrival the two
coincide. -/
def npPop (byWhile : Bool) (ps : List Proc) (t : Int) (rem : List Nat) :
    List Nat × List Nat :=
  if byWhile then
    (rem.takeWhile (fun i => decide ((getP ps i).arrival ≤ t)),
     rem.dropWhile (fun i => decide ((getP ps i).arrival ≤ t)))
  else
    (rem.filter (fun i => decide ((getP ps i).arrival ≤ t)),
     rem.filter (fun i => !decide ((getP ps i).arrival ≤ t)))

/-- Shared state of the three non-preemptive schedulers
(`fcfs_scheduler.py`, `sjf_scheduler.py`, `priority_scheduler.py`). -/
structure NPState where
  procs : List Proc
  rem : List Nat
  rq : List Nat
  t : Int
  gantt : List GEntry
  cs : Nat
deriving DecidableEq, Repr

/-- The index selected by `select_next`: head of the ready queue after the
stable sort by the policy key `lt`. -/
def npSelIdx (lt : Proc → Proc → Bool) (ps1 : List Proc) (rq1 : List Nat) :
    Nat :=
  (sortStable (fun i j => lt (getP ps1 i) (getP ps1 j)) rq1).headD 0

/-- The ready queue left behind after `select_next` plus
`remove_from_ready_queue`: the sorted queue minus its head. -/
def npSelTail (lt : Proc → Proc → Bool) (ps1 : List Proc) (rq1 : List Nat) :
    List Nat :=
  (sortStable (fun i j => lt (getP ps1 i) (getP ps1 j)) rq1).tail

/-- Field updates applied to a non-preemptively dispatched process: record the
response time on first dispatch, run the full burst (`current_time +=
burst_time`, `remaining_time = 0`), terminate, and compute the completion
metrics. -/
def npFinish (t : Int) (p : Proc) : Proc :=
  calcProcessMetrics
    { p with
      responseTime := if p.responseTime = -1 then t - p.arrival
                      else p.responseTime,
      state := PState.TERMINATED,
      startTime := t,
      remainingTime := 0,
      completionTime := t + p.burst }

/-- State reached when the ready queue is empty and the clock jumps to the
next pending arrival. -/
def npJumpState (s : NPState) (arrived : List Nat) (j : Nat)
    (rest2 : List Nat) : NPState :=
  { s with procs := setReady s.procs arrived, rem := j :: rest2, rq := [],
           t := (getP (setReady s.procs arrived) j).arrival }

/-- The record produced by one non-preemptive dispatch, with the selected
index `i`, the surviving pending list `rest3` and queue `tail1` made
explicit. -/
def npDispatchRecord (procs1 : List Proc) (rest3 tail1 : List Nat) (i : Nat)
    (g : List GEntry) (t : Int) (cs1 : Nat) : NPState :=
  { procs := procs1.set i (npFinish t (getP procs1 i)),
    rem := rest3,
    rq := tail1,
    t := t + (getP procs1 i).burst,
    gantt := g ++ [⟨(getP procs1 i).pid, t, t + (getP procs1 i).burst⟩],
    cs := cs1 }

/-- State reached by one non-preemptive dispatch out of the (non-empty) ready
queue `rq1`. -/
def npDispatchState (lt : Proc → Proc → Bool) (s : NPState)
    (arrived rest3 rq1 : List Nat) : NPState :=
  npDispatchRecord (setReady s.procs arrived) rest3
    (npSelTail lt (setReady s.procs arrived) rq1)
    (npSelIdx lt (setReady s.procs arrived) rq1) s.gantt s.t
    (s.cs + (if rest3.isEmpty &&
      (npSelTail lt (setReady s.procs arrived) rq1).isEmpty then 0 else 1))

/-- One iteration of the shared non-preemptive `while remaining or ready_queue`
loop, parameterized by the `select_next` sort key `lt`.  `none` models the
defensive `break` (unreachable when the loop guard holds).  A dispatched
process runs its full burst, is recorded in the Gantt chart, terminated, and
its metrics are computed; a context switch is counted if further work is
pending. -/
def npStep (byWhile : Bool) (lt : Proc → Proc → Bool) (s : NPState) :
    Option NPState :=
  match npPop byWhile s.procs s.t s.rem with
  | (arrived, rest) =>
    match s.rq ++ arrived, rest with
    | [], [] => none
    | [], j :: rest2 => some (npJumpState s arrived j rest2)
    | i0 :: rq2, rest3 =>
        some (npDispatchState lt s arrived rest3 (i0 :: rq2))

/-- Fuel-indexed iteration of the non-preemptive loop; the guard is
`while remaining or self.ready_queue`. -/
def npRun (byWhile : Bool) (lt : Proc → Proc → Bool) :
    Nat → NPState → NPState
  | 0, s => s
  | f + 1, s =>
    if s.rem.isEmpty && s.rq.isEmpty then s
    else
      match npStep byWhile lt s with
      | none => s
      | some s2 => npRun byWhile lt f s2

/-- Initial state of a non-preemptive `schedule()` call: reset every process,
sort the pending list by `(arrival_time, pid)`, clear all bookkeeping. -/
def npInit (ps : List Proc) : NPState :=
  let ps0 := ps.map resetP
  { procs := ps0,
    rem := sortStable (fun i j => arrivalPidLt (getP ps0 i) (getP ps0 j))
             (List.range ps0.length),
    rq := [], t := 0, gantt := [], cs := 0 }

/-- Fuel sufficient for the non-preemptive loop (proved below). -/
def npFuel (ps : List Proc) : Nat := 2 * ps.length + 2

/-- Whether the non-preemptive loop can make immediate progress: the ready
queue is non-empty or some pending process is poppable at the current time. -/
def npHasWork (byWhile : Bool) (s : NPState) : Bool :=
  !s.rq.isEmpty || !(npPop byWhile s.procs s.t s.rem).1.isEmpty

/-- Termination measure of the non-preemptive loop. -/
def npMeasure (byWhile : Bool) (s : NPState) : Nat :=
  2 * (s.rem.length + s.rq.length) + (if npHasWork byWhile s then 0 else 1)

/-- `FCFSScheduler.schedule`. -/
def fcfs (ps : List Proc) : SchedResult :=
  let sf := npRun true arrivalPidLt (npFuel ps) (npInit ps)
  mkResult "FCFS" sf.procs sf.gantt sf.cs sf.t

/-- `SJFScheduler.schedule`. -/
def sjf (ps : List Proc) : SchedResult :=
  let sf := npRun false sjfLt (npFuel ps) (npInit ps)
  mkResult "SJF" sf.procs sf.gantt sf.cs sf.t

/-- `PriorityScheduler.schedule` (non-preemptive). -/
def priorityNP (ps : List Proc) : SchedResult :=
  let sf := npRun false prioLt (npFuel ps) (npInit ps)
  mkResult "Priority (Non-Preemptive)" sf.procs sf.gantt sf.cs sf.t

/-- Sum of the burst times truncated to `Nat`; used only as loop fuel. -/
def sumBurstNat (ps : List Proc) : Nat := (ps.map (fun p => p.burst.toNat)).sum

/-- State of `RoundRobinScheduler.schedule`: a FIFO circular queue plus the
completed-process counter driving `while completed_count < n`. -/
structure RRState where
  procs : List Proc
  rem : List Nat
  cq : List Nat
  t : Int
  gantt : List GEntry
  cs : Nat
  completed : Nat
deriving DecidableEq, Repr

/-- State reached when the circular queue is empty and the Round Robin clock
jumps to the next pending arrival. -/
def rrJumpState (s : RRState) (arrived : List Nat) (j : Nat)
    (rest2 : List Nat) : RRState :=
  { s with procs := setReady s.procs arrived, rem := j :: rest2, cq := [],
           t := (getP (setReady s.procs arrived) j).arrival }

/-- Field updates of one Round Robin quantum on the dispatched process:
record response time on first dispatch and burn `min(quantum, remaining)`. -/
def rrRunProc (q t : Int) (p : Proc) : Proc :=
  { p with
    responseTime := if p.responseTime = -1 then t - p.arrival
                    else p.responseTime,
    remainingTime := p.remainingTime - min q p.remainingTime }

/-- Round Robin dispatch where the process survives its quantum: newly
arrived processes are enqueued first, then the process is re-enqueued. -/
def rrContinueState (q : Int) (s : RRState) (arrived : List Nat) (i : Nat)
    (cq2 rest0 : List Nat) : RRState :=
  let ps1 := setReady s.procs arrived
  let p := getP ps1 i
  let fin := s.t + min q p.remainingTime
  match npPop true ps1 fin rest0 with
  | (arrived2, rest3) =>
    { procs := (setReady ps1 arrived2).set i
        { rrRunProc q s.t p with state := PState.READY },
      rem := rest3,
      cq := (cq2 ++ arrived2) ++ [i],
      t := fin,
      gantt := s.gantt ++ [⟨p.pid, s.t, fin⟩],
      cs := s.cs +
        (if ((cq2 ++ arrived2) ++ [i]).isEmpty && rest3.isEmpty then 0 else 1),
      completed := s.completed }

/-- Round Robin dispatch where the process finishes within its quantum (also
at an exact quantum boundary): it is terminated, never re-enqueued. -/
def rrCompleteState (q : Int) (s : RRState) (arrived : List Nat) (i : Nat)
    (cq2 rest0 : List Nat) : RRState :=
  let ps1 := setReady s.procs arrived
  let p := getP ps1 i
  let fin := s.t + min q p.remainingTime
  match npPop true ps1 fin rest0 with
  | (arrived2, rest3) =>
    { procs := (setReady ps1 arrived2).set i
        (calcProcessMetrics { rrRunProc q s.t p with
          state := PState.TERMINATED, completionTime := fin }),
      rem := rest3,
      cq := cq2 ++ arrived2,
      t := fin,
      gantt := s.gantt ++ [⟨p.pid, s.t, fin⟩],
      cs := s.cs + (if (cq2 ++ arrived2).isEmpty && rest3.isEmpty then 0 else 1),
      completed := s.completed + 1 }

/-- One Round Robin iteration (`round_robin_scheduler.py` lines 40-104). -/
def rrStep (q : Int) (s : RRState) : Option RRState :=
  match npPop true s.procs s.t s.rem with
  | (arrived, rest) =>
    match s.cq ++ arrived, rest with
    | [], [] => none
    | [], j :: rest2 => some (rrJumpState s arrived j rest2)
    | i :: cq2, rest0 =>
      if (0 : Int) <
          (rrRunProc q s.t (getP (setReady s.procs arrived) i)).remainingTime
      then some (rrContinueState q s arrived i cq2 rest0)
      else some (rrCompleteState q s arrived i cq2 rest0)

/-- Fuel-indexed Round Robin loop (`while completed_count < n`). -/
def rrRun (q : Int) : Nat → RRState → RRState
  | 0, s => s
  | f + 1, s =>
    if s.completed < s.procs.length then
      match rrStep q s with
      | none => s
      | some s2 => rrRun q f s2
    else s

/-- Initial Round Robin state. -/
def rrInit (ps : List Proc) : RRState :=
  let ps0 := ps.map resetP
  { procs := ps0,
    rem := sortStable (fun i j => arrivalPidLt (getP ps0 i) (getP ps0 j))
             (List.range ps0.length),
    cq := [], t := 0, gantt := [], cs := 0, completed := 0 }

/-- Fuel sufficient for Round Robin (proved below for positive quanta). -/
def rrFuel (ps : List Proc) : Nat := 2 * (sumBurstNat ps + ps.length) + 2

/-- Total remaining CPU time over the master list, truncated to `Nat`; the
work component of the preemptive loops' termination measures. -/
def sumRemNat (ps : List Proc) : Nat :=
  (ps.map (fun p => p.remainingTime.toNat)).sum

/-- Whether the Round Robin loop can make immediate progress. -/
def rrHasWork (s : RRState) : Bool :=
  !s.cq.isEmpty || !(npPop true s.procs s.t s.rem).1.isEmpty

/-- Termination measure of the Round Robin loop. -/
def rrMeasure (s : RRState) : Nat :=
  2 * (sumRemNat s.procs + s.rem.length) + (if rrHasWork s then 0 else 1)

/-- `RoundRobinScheduler.schedule` with time quantum `q` (default 10). -/
def rr (q : Int) (ps : List Proc) : SchedResult :=
  let sf := rrRun q (rrFuel ps) (rrInit ps)
  mkResult ("Round Robin (q=" ++ toString q ++ ")") sf.procs sf.gantt sf.cs sf.t

/-- Minimum over a list of integers, `none` on the empty list; models Python's
`min(..., default=None)` and `min(..., default=float(str4))` idioms. -/
def olistMin : List Int → Option Int
  | [] => none
  | x :: xs =>
    match olistMin xs with
    | none => some x
    | some m => some (min x m)

/-- Least arrival time among still-NEW processes (used by the idle jump of
SRTF and Preemptive Priority). -/
def minNewArrival (ps : List Proc) : Option Int :=
  olistMin ((ps.filter (fun p => decide (p.state = PState.NEW))).map Proc.arrival)

/-- Least arrival time among NEW processes arriving strictly after `t` (the
next-event candidate of SRTF and Preemptive Priority). -/
def minFutureArrival (ps : List Proc) (t : Int) : Option Int :=
  olistMin ((ps.filter
    (fun p => decide (p.state = PState.NEW) && decide (t < p.arrival))).map
      Proc.arrival)

/-- Indices of still-NEW processes that have arrived by time `t`, scanned in
master-list order (`for process in processes: ...`). -/
def newArrivedIdx (ps : List Proc) (t : Int) : List Nat :=
  (List.range ps.length).filter
    (fun i => decide ((getP ps i).arrival ≤ t) &&
              decide ((getP ps i).state = PState.NEW))

/-- State of `SRTFScheduler.schedule`.  `running` mirrors
`self.running_process`; both outcome branches of an iteration reset it to
`none`, which is what starves the context-switch counter. -/
structure SRTFState where
  procs : List Proc
  rq : List Nat
  running : Option Nat
  t : Int
  gantt : List GEntry
  cs : Nat
  completed : Nat
deriving DecidableEq, Repr

/-- The SRTF ready queue after the in-place `select_next` sort (the stable
sort by `(remaining_time, arrival_time, pid)`). -/
def srtfSorted (s : SRTFState) (arrived : List Nat) : List Nat :=
  sortStable (fun i j => srtfLt (getP (setReady s.procs arrived) i)
    (getP (setReady s.procs arrived) j)) (s.rq ++ arrived)

/-- Master list after the response-time stamp and (when the dispatched process
was not already running) the RUNNING flag of one SRTF iteration. -/
def srtfPs3 (s : SRTFState) (arrived : List Nat) (i : Nat) : List Proc :=
  let ps2 := updAt (setReady s.procs arrived) i (fun p0 => { p0 with
      responseTime := if p0.responseTime = -1 then s.t - p0.arrival
                      else p0.responseTime })
  if s.running ≠ some i then
    updAt ps2 i (fun p0 => { p0 with state := PState.RUNNING })
  else ps2

/-- Context-switch counter after one SRTF dispatch: it only moves when a
non-`None` `running_process` is displaced. -/
def srtfCs1 (s : SRTFState) (i : Nat) : Nat :=
  if s.running ≠ some i then s.cs + (if s.running ≠ none then 1 else 0)
  else s.cs

/-- Ready queue right after an SRTF dispatch (`remove_from_ready_queue`
removes the sorted head unless the process was already running). -/
def srtfRq2 (s : SRTFState) (sorted : List Nat) (i : Nat) : List Nat :=
  if s.running ≠ some i then sorted.tail else sorted

/-- Completion-time candidate of the dispatched SRTF process. -/
def srtfComp (s : SRTFState) (arrived : List Nat) (i : Nat) : Int :=
  s.t + (getP (srtfPs3 s arrived i) i).remainingTime

/-- State reached when SRTF has no ready process and jumps to the next
arrival. -/
def srtfJumpState (s : SRTFState) (arrived : List Nat) (a : Int) : SRTFState :=
  { s with procs := setReady s.procs arrived, t := a }

/-- Field update of an SRTF process preempted at time `a`: burn the elapsed
slice and go back to READY. -/
def srtfPremF (s : SRTFState) (a : Int) : Proc → Proc :=
  fun p0 => { p0 with
    remainingTime := p0.remainingTime - (a - s.t),
    state := PState.READY }

/-- Field update of an SRTF process that runs to completion. -/
def srtfTermF (s : SRTFState) (arrived : List Nat) (i : Nat) : Proc → Proc :=
  fun p0 => calcProcessMetrics { p0 with
    remainingTime := 0, completionTime := srtfComp s arrived i,
    state := PState.TERMINATED }

/-- SRTF dispatch preempted by an arrival before completion: the process is
put back (appended) into the ready queue and `running_process` is cleared. -/
def srtfPreemptState (s : SRTFState) (arrived sorted : List Nat) (a : Int) :
    SRTFState :=
  let i := sorted.headD 0
  { procs := updAt (srtfPs3 s arrived i) i (srtfPremF s a),
    rq := srtfRq2 s sorted i ++ [i],
    running := none, t := a,
    gantt := s.gantt ++ [⟨(getP (setReady s.procs arrived) i).pid, s.t, a⟩],
    cs := srtfCs1 s i,
    completed := s.completed }

/-- SRTF dispatch that runs to completion: the process is terminated, its
metrics are computed, and `running_process` is cleared. -/
def srtfCompleteState (s : SRTFState) (arrived sorted : List Nat) :
    SRTFState :=
  let i := sorted.headD 0
  { procs := updAt (srtfPs3 s arrived i) i (srtfTermF s arrived i),
    rq := srtfRq2 s sorted i,
    running := none, t := srtfComp s arrived i,
    gantt := s.gantt ++ [⟨(getP (setReady s.procs arrived) i).pid, s.t,
      srtfComp s arrived i⟩],
    cs := srtfCs1 s i,
    completed := s.completed + 1 }

/-- One SRTF iteration (`srtf_scheduler.py` lines 41-119). -/
def srtfStep (s : SRTFState) : Option SRTFState :=
  match s.rq ++ newArrivedIdx s.procs s.t with
  | [] =>
    match minNewArrival (setReady s.procs (newArrivedIdx s.procs s.t)) with
    | some a => some (srtfJumpState s (newArrivedIdx s.procs s.t) a)
    | none => none
  | _ :: _ =>
    match minFutureArrival
        (srtfPs3 s (newArrivedIdx s.procs s.t)
          ((srtfSorted s (newArrivedIdx s.procs s.t)).headD 0)) s.t with
    | some a =>
      if a < srtfComp s (newArrivedIdx s.procs s.t)
          ((srtfSorted s (newArrivedIdx s.procs s.t)).headD 0)
      then some (srtfPreemptState s (newArrivedIdx s.procs s.t)
        (srtfSorted s (newArrivedIdx s.procs s.t)) a)
      else some (srtfCompleteState s (newArrivedIdx s.procs s.t)
        (srtfSorted s (newArrivedIdx s.procs s.t)))
    | none => some (srtfCompleteState s (newArrivedIdx s.procs s.t)
        (srtfSorted s (newArrivedIdx s.procs s.t)))

/-- Fuel-indexed SRTF loop (`while completed_count < n`). -/
def srtfRun : Nat → SRTFState → SRTFState
  | 0, s => s
  | f + 1, s =>
    if s.completed < s.procs.length then
      match srtfStep s with
      | none => s
      | some s2 => srtfRun f s2
    else s

/-- Initial SRTF state. -/
def srtfInit (ps : List Proc) : SRTFState :=
  { procs := ps.map resetP, rq := [], running := none, t := 0,
    gantt := [], cs := 0, completed := 0 }

/-- Fuel sufficient for SRTF (proved below for positive bursts). -/
def srtfFuel (ps : List Proc) : Nat := 2 * sumBurstNat ps + 2

/-- Number of processes still in the NEW state. -/
def newCount (ps : List Proc) : Nat :=
  ps.countP (fun p => decide (p.state = PState.NEW))

/-- Whether the SRTF loop can make immediate progress: some process is ready
or has arrived. -/
def srtfHasWork (s : SRTFState) : Bool :=
  !s.rq.isEmpty || !(newArrivedIdx s.procs s.t).isEmpty

/-- Termination measure of the SRTF loop. -/
def srtfMeasure (s : SRTFState) : Nat :=
  2 * sumRemNat s.procs + (if srtfHasWork s then 0 else 1)

/-- `SRTFScheduler.schedule`. -/
def srtf (ps : List Proc) : SchedResult :=
  let sf := srtfRun (srtfFuel ps) (srtfInit ps)
  mkResult "SRTF" sf.procs sf.gantt sf.cs sf.t

/-- State of `PreemptivePriorityScheduler.schedule` (priority with aging). -/
structure PPState where
  procs : List Proc
  rq : List Nat
  running : Option Nat
  t : Int
  gantt : List GEntry
  cs : Nat
  completed : Nat
  lastAging : Int
deriving DecidableEq, Repr

/-- The aging bump applied to every waiting process (`apply_aging`). -/
def ppAgeF (agingA : Int) : Proc → Proc :=
  fun p => { p with agingCounter := p.agingCounter + agingA }

/-- Whether this Preemptive Priority iteration applies aging
(`current_time - last_aging_time >= aging_interval`). -/
def ppDoAge (agingI : Int) (s : PPState) : Bool :=
  decide (agingI ≤ s.t - s.lastAging)

/-- Master list after arrivals were set READY and aging (if due) was applied
to the whole ready queue. -/
def ppPs2 (agingI agingA : Int) (s : PPState) (arrived : List Nat) :
    List Proc :=
  if ppDoAge agingI s then
    updAll (ppAgeF agingA) (setReady s.procs arrived) (s.rq ++ arrived)
  else setReady s.procs arrived

/-- `last_aging_time` after the periodic aging check. -/
def ppLastA (agingI : Int) (s : PPState) : Int :=
  if ppDoAge agingI s then s.t else s.lastAging

/-- The Preemptive Priority ready queue after the in-place `select_next`
sort by `(priority - aging_counter, arrival_time, pid)`. -/
def ppSorted (agingI agingA : Int) (s : PPState) (arrived : List Nat) :
    List Nat :=
  sortStable (fun i j => ppLt (getP (ppPs2 agingI agingA s arrived) i)
    (getP (ppPs2 agingI agingA s arrived) j)) (s.rq ++ arrived)

/-- Master list after the response-time stamp and (when the dispatched process
was not already running) the RUNNING flag. -/
def ppPs4 (agingI agingA : Int) (s : PPState) (arrived : List Nat) (i : Nat) :
    List Proc :=
  let ps3 := updAt (ppPs2 agingI agingA s arrived) i (fun p0 => { p0 with
      responseTime := if p0.responseTime = -1 then s.t - p0.arrival
                      else p0.responseTime })
  if s.running ≠ some i then
    updAt ps3 i (fun p0 => { p0 with state := PState.RUNNING })
  else ps3

/-- Context-switch counter after one Preemptive Priority dispatch. -/
def ppCs1 (s : PPState) (i : Nat) : Nat :=
  if s.running ≠ some i then s.cs + (if s.running ≠ none then 1 else 0)
  else s.cs

/-- Ready queue right after a Preemptive Priority dispatch. -/
def ppRq2 (s : PPState) (sorted : List Nat) (i : Nat) : List Nat :=
  if s.running ≠ some i then sorted.tail else sorted

/-- The next event time: the least of the next arrival, the next aging
boundary, and the completion of the dispatched process. -/
def ppNe (agingI agingA : Int) (s : PPState) (arrived : List Nat) (i : Nat) :
    Int :=
  match minFutureArrival (ppPs4 agingI agingA s arrived i) s.t with
  | some a => min a (min (ppLastA agingI s + agingI)
      (s.t + (getP (ppPs4 agingI agingA s arrived i) i).remainingTime))
  | none => min (ppLastA agingI s + agingI)
      (s.t + (getP (ppPs4 agingI agingA s arrived i) i).remainingTime)

/-- Field update burning the dispatched slice `run_time = next_event - t`. -/
def ppBurnF (agingI agingA : Int) (s : PPState) (arrived : List Nat)
    (i : Nat) : Proc → Proc :=
  fun p0 => { p0 with remainingTime :=
    p0.remainingTime - (ppNe agingI agingA s arrived i - s.t) }

/-- Master list after the dispatched process ran its slice. -/
def ppPs5 (agingI agingA : Int) (s : PPState) (arrived : List Nat) (i : Nat) :
    List Proc :=
  updAt (ppPs4 agingI agingA s arrived i) i (ppBurnF agingI agingA s arrived i)

/-- Gantt chart after one Preemptive Priority dispatch (a segment is logged
only when the slice is non-empty). -/
def ppG1 (agingI agingA : Int) (s : PPState) (arrived : List Nat) (i : Nat) :
    List GEntry :=
  if 0 < ppNe agingI agingA s arrived i - s.t then
    s.gantt ++ [⟨(getP (ppPs2 agingI agingA s arrived) i).pid, s.t,
      ppNe agingI agingA s arrived i⟩]
  else s.gantt

/-- Field update of a Preemptive Priority process that runs to completion. -/
def ppTermF (agingI agingA : Int) (s : PPState) (arrived : List Nat)
    (i : Nat) : Proc → Proc :=
  fun p0 => calcProcessMetrics { p0 with
    remainingTime := 0, completionTime := ppNe agingI agingA s arrived i,
    state := PState.TERMINATED }

/-- State reached when Preemptive Priority has no ready process and jumps to
the next arrival. -/
def ppJumpState (agingI agingA : Int) (s : PPState) (arrived : List Nat)
    (a : Int) : PPState :=
  { s with procs := ppPs2 agingI agingA s arrived,
           lastAging := ppLastA agingI s, t := a }

/-- Preemptive Priority dispatch whose process finishes at the next event. -/
def ppCompleteState (agingI agingA : Int) (s : PPState)
    (arrived sorted : List Nat) : PPState :=
  let i := sorted.headD 0
  { procs := updAt (ppPs5 agingI agingA s arrived i) i
      (ppTermF agingI agingA s arrived i),
    rq := ppRq2 s sorted i, running := none,
    t := ppNe agingI agingA s arrived i,
    gantt := ppG1 agingI agingA s arrived i, cs := ppCs1 s i,
    completed := s.completed + 1, lastAging := ppLastA agingI s }

/-- Preemptive Priority dispatch interrupted by an arrival or an aging
boundary: the process goes back to READY and is re-appended to the queue. -/
def ppYieldState (agingI agingA : Int) (s : PPState)
    (arrived sorted : List Nat) : PPState :=
  let i := sorted.headD 0
  { procs := updAt (ppPs5 agingI agingA s arrived i) i
      (fun p0 => { p0 with state := PState.READY }),
    rq := ppRq2 s sorted i ++ [i], running := none,
    t := ppNe agingI agingA s arrived i,
    gantt := ppG1 agingI agingA s arrived i, cs := ppCs1 s i,
    completed := s.completed, lastAging := ppLastA agingI s }

/-- The residual branch of a Preemptive Priority dispatch: the process keeps
running across the event (unreachable, since the next event always is an
arrival, an aging boundary, or the completion). -/
def ppRunOnState (agingI agingA : Int) (s : PPState)
    (arrived sorted : List Nat) : PPState :=
  let i := sorted.headD 0
  { procs := ppPs5 agingI agingA s arrived i,
    rq := ppRq2 s sorted i, running := some i,
    t := ppNe agingI agingA s arrived i,
    gantt := ppG1 agingI agingA s arrived i, cs := ppCs1 s i,
    completed := s.completed, lastAging := ppLastA agingI s }

/-- One Preemptive Priority iteration
(`priority_scheduler.py` lines 134-210). -/
def ppStep (agingI agingA : Int) (s : PPState) : Option PPState :=
  match s.rq ++ newArrivedIdx s.procs s.t with
  | [] =>
    match minNewArrival (ppPs2 agingI agingA s
        (newArrivedIdx s.procs s.t)) with
    | some a => some (ppJumpState agingI agingA s
        (newArrivedIdx s.procs s.t) a)
    | none => none
  | _ :: _ =>
    if (getP (ppPs5 agingI agingA s (newArrivedIdx s.procs s.t)
          ((ppSorted agingI agingA s (newArrivedIdx s.procs s.t)).headD 0))
        ((ppSorted agingI agingA s
          (newArrivedIdx s.procs s.t)).headD 0)).remainingTime ≤ 0 then
      some (ppCompleteState agingI agingA s (newArrivedIdx s.procs s.t)
        (ppSorted agingI agingA s (newArrivedIdx s.procs s.t)))
    else if (match minFutureArrival (ppPs4 agingI agingA s
          (newArrivedIdx s.procs s.t)
          ((ppSorted agingI agingA s
            (newArrivedIdx s.procs s.t)).headD 0)) s.t with
        | some a => decide (ppNe agingI agingA s (newArrivedIdx s.procs s.t)
            ((ppSorted agingI agingA s
              (newArrivedIdx s.procs s.t)).headD 0) = a)
        | none => false) ||
        decide (ppNe agingI agingA s (newArrivedIdx s.procs s.t)
          ((ppSorted agingI agingA s (newArrivedIdx s.procs s.t)).headD 0) =
          ppLastA agingI s + agingI) then
      some (ppYieldState agingI agingA s (newArrivedIdx s.procs s.t)
        (ppSorted agingI agingA s (newArrivedIdx s.procs s.t)))
    else
      some (ppRunOnState agingI agingA s (newArrivedIdx s.procs s.t)
        (ppSorted agingI agingA s (newArrivedIdx s.procs s.t)))

/-- Fuel-indexed Preemptive Priority loop. -/
def ppRun (agingI agingA : Int) : Nat → PPState → PPState
  | 0, s => s
  | f + 1, s =>
    if s.completed < s.procs.length then
      match ppStep agingI agingA s with
      | none => s
      | some s2 => ppRun agingI agingA f s2
    else s

/-- Initial Preemptive Priority state. -/
def ppInit (ps : List Proc) : PPState :=
  { procs := ps.map resetP, rq := [], running := none, t := 0,
    gantt := [], cs := 0, completed := 0, lastAging := 0 }

/-- Fuel sufficient for Preemptive Priority (proved below for positive bursts
and a positive aging interval). -/
def ppFuel (ps : List Proc) : Nat := 2 * sumBurstNat ps + 2

/-- `PreemptivePriorityScheduler.schedule` with the given aging parameters
(defaults 50 and 1). -/
def pp (agingI agingA : Int) (ps : List Proc) : SchedResult :=
  let sf := ppRun agingI agingA (ppFuel ps) (ppInit ps)
  mkResult "Priority (Preemptive with Aging)" sf.procs sf.gantt sf.cs sf.t

/-- Whether the Preemptive Priority loop can make immediate progress. -/
def ppHasWork (s : PPState) : Bool :=
  !s.rq.isEmpty || !(newArrivedIdx s.procs s.t).isEmpty

/-- Termination measure of the Preemptive Priority loop. -/
def ppMeasure (s : PPState) : Nat :=
  2 * sumRemNat s.procs + (if ppHasWork s then 0 else 1)

/-- State of `MLFQScheduler.schedule`, instantiated at the default
configuration: three levels with quanta `[8, 16, 0]` and boost interval 500. -/
structure MLFQState where
  procs : List Proc
  rem : List Nat
  q0 : List Nat
  q1 : List Nat
  q2 : List Nat
  t : Int
  gantt : List GEntry
  cs : Nat
  completed : Nat
  lastBoost : Int
deriving DecidableEq, Repr

/-- `MLFQScheduler.add_to_queue` (mark READY, set and clamp the level) batched
over the newly arrived indices, which always target level 0. -/
def addAllQ0 (ps : List Proc) (is2 : List Nat) : List Proc :=
  updAll (fun p => { p with queueLevel := 0, state := PState.READY }) ps is2

/-- Whether this MLFQ iteration performs the periodic priority boost
(hard-coded interval 500). -/
def mlfqDoBoost (s : MLFQState) : Bool :=
  decide ((500 : Int) ≤ s.t - s.lastBoost)

/-- The boost update: every moved process returns to level 0. -/
def mlfqBoostF : Proc → Proc := fun p => { p with queueLevel := 0 }

/-- Master list after new arrivals entered level 0 and the boost (if due)
relabeled the lower queues. -/
def mlfqPs2 (s : MLFQState) (arrived : List Nat) : List Proc :=
  if mlfqDoBoost s then
    updAll mlfqBoostF (addAllQ0 s.procs arrived) (s.q1 ++ s.q2)
  else addAllQ0 s.procs arrived

/-- Level-0 queue after arrivals and the boost check. -/
def mlfqQ0b (s : MLFQState) (arrived : List Nat) : List Nat :=
  if mlfqDoBoost s then (s.q0 ++ arrived) ++ (s.q1 ++ s.q2)
  else s.q0 ++ arrived

/-- Level-1 queue after the boost check. -/
def mlfqQ1b (s : MLFQState) : List Nat :=
  if mlfqDoBoost s then [] else s.q1

/-- Level-2 queue after the boost check. -/
def mlfqQ2b (s : MLFQState) : List Nat :=
  if mlfqDoBoost s then [] else s.q2

/-- `last_boost_time` after the boost check. -/
def mlfqLastB (s : MLFQState) : Int :=
  if mlfqDoBoost s then s.t else s.lastBoost

/-- State reached when all MLFQ queues are empty and the clock jumps to the
next pending arrival. -/
def mlfqJumpState (s : MLFQState) (arrived : List Nat) (j : Nat)
    (rest2 : List Nat) : MLFQState :=
  { s with procs := mlfqPs2 s arrived, rem := j :: rest2, q0 := [], q1 := [],
           q2 := [], t := (getP (mlfqPs2 s arrived) j).arrival,
           lastBoost := mlfqLastB s }

/-- The response-time stamp plus RUNNING flag of an MLFQ dispatch. -/
def mlfqRespRunF (s : MLFQState) : Proc → Proc :=
  fun p0 => { p0 with
    responseTime := if p0.responseTime = -1 then s.t - p0.arrival
                    else p0.responseTime,
    state := PState.RUNNING }

/-- Master list after the dispatched process was stamped and set RUNNING. -/
def mlfqPs3 (s : MLFQState) (arrived : List Nat) (i : Nat) : List Proc :=
  updAt (mlfqPs2 s arrived) i (mlfqRespRunF s)

/-- The level quantum (`[8, 16, 0]`, with 0 meaning FCFS at level 2). -/
def mlfqTq (s : MLFQState) (arrived : List Nat) (lvl : Nat) (i : Nat) : Int :=
  if lvl = 0 then 8 else if lvl = 1 then 16
  else (getP (mlfqPs3 s arrived i) i).remainingTime

/-- The dispatched slice before the arrival cut. -/
def mlfqRun0 (s : MLFQState) (arrived : List Nat) (lvl : Nat) (i : Nat) :
    Int :=
  min (mlfqTq s arrived lvl i) (getP (mlfqPs3 s arrived i) i).remainingTime

/-- The arrival time of the next pending process, if any. -/
def mlfqNa (s : MLFQState) (arrived : List Nat) (i : Nat) (rest : List Nat) :
    Option Int :=
  match rest with
  | [] => none
  | j :: _ => some (getP (mlfqPs3 s arrived i) j).arrival

/-- The dispatched slice after the arrival cut, which only applies at levels
above 0. -/
def mlfqRun1 (s : MLFQState) (arrived : List Nat) (lvl : Nat) (i : Nat)
    (rest : List Nat) : Int :=
  match mlfqNa s arrived i rest with
  | some a => if a < s.t + mlfqRun0 s arrived lvl i && decide (0 < lvl)
      then a - s.t else mlfqRun0 s arrived lvl i
  | none => mlfqRun0 s arrived lvl i

/-- The actually executed slice. -/
def mlfqActual (s : MLFQState) (arrived : List Nat) (lvl : Nat) (i : Nat)
    (rest : List Nat) : Int :=
  min (mlfqRun1 s arrived lvl i rest)
    (getP (mlfqPs3 s arrived i) i).remainingTime

/-- The clock after the dispatched slice. -/
def mlfqFin (s : MLFQState) (arrived : List Nat) (lvl : Nat) (i : Nat)
    (rest : List Nat) : Int :=
  s.t + mlfqActual s arrived lvl i rest

/-- Field update burning the executed slice. -/
def mlfqBurnF (s : MLFQState) (arrived : List Nat) (lvl : Nat) (i : Nat)
    (rest : List Nat) : Proc → Proc :=
  fun p0 => { p0 with
    remainingTime := p0.remainingTime - mlfqActual s arrived lvl i rest }

/-- Master list after the dispatched process ran its slice. -/
def mlfqPs4 (s : MLFQState) (arrived : List Nat) (lvl : Nat) (i : Nat)
    (rest : List Nat) : List Proc :=
  updAt (mlfqPs3 s arrived i) i (mlfqBurnF s arrived lvl i rest)

/-- Gantt chart after one MLFQ dispatch. -/
def mlfqG1 (s : MLFQState) (arrived : List Nat) (lvl : Nat) (i : Nat)
    (rest : List Nat) : List GEntry :=
  s.gantt ++ [⟨(getP (mlfqPs2 s arrived) i).pid, s.t,
    mlfqFin s arrived lvl i rest⟩]

/-- Level-0 queue after one dispatch: the scheduled queue lost its head, and
the processes that arrived during the slice entered level 0. -/
def mlfqQ0c (s : MLFQState) (arrived : List Nat) (lvl : Nat)
    (qtail arrived2 : List Nat) : List Nat :=
  (if lvl = 0 then qtail else mlfqQ0b s arrived) ++ arrived2

/-- Level-1 queue after one dispatch. -/
def mlfqQ1c (s : MLFQState) (lvl : Nat) (qtail : List Nat) : List Nat :=
  if lvl = 1 then qtail else mlfqQ1b s

/-- Level-2 queue after one dispatch. -/
def mlfqQ2c (s : MLFQState) (lvl : Nat) (qtail : List Nat) : List Nat :=
  if lvl = 2 then qtail else mlfqQ2b s

/-- Field update of an MLFQ process that runs to completion. -/
def mlfqTermF (s : MLFQState) (arrived : List Nat) (lvl : Nat) (i : Nat)
    (rest : List Nat) : Proc → Proc :=
  fun p0 => calcProcessMetrics { p0 with
    remainingTime := 0, completionTime := mlfqFin s arrived lvl i rest,
    state := PState.TERMINATED }

/-- MLFQ dispatch whose process finishes within its slice. -/
def mlfqCompleteState (s : MLFQState) (arrived : List Nat) (lvl : Nat)
    (qtail : List Nat) (i : Nat) (rest arrived2 rest3 : List Nat) :
    MLFQState :=
  { procs := updAt (addAllQ0 (mlfqPs4 s arrived lvl i rest) arrived2) i
      (mlfqTermF s arrived lvl i rest),
    rem := rest3,
    q0 := mlfqQ0c s arrived lvl qtail arrived2,
    q1 := mlfqQ1c s lvl qtail,
    q2 := mlfqQ2c s lvl qtail,
    t := mlfqFin s arrived lvl i rest,
    gantt := mlfqG1 s arrived lvl i rest, cs := s.cs + 1,
    completed := s.completed + 1, lastBoost := mlfqLastB s }

/-- MLFQ dispatch that used its full quantum at a non-bottom level: the
process is demoted one level. -/
def mlfqDemoteState (s : MLFQState) (arrived : List Nat) (lvl : Nat)
    (qtail : List Nat) (i : Nat) (rest arrived2 rest3 : List Nat) :
    MLFQState :=
  { procs := updAt (addAllQ0 (mlfqPs4 s arrived lvl i rest) arrived2) i
      (fun p0 => { p0 with
        queueLevel := min (lvl + 1) 2, state := PState.READY }),
    rem := rest3,
    q0 := if min (lvl + 1) 2 = 0
      then mlfqQ0c s arrived lvl qtail arrived2 ++ [i]
      else mlfqQ0c s arrived lvl qtail arrived2,
    q1 := if min (lvl + 1) 2 = 1 then mlfqQ1c s lvl qtail ++ [i]
      else mlfqQ1c s lvl qtail,
    q2 := if min (lvl + 1) 2 = 2 then mlfqQ2c s lvl qtail ++ [i]
      else mlfqQ2c s lvl qtail,
    t := mlfqFin s arrived lvl i rest,
    gantt := mlfqG1 s arrived lvl i rest, cs := s.cs + 1,
    completed := s.completed, lastBoost := mlfqLastB s }

/-- MLFQ dispatch that yielded early (or was cut by an arrival): the process
re-enters its current level. -/
def mlfqStayState (s : MLFQState) (arrived : List Nat) (lvl : Nat)
    (qtail : List Nat) (i : Nat) (rest arrived2 rest3 : List Nat) :
    MLFQState :=
  { procs := updAt (addAllQ0 (mlfqPs4 s arrived lvl i rest) arrived2) i
      (fun p0 => { p0 with queueLevel := lvl, state := PState.READY }),
    rem := rest3,
    q0 := if lvl = 0 then mlfqQ0c s arrived lvl qtail arrived2 ++ [i]
      else mlfqQ0c s arrived lvl qtail arrived2,
    q1 := if lvl = 1 then mlfqQ1c s lvl qtail ++ [i]
      else mlfqQ1c s lvl qtail,
    q2 := if lvl = 2 then mlfqQ2c s lvl qtail ++ [i]
      else mlfqQ2c s lvl qtail,
    t := mlfqFin s arrived lvl i rest,
    gantt := mlfqG1 s arrived lvl i rest, cs := s.cs + 1,
    completed := s.completed, lastBoost := mlfqLastB s }

/-- One MLFQ dispatch out of level `lvl` whose scheduled queue has head `i`
and tail `qtail`: run the slice, pop the processes that arrived meanwhile,
then complete, demote, or stay. -/
def mlfqDispatch (s : MLFQState) (arrived : List Nat) (lvl : Nat)
    (qtail : List Nat) (i : Nat) (rest : List Nat) : MLFQState :=
  match npPop true (mlfqPs4 s arrived lvl i rest)
      (mlfqFin s arrived lvl i rest) rest with
  | (arrived2, rest3) =>
    if (getP (addAllQ0 (mlfqPs4 s arrived lvl i rest) arrived2)
        i).remainingTime ≤ 0 then
      mlfqCompleteState s arrived lvl qtail i rest arrived2 rest3
    else if mlfqTq s arrived lvl i ≤ mlfqActual s arrived lvl i rest &&
        decide (lvl < 2) then
      mlfqDemoteState s arrived lvl qtail i rest arrived2 rest3
    else
      mlfqStayState s arrived lvl qtail i rest arrived2 rest3

/-- One MLFQ iteration (`mlfq_scheduler.py` lines 85-171). -/
def mlfqStep (s : MLFQState) : Option MLFQState :=
  match npPop true s.procs s.t s.rem with
  | (arrived, rest) =>
    if (mlfqQ0b s arrived).isEmpty && (mlfqQ1b s).isEmpty &&
        (mlfqQ2b s).isEmpty then
      match rest with
      | [] => none
      | j :: rest2 => some (mlfqJumpState s arrived j rest2)
    else
      if (mlfqQ0b s arrived).isEmpty then
        if (mlfqQ1b s).isEmpty then
          some (mlfqDispatch s arrived 2 ((mlfqQ2b s).tail)
            ((mlfqQ2b s).headD 0) rest)
        else
          some (mlfqDispatch s arrived 1 ((mlfqQ1b s).tail)
            ((mlfqQ1b s).headD 0) rest)
      else
        some (mlfqDispatch s arrived 0 ((mlfqQ0b s arrived).tail)
          ((mlfqQ0b s arrived).headD 0) rest)

/-- Fuel-indexed MLFQ loop. -/
def mlfqRun : Nat → MLFQState → MLFQState
  | 0, s => s
  | f + 1, s =>
    if s.completed < s.procs.length then
      match mlfqStep s with
      | none => s
      | some s2 => mlfqRun f s2
    else s

/-- Initial MLFQ state. -/
def mlfqInit (ps : List Proc) : MLFQState :=
  let ps0 := ps.map resetP
  { procs := ps0,
    rem := sortStable (fun i j => arrivalPidLt (getP ps0 i) (getP ps0 j))
             (List.range ps0.length),
    q0 := [], q1 := [], q2 := [], t := 0, gantt := [], cs := 0,
    completed := 0, lastBoost := 0 }

/-- Fuel sufficient for MLFQ (proved below for positive bursts). -/
def mlfqFuel (ps : List Proc) : Nat := 2 * sumBurstNat ps + 2

/-- `MLFQScheduler.schedule` at the default configuration. -/
def mlfq (ps : List Proc) : SchedResult :=
  let sf := mlfqRun (mlfqFuel ps) (mlfqInit ps)
  mkResult "MLFQ" sf.procs sf.gantt sf.cs sf.t

/-- Whether the MLFQ loop can make immediate progress. -/
def mlfqHasWork (s : MLFQState) : Bool :=
  !(s.q0 ++ (s.q1 ++ s.q2)).isEmpty ||
  !(npPop true s.procs s.t s.rem).1.isEmpty

/-- Termination measure of the MLFQ loop. -/
def mlfqMeasure (s : MLFQState) : Nat :=
  2 * sumRemNat s.procs + (if mlfqHasWork s then 0 else 1)

/-- Closed enumeration of the seven algorithms known to the Adaptive
Selector (`adaptive_selector.py`, `self.schedulers` keys). -/
inductive AlgoKind where
  | FCFS
  | SJF
  | SRTF
  | RR
  | Priority
  | PreemptivePriority
  | MLFQ
deriving DecidableEq, Repr

/-- Mean of a list of rationals (`statistics.mean`; callers guard emptiness). -/
def qmean (l : List ℚ) : ℚ := l.sum / (l.length : ℚ)

/-- Sample variance (`statistics.variance`, denominator `n - 1`; callers guard
`n > 1`). -/
def sampleVar (l : List ℚ) : ℚ :=
  let m := qmean l
  (l.map (fun x => (x - m) ^ 2)).sum / ((l.length : ℚ) - 1)

/-- Square root on ℚ standing in for the float square root inside
`statistics.stdev`.  It is exact at 0 (and at perfect squares), which covers
every value at which the verified claims evaluate it; elsewhere it is a
deterministic floor-square-root approximation. -/
def sqrtQ (x : ℚ) : ℚ :=
  if x ≤ 0 then 0 else (Int.sqrt x.num : ℚ) / (Nat.sqrt x.den : ℚ)

/-- Maximum of a list of integers, `none` on the empty list. -/
def olistMax : List Int → Option Int
  | [] => none
  | x :: xs =>
    match olistMax xs with
    | none => some x
    | some m => some (max x m)

/-- Truncation of a rational toward zero, modelling Python's `int(float)`. -/
def truncQ (x : ℚ) : Int := Int.tdiv x.num (x.den : Int)

/-- The `WorkloadAnalysis` dataclass.  `ioBoundShare` / `cpuBoundShare` are the
I/O-bound and CPU-bound fractions of the workload. -/
structure WorkloadAnalysis where
  processCount : Nat
  avgBurstTime : ℚ
  burstTimeVariance : ℚ
  coefficientOfVariation : ℚ
  priorityRange : Int
  priorityVariance : ℚ
  ioBoundShare : ℚ
  cpuBoundShare : ℚ
  avgArrivalSpread : ℚ
  isInteractive : Bool
  isBatch : Bool
deriving DecidableEq, Repr

/-- `AdaptiveSelector.analyze_workload`. -/
def analyzeWorkload (ps : List Proc) : WorkloadAnalysis :=
  if ps.isEmpty then
    { processCount := 0, avgBurstTime := 0, burstTimeVariance := 0,
      coefficientOfVariation := 0, priorityRange := 0, priorityVariance := 0,
      ioBoundShare := 0, cpuBoundShare := 0, avgArrivalSpread := 0,
      isInteractive := false, isBatch := false }
  else
    let n := ps.length
    let bursts : List ℚ := ps.map (fun p => (p.burst : ℚ))
    let priors : List ℚ := ps.map (fun p => (p.priority : ℚ))
    let sortedArr :=
      sortStable (fun a b => decide (a < b)) (ps.map Proc.arrival)
    let avgBurst := qmean bursts
    let burstVar := if 1 < n then sampleVar bursts else 0
    let burstStd := if 1 < n then sqrtQ (sampleVar bursts) else 0
    let cv := if 0 < avgBurst then burstStd / avgBurst else 0
    let pRange := (olistMax (ps.map Proc.priority)).getD 0 -
                  (olistMin (ps.map Proc.priority)).getD 0
    let priorVar := if 1 < n then sampleVar priors else 0
    let ioShare : ℚ := ((ps.filter (fun p => p.ioBound)).length : ℚ) / (n : ℚ)
    let ds := (sortedArr.zip sortedArr.tail).map
      (fun ab => ((ab.2 - ab.1 : Int) : ℚ))
    let spread := if 1 < n then (if ds.isEmpty then 0 else qmean ds) else 0
    { processCount := n,
      avgBurstTime := avgBurst,
      burstTimeVariance := burstVar,
      coefficientOfVariation := cv,
      priorityRange := pRange,
      priorityVariance := priorVar,
      ioBoundShare := ioShare,
      cpuBoundShare := 1 - ioShare,
      avgArrivalSpread := spread,
      isInteractive := decide (avgBurst < 50) && decide ((3 : ℚ)/10 < ioShare),
      isBatch := decide ((100 : ℚ) < avgBurst) && decide (ioShare < (1 : ℚ)/5) }

/-- The `PerformanceEstimate` dataclass: algorithm kind, display name and the
closed-form estimated average waiting time. -/
structure PerfEstimate where
  kind : AlgoKind
  algorithm : String
  estimatedWaitTime : ℚ
deriving DecidableEq, Repr

/-- `AdaptiveSelector._estimate_performance`: heuristic per-algorithm
estimates, in dictionary insertion order. -/
def estimatePerformance (a : WorkloadAnalysis) : List PerfEstimate :=
  let n : ℚ := (a.processCount : ℚ)
  let avgBurst := a.avgBurstTime
  let cv := a.coefficientOfVariation
  let fcfsW0 := avgBurst * (n - 1) / 2
  let fcfsW := if (1 : ℚ)/2 < cv then fcfsW0 * (1 + cv * (3 : ℚ)/10) else fcfsW0
  let sjfW := avgBurst * (n - 1) / 3
  let srtfW := avgBurst * (n - 1) / 4
  let quantum := min (max 10 (truncQ (avgBurst / 5))) 50
  let rrW0 := avgBurst * n / 2
  let rrW := if (3 : ℚ)/10 < a.ioBoundShare then rrW0 * (8 : ℚ)/10 else rrW0
  let priorityW0 := avgBurst * (n - 1) / 3
  let priorityW := if a.priorityVariance < 3 then priorityW0 * (13 : ℚ)/10
                   else priorityW0
  let ppW0 := avgBurst * (n - 1) / 4
  let ppW := if (3 : ℚ)/10 < a.ioBoundShare then ppW0 * (9 : ℚ)/10 else ppW0
  let mlfqW0 := avgBurst * n / 3
  let mlfqW := if 10 < a.processCount then mlfqW0 * (9 : ℚ)/10 else mlfqW0
  [ { kind := AlgoKind.FCFS, algorithm := "FCFS", estimatedWaitTime := fcfsW },
    { kind := AlgoKind.SJF, algorithm := "SJF", estimatedWaitTime := sjfW },
    { kind := AlgoKind.SRTF, algorithm := "SRTF", estimatedWaitTime := srtfW },
    { kind := AlgoKind.RR,
      algorithm := "RR (q=" ++ toString quantum ++ ")",
      estimatedWaitTime := rrW },
    { kind := AlgoKind.Priority, algorithm := "Priority",
      estimatedWaitTime := priorityW },
    { kind := AlgoKind.PreemptivePriority, algorithm := "Preemptive Priority",
      estimatedWaitTime := ppW },
    { kind := AlgoKind.MLFQ, algorithm := "MLFQ",
      estimatedWaitTime := mlfqW } ]

/-- Constant folding of the substring test `(dq)Priority(dq) in e.algorithm`
over the seven display names. -/
def hasPriorityName : AlgoKind → Bool
  | AlgoKind.Priority => true
  | AlgoKind.PreemptivePriority => true
  | _ => false

/-- Constant folding of `(dq)Preemptive(dq) in e.algorithm`. -/
def hasPreemptiveName : AlgoKind → Bool
  | AlgoKind.PreemptivePriority => true
  | _ => false

/-- Constant folding of `(dq)RR(dq) in e.algorithm` (the Round Robin display
name is `RR (q=...)`; no other display name contains `RR`). -/
def hasRRName : AlgoKind → Bool
  | AlgoKind.RR => true
  | _ => false

/-- Constant folding of `(dq)RR(dq) in e.algorithm or (dq)MLFQ(dq) in
e.algorithm`, the interactive-workload scan condition. -/
def hasRRorMLFQName (k : AlgoKind) : Bool :=
  hasRRName k || (match k with | AlgoKind.MLFQ => true | _ => false)

/-- The canonical key placed in `top_3_keys` for an estimate
(`select_scheduler`, the name-classification loop). -/
def topKey (k : AlgoKind) : AlgoKind :=
  if hasPriorityName k && hasPreemptiveName k then AlgoKind.PreemptivePriority
  else if hasPriorityName k then AlgoKind.Priority
  else if hasRRName k then AlgoKind.RR
  else k

/-- The `SchedulerRecommendation` dataclass, restricted to the fields the
claims mention; the freshly constructed scheduler instance is represented by
its `AlgoKind` and the `justification` display string is omitted. -/
structure SchedulerRecommendation where
  kind : AlgoKind
  algorithmName : String
  expectedAvgWait : ℚ
  confidence : ℚ
deriving DecidableEq, Repr

/-- `AdaptiveSelector.select_scheduler`. -/
def selectScheduler (ps : List Proc) : SchedulerRecommendation :=
  let a := analyzeWorkload ps
  if a.processCount = 0 then
    { kind := AlgoKind.FCFS, algorithmName := "FCFS", expectedAvgWait := 0,
      confidence := 1 }
  else
    let es := estimatePerformance a
    let sorted := sortStable
      (fun x y => decide (x.estimatedWaitTime < y.estimatedWaitTime)) es
    let top3 := sorted.take 3
    let inTop3 := fun k => top3.any (fun e => decide (topKey e.kind = k))
    let selected0 := top3.headD
      { kind := AlgoKind.FCFS, algorithm := "FCFS", estimatedWaitTime := 0 }
    let priorityOk := decide ((6 : ℚ) < a.priorityVariance) &&
                      decide ((7 : Int) < a.priorityRange)
    let selected :=
      if priorityOk then
        if inTop3 AlgoKind.PreemptivePriority &&
           decide ((3 : ℚ)/10 < a.ioBoundShare) then
          ((es.find? (fun e => decide (e.kind = AlgoKind.PreemptivePriority))).getD
            selected0)
        else if inTop3 AlgoKind.Priority then
          ((es.find? (fun e => decide (e.kind = AlgoKind.Priority))).getD
            selected0)
        else selected0
      else
        if a.isInteractive then
          (top3.find? (fun e => hasRRorMLFQName e.kind)).getD selected0
        else if (1 : ℚ)/2 < a.ioBoundShare then
          (top3.find? (fun e => hasRRorMLFQName e.kind)).getD selected0
        else selected0
    { kind := selected.kind, algorithmName := selected.algorithm,
      expectedAvgWait := selected.estimatedWaitTime,
      confidence := (17 : ℚ)/20 }

/-- Rounding to one decimal place, matching the way the specification displays
the selector's fractional estimates. -/
def round1 (x : ℚ) : ℚ := ((Int.floor (10 * x + 1/2) : Int) : ℚ) / 10

/-- The Gantt-chart well-formedness bundle of claim C1: recorded CPU time
equals `total`, every interval is non-degenerate, intervals are pairwise
non-overlapping and listed in ascending start order. -/
def ganttOK (g : List GEntry) (total : Int) : Prop :=
  ganttSpan g = total ∧
  (∀ e ∈ g, e.start < e.stop) ∧
  g.Pairwise (fun a b => a.stop ≤ b.start) ∧
  g.Pairwise (fun a b => a.start < b.start)

/-- The completion bundle of claim C3: the result still carries all `n`
processes and each one ended with zero remaining time, TERMINATED. -/
def allDone (r : SchedResult) (n : Nat) : Prop :=
  r.processes.length = n ∧
  ∀ p ∈ r.processes, p.remainingTime = 0 ∧ p.state = PState.TERMINATED

/-- The metric equations of claim C2 for every completed process. -/
def metricsOK (r : SchedResult) : Prop :=
  ∀ p ∈ r.processes, p.state = PState.TERMINATED →
    p.turnaroundTime = p.completionTime - p.arrival ∧
    p.waitingTime = p.turnaroundTime - p.burst

/-- Input-process constructor used by the concrete test scenarios. -/
def mkProc (pid burst arrival prio : Int) (io : Bool) : Proc :=
  { pid := pid, burst := burst, priority := prio, arrival := arrival,
    ioBound := io }

/-- Scenario B of the specification: P1(arrival 0, burst 8),
P2(arrival 1, burst 4); SRTF preempts P1 at time 1. -/
def scenB : List Proc := [mkProc 1 8 0 0 false, mkProc 2 4 1 0 false]

/-- Scenario C of the specification: P1(arrival 0, burst 5),
P2(arrival 0, burst 3) under Round Robin with quantum 4. -/
def scenC : List Proc := [mkProc 1 5 0 0 false, mkProc 2 3 0 0 false]

/-- Scenario D of the specification: five identical CPU-bound processes,
burst 100, priority 5. -/
def scenD : List Proc :=
  [mkProc 1 100 0 5 false, mkProc 2 100 0 5 false, mkProc 3 100 0 5 false,
   mkProc 4 100 0 5 false, mkProc 5 100 0 5 false]

/-- Counterexample input for claim C9: a zero-burst process competing with an
earlier-pid process of burst 5, both arriving at 0. -/
def zeroBurstRace : List Proc := [mkProc 1 5 0 0 false, mkProc 2 0 0 0 false]

/-- Counterexample input for claim C7: under MLFQ, P2 arrives at time 3,
strictly inside P1's level-0 quantum `[0, 8)`. -/
def midQuantumArrival : List Proc := [mkProc 1 8 0 0 false, mkProc 2 5 3 0 false]

/-- Preemption scenario for claim C5 under Preemptive Priority: P2 arrives at
time 1 with a stronger (smaller) priority and preempts P1. -/
def ppPreemptCase : List Proc := [mkProc 1 8 0 2 false, mkProc 2 4 1 1 false]

/-- Single zero-burst submission for the amended claim C9: one process with
`burst_time = 0` arriving at time 5. -/
def singleZeroBurst : List Proc := [mkProc 1 0 5 0 false]

/-- Scenario C with dirtied dynamic fields: field-for-field equal to `scenC`
on the five static inputs, different on every runtime field (claim C10). -/
def scenCdirty : List Proc :=
  [{ mkProc 1 5 0 0 false with
     state := PState.RUNNING, remainingTime := 3, waitingTime := 7,
     responseTime := 4, queueLevel := 2 },
   { mkProc 2 3 0 0 false with
     state := PState.TERMINATED, completionTime := 9, turnaroundTime := 2,
     agingCounter := 5 }]

/-- The five static input fields of a process; two field-for-field equal
submissions agree exactly on this tuple (claim C10). -/
def statics (p : Proc) : Int × Int × Int × Int × Bool :=
  (p.pid, p.burst, p.priority, p.arrival, p.ioBound)

/-! ### Basic lemmas about the master-list accessors -/

theorem getP_nil (i : Nat) : getP [] i = default := by
  simp [getP]

theorem getP_cons_zero (p : Proc) (ps : List Proc) : getP (p :: ps) 0 = p := rfl

theorem getP_cons_succ (p : Proc) (ps : List Proc) (i : Nat) :
    getP (p :: ps) (i + 1) = getP ps i := rfl

theorem set_oob (ps : List Proc) (i : Nat) (p : Proc) (h : ps.length ≤ i) :
    ps.set i p = ps := by
  induction ps generalizing i with
  | nil => rfl
  | cons a as ih =>
    cases i with
    | zero => simp at h
    | succ j =>
      simp only [List.set]
      rw [ih j (by simp at h; omega)]

theorem getP_set_self (ps : List Proc) (i : Nat) (p : Proc)
    (h : i < ps.length) : getP (ps.set i p) i = p := by
  induction ps generalizing i with
  | nil => simp at h
  | cons a as ih =>
    cases i with
    | zero => rfl
    | succ j =>
      simp only [List.set, getP_cons_succ]
      exact ih j (by simpa using h)

theorem getP_set_ne (ps : List Proc) (i j : Nat) (p : Proc) (h : j ≠ i) :
    getP (ps.set i p) j = getP ps j := by
  induction ps generalizing i j with
  | nil => rfl
  | cons a as ih =>
    cases i with
    | zero =>
      cases j with
      | zero => exact absurd rfl h
      | succ k => rfl
    | succ i2 =>
      cases j with
      | zero => rfl
      | succ k =>
        simp only [List.set, getP_cons_succ]
        exact ih i2 k (by omega)

theorem length_updAt (ps : List Proc) (i : Nat) (f : Proc → Proc) :
    (updAt ps i f).length = ps.length := by
  simp [updAt]

theorem getP_updAt_self (ps : List Proc) (i : Nat) (f : Proc → Proc)
    (h : i < ps.length) : getP (updAt ps i f) i = f (getP ps i) :=
  getP_set_self ps i _ h

theorem getP_updAt_ne (ps : List Proc) (i j : Nat) (f : Proc → Proc)
    (h : j ≠ i) : getP (updAt ps i f) j = getP ps j :=
  getP_set_ne ps i j _ h

theorem updAll_nil (f : Proc → Proc) (ps : List Proc) :
    updAll f ps [] = ps := rfl

theorem updAll_cons (f : Proc → Proc) (ps : List Proc) (i : Nat)
    (is2 : List Nat) : updAll f ps (i :: is2) = updAll f (updAt ps i f) is2 :=
  rfl

theorem length_updAll (f : Proc → Proc) (ps : List Proc) (is2 : List Nat) :
    (updAll f ps is2).length = ps.length := by
  induction is2 generalizing ps with
  | nil => rfl
  | cons i is3 ih => rw [updAll_cons, ih, length_updAt]

theorem getP_updAll_not_mem (f : Proc → Proc) (ps : List Proc)
    (is2 : List Nat) (j : Nat) (h : j ∉ is2) :
    getP (updAll f ps is2) j = getP ps j := by
  induction is2 generalizing ps with
  | nil => rfl
  | cons i is3 ih =>
    have h1 : j ≠ i := fun hc => h (hc ▸ List.mem_cons_self i is3)
    have h2 : j ∉ is3 := fun hc => h (List.mem_cons_of_mem i hc)
    rw [updAll_cons, ih _ h2, getP_updAt_ne _ _ _ _ h1]

theorem getP_updAll_mem (f : Proc → Proc) (ps : List Proc) (is2 : List Nat)
    (j : Nat) (hnod : is2.Nodup) (hj : j ∈ is2) (hlen : j < ps.length) :
    getP (updAll f ps is2) j = f (getP ps j) := by
  induction is2 generalizing ps with
  | nil => simp at hj
  | cons i is3 ih =>
    have hnod1 : i ∉ is3 := (List.nodup_cons.mp hnod).1
    have hnod2 : is3.Nodup := (List.nodup_cons.mp hnod).2
    rw [updAll_cons]
    rcases List.mem_cons.mp hj with rfl | hj2
    · rw [getP_updAll_not_mem _ _ _ _ hnod1, getP_updAt_self _ _ _ hlen]
    · have hne : j ≠ i := fun hc => hnod1 (hc ▸ hj2)
      rw [ih _ hnod2 hj2 (by rw [length_updAt]; exact hlen),
        getP_updAt_ne _ _ _ _ hne]

/-! ### Counting, spent time and map preservation under updates -/

theorem countP_set (P : Proc → Bool) (ps : List Proc) (i : Nat) (p : Proc)
    (h : i < ps.length) :
    (ps.set i p).countP P + (if P (getP ps i) then 1 else 0) =
      ps.countP P + (if P p then 1 else 0) := by
  induction ps generalizing i with
  | nil => simp at h
  | cons a as ih =>
    cases i with
    | zero =>
      simp only [List.set, getP_cons_zero, List.countP_cons]
      by_cases h1 : P a <;> by_cases h2 : P p <;> simp [h1, h2]
    | succ j =>
      simp only [List.set, getP_cons_succ, List.countP_cons]
      have := ih j (by simpa using h)
      by_cases h1 : P a <;> simp [h1] <;> omega

theorem countP_updAt_pres (P : Proc → Bool) (ps : List Proc) (i : Nat)
    (f : Proc → Proc) (h : P (f (getP ps i)) = P (getP ps i)) :
    (updAt ps i f).countP P = ps.countP P := by
  by_cases hi : i < ps.length
  · have := countP_set P ps i (f (getP ps i)) hi
    rw [h] at this
    simpa [updAt] using this
  · simp [updAt, set_oob ps i _ (by omega)]

theorem countP_updAll_pres (P : Proc → Bool) (f : Proc → Proc)
    (ps : List Proc) (is2 : List Nat) (h : ∀ p, P (f p) = P p) :
    (updAll f ps is2).countP P = ps.countP P := by
  induction is2 generalizing ps with
  | nil => rfl
  | cons i is3 ih =>
    rw [updAll_cons, ih, countP_updAt_pres _ _ _ _ (h _)]

theorem spent_set (ps : List Proc) (i : Nat) (p : Proc) (h : i < ps.length) :
    spent (ps.set i p) = spent ps - spentOf (getP ps i) + spentOf p := by
  induction ps generalizing i with
  | nil => simp at h
  | cons a as ih =>
    cases i with
    | zero =>
      simp only [List.set, getP_cons_zero, spent, List.map_cons,
        List.sum_cons]
      ring
    | succ j =>
      have hj : j < as.length := by simpa using h
      have h2 := ih j hj
      simp only [spent] at h2
      simp only [List.set, getP_cons_succ, spent, List.map_cons,
        List.sum_cons]
      rw [h2]
      ring

theorem spent_updAt_pres (ps : List Proc) (i : Nat) (f : Proc → Proc)
    (h : spentOf (f (getP ps i)) = spentOf (getP ps i)) :
    spent (updAt ps i f) = spent ps := by
  by_cases hi : i < ps.length
  · rw [updAt, spent_set _ _ _ hi, h]; ring
  · simp [updAt, set_oob ps i _ (by omega)]

theorem spent_updAll_pres (f : Proc → Proc) (ps : List Proc) (is2 : List Nat)
    (h : ∀ p, spentOf (f p) = spentOf p) :
    spent (updAll f ps is2) = spent ps := by
  induction is2 generalizing ps with
  | nil => rfl
  | cons i is3 ih =>
    rw [updAll_cons, ih, spent_updAt_pres _ _ _ (h _)]

theorem map_set_pres (g : Proc → α) (ps : List Proc) (i : Nat) (p : Proc)
    (h : g p = g (getP ps i)) : (ps.set i p).map g = ps.map g := by
  induction ps generalizing i with
  | nil => rfl
  | cons a as ih =>
    cases i with
    | zero => simp only [List.set, List.map_cons]; rw [h]; rfl
    | succ j =>
      simp only [List.set, List.map_cons]
      rw [ih j (by simpa using h)]

theorem map_updAt_pres (g : Proc → α) (ps : List Proc) (i : Nat)
    (f : Proc → Proc) (h : ∀ p, g (f p) = g p) :
    (updAt ps i f).map g = ps.map g :=
  map_set_pres g ps i _ (h _)

theorem map_updAll_pres (g : Proc → α) (f : Proc → Proc) (ps : List Proc)
    (is2 : List Nat) (h : ∀ p, g (f p) = g p) :
    (updAll f ps is2).map g = ps.map g := by
  induction is2 generalizing ps with
  | nil => rfl
  | cons i is3 ih =>
    rw [updAll_cons, ih, map_updAt_pres _ _ _ _ h]

/-! ### Stable sort: permutation facts -/

theorem insStable_perm (lt : α → α → Bool) (x : α) (l : List α) :
    (insStable lt x l).Perm (x :: l) := by
  induction l with
  | nil => rfl
  | cons y ys ih =>
    simp only [insStable]
    by_cases h : lt x y
    · simp [h]
    · simp only [h, if_false]
      exact (ih.cons y).trans (List.Perm.swap x y ys)

theorem sortStable_aux_perm (lt : α → α → Bool) (l acc : List α) :
    (l.foldl (fun a x => insStable lt x a) acc).Perm (acc ++ l) := by
  induction l generalizing acc with
  | nil => simp
  | cons x xs ih =>
    simp only [List.foldl]
    refine (ih (insStable lt x acc)).trans ?_
    refine (List.Perm.append_right xs (insStable_perm lt x acc)).trans ?_
    simpa using List.perm_middle.symm

theorem sortStable_perm (lt : α → α → Bool) (l : List α) :
    (sortStable lt l).Perm l := by
  simpa [sortStable] using sortStable_aux_perm lt l []

theorem sortStable_mem (lt : α → α → Bool) (l : List α) (a : α) :
    a ∈ sortStable lt l ↔ a ∈ l :=
  (sortStable_perm lt l).mem_iff

theorem sortStable_nodup (lt : α → α → Bool) (l : List α) (h : l.Nodup) :
    (sortStable lt l).Nodup :=
  ((sortStable_perm lt l).nodup_iff).mpr h

theorem sortStable_ne_nil (lt : α → α → Bool) (l : List α) (h : l ≠ []) :
    sortStable lt l ≠ [] := by
  intro hc
  have := (sortStable_perm lt l).length_eq
  rw [hc] at this
  exact h (List.length_eq_zero.mp this.symm)

theorem cons_headD_tail (l : List α) (d : α) (h : l ≠ []) :
    l.headD d :: l.tail = l := by
  cases l with
  | nil => exact absurd rfl h
  | cons a as => rfl

theorem headD_mem (l : List α) (d : α) (h : l ≠ []) : l.headD d ∈ l := by
  cases l with
  | nil => exact absurd rfl h
  | cons a as => simp

theorem isEmpty_false_of_ne_nil {l : List α} (h : l ≠ []) :
    l.isEmpty = false := by
  cases l with
  | nil => exact absurd rfl h
  | cons a as => rfl

/-! ### Arrival-pop facts -/

theorem dropWhile_head_not (p : α → Bool) (l : List α) (x : α) (xs : List α)
    (h : l.dropWhile p = x :: xs) : p x = false := by
  induction l with
  | nil => simp [List.dropWhile] at h
  | cons a as ih =>
    by_cases hp : p a
    · rw [List.dropWhile_cons_of_pos hp] at h
      exact ih h
    · rw [List.dropWhile_cons_of_neg hp] at h
      cases h
      simpa using hp

theorem npPop_join (byWhile : Bool) (ps : List Proc) (t : Int)
    (rem : List Nat) :
    ((npPop byWhile ps t rem).1 ++ (npPop byWhile ps t rem).2).Perm rem := by
  cases byWhile with
  | true => simp [npPop, List.takeWhile_append_dropWhile]
  | false =>
    simp only [npPop, Bool.false_eq_true, if_false]
    exact List.filter_append_perm _ rem

theorem npPop_rest_head (byWhile : Bool) (ps : List Proc) (t : Int)
    (rem : List Nat) (j : Nat) (rest2 : List Nat)
    (h : (npPop byWhile ps t rem).2 = j :: rest2) :
    ¬ (getP ps j).arrival ≤ t := by
  cases byWhile with
  | true =>
    simp only [npPop, if_true] at h
    have := dropWhile_head_not _ _ _ _ h
    simpa using this
  | false =>
    simp only [npPop, Bool.false_eq_true, if_false] at h
    have hm : j ∈ rem.filter (fun i => !decide ((getP ps i).arrival ≤ t)) := by
      rw [h]; simp
    have := List.of_mem_filter hm
    simpa using this

theorem npPop_arrived_le (byWhile : Bool) (ps : List Proc) (t : Int)
    (rem : List Nat) (i : Nat) (h : i ∈ (npPop byWhile ps t rem).1) :
    (getP ps i).arrival ≤ t := by
  cases byWhile with
  | true =>
    simp only [npPop, if_true] at h
    have := List.mem_takeWhile_imp h
    simpa using this
  | false =>
    simp only [npPop, Bool.false_eq_true, if_false] at h
    have := List.of_mem_filter h
    simpa using this

theorem npPop_fst_ne_nil (byWhile : Bool) (ps : List Proc) (t : Int)
    (j : Nat) (rest2 : List Nat) (h : (getP ps j).arrival ≤ t) :
    (npPop byWhile ps t (j :: rest2)).1 ≠ [] := by
  cases byWhile with
  | true => simp [npPop, List.takeWhile_cons, h]
  | false => simp [npPop, List.filter_cons, h]

theorem getP_eq_getElem (ps : List Proc) (i : Nat) (h : i < ps.length) :
    getP ps i = ps[i] := by
  induction ps generalizing i with
  | nil => simp at h
  | cons a as ih =>
    cases i with
    | zero => rfl
    | succ j => exact ih j (by simpa using h)

theorem getP_mem (ps : List Proc) (i : Nat) (h : i < ps.length) :
    getP ps i ∈ ps := by
  rw [getP_eq_getElem ps i h]
  exact List.getElem_mem h

theorem forall_mem_of_getP {P : Proc → Prop} (ps : List Proc)
    (h : ∀ i, i < ps.length → P (getP ps i)) : ∀ p ∈ ps, P p := by
  intro p hp
  obtain ⟨i, hi, rfl⟩ := List.getElem_of_mem hp
  rw [← getP_eq_getElem ps i hi]
  exact h i hi

theorem getP_map (f : Proc → Proc) (ps : List Proc) (i : Nat)
    (h : i < ps.length) : getP (ps.map f) i = f (getP ps i) := by
  induction ps generalizing i with
  | nil => simp at h
  | cons a as ih =>
    cases i with
    | zero => rfl
    | succ j => exact ih j (by simpa using h)

theorem spent_eq_burstSum (ps : List Proc)
    (h : ∀ p ∈ ps, p.remainingTime = 0) : spent ps = burstSum ps := by
  induction ps with
  | nil => rfl
  | cons a as ih =>
    simp only [spent, burstSum, List.map_cons, List.sum_cons] at ih ⊢
    rw [ih (fun p hp => h p (List.mem_cons_of_mem a hp))]
    have ha := h a (List.mem_cons_self a as)
    simp [spentOf, ha]

theorem spent_reset (ps : List Proc) : spent (ps.map resetP) = 0 := by
  induction ps with
  | nil => rfl
  | cons a as ih =>
    simp only [spent, List.map_cons, List.sum_cons] at ih ⊢
    rw [ih]
    simp [spentOf, resetP]

theorem pairwise_start_lt (g : List GEntry)
    (hpw : g.Pairwise (fun a b => a.stop ≤ b.start))
    (hpos : ∀ e ∈ g, e.start < e.stop) :
    g.Pairwise (fun a b => a.start < b.start) := by
  refine List.Pairwise.imp_of_mem ?_ hpw
  intro a b ha _ hr
  exact lt_of_lt_of_le (hpos a ha) hr

theorem burst_pos_of_inv {B : List Int} {ps : List Proc}
    (hB : ∀ b ∈ B, 0 < b) (hmap : ps.map Proc.burst = B) (i : Nat)
    (h : i < ps.length) : 0 < (getP ps i).burst := by
  refine hB _ ?_
  rw [← hmap]
  exact List.mem_map_of_mem Proc.burst (getP_mem ps i h)

/-! ### The non-preemptive loop invariant -/

/-- Loop invariant shared by FCFS, SJF and Priority.  `B` is the (constant)
burst profile of the master list. -/
structure NPInv (B : List Int) (s : NPState) : Prop where
  lenB : s.procs.map Proc.burst = B
  bounds : ∀ i ∈ s.rem ++ s.rq, i < s.procs.length
  nodup : (s.rem ++ s.rq).Nodup
  remNew : ∀ i ∈ s.rem, (getP s.procs i).state = PState.NEW ∧
    (getP s.procs i).remainingTime = (getP s.procs i).burst
  rqReady : ∀ i ∈ s.rq, (getP s.procs i).state = PState.READY ∧
    (getP s.procs i).remainingTime = (getP s.procs i).burst
  doneTerm : ∀ i, i < s.procs.length → i ∉ s.rem → i ∉ s.rq →
    (getP s.procs i).state = PState.TERMINATED ∧
    (getP s.procs i).remainingTime = 0 ∧
    (getP s.procs i).turnaroundTime =
      (getP s.procs i).completionTime - (getP s.procs i).arrival ∧
    (getP s.procs i).waitingTime =
      (getP s.procs i).turnaroundTime - (getP s.procs i).burst
  stops : ∀ e ∈ s.gantt, e.stop ≤ s.t
  pos : ∀ e ∈ s.gantt, e.start < e.stop
  pw : s.gantt.Pairwise (fun a b => a.stop ≤ b.start)
  span : ganttSpan s.gantt = spent s.procs

theorem setReady_nil (ps : List Proc) : setReady ps [] = ps := rfl

theorem length_setReady (ps : List Proc) (is2 : List Nat) :
    (setReady ps is2).length = ps.length := length_updAll _ _ _

theorem map_burst_setReady (ps : List Proc) (is2 : List Nat) :
    (setReady ps is2).map Proc.burst = ps.map Proc.burst :=
  map_updAll_pres Proc.burst (fun p => { p with state := PState.READY }) ps
    is2 (fun _ => rfl)

theorem spent_setReady (ps : List Proc) (is2 : List Nat) :
    spent (setReady ps is2) = spent ps :=
  spent_updAll_pres (fun p => { p with state := PState.READY }) ps is2
    (fun _ => rfl)

theorem nodup_shuffle {rem rq arrived rest : List Nat}
    (hN : (rem ++ rq).Nodup) (hjoin : (arrived ++ rest).Perm rem) :
    (rest ++ (rq ++ arrived)).Nodup := by
  have h1 : ((arrived ++ rest) ++ rq).Perm (rem ++ rq) :=
    hjoin.append_right rq
  have h2 : ((arrived ++ rest) ++ rq).Nodup := (h1.nodup_iff).mpr hN
  have h3 : ((arrived ++ rest) ++ rq).Perm (rest ++ (rq ++ arrived)) := by
    rw [List.append_assoc]
    refine List.perm_append_comm.trans ?_
    rw [List.append_assoc]
  exact (h3.nodup_iff).mp h2

theorem ganttSpan_append (g : List GEntry) (e : GEntry) :
    ganttSpan (g ++ [e]) = ganttSpan g + (e.stop - e.start) := by
  simp [ganttSpan]

theorem npMeasure_le (byWhile : Bool) (s : NPState) :
    npMeasure byWhile s ≤ 2 * (s.rem.length + s.rq.length) + 1 := by
  simp only [npMeasure]
  split <;> omega

theorem npMeasure_ge (byWhile : Bool) (s : NPState) :
    2 * (s.rem.length + s.rq.length) ≤ npMeasure byWhile s := by
  simp only [npMeasure]
  split <;> omega
theorem npSel_perm (lt : Proc → Proc → Bool) (ps1 : List Proc)
    (rq1 : List Nat) (h : rq1 ≠ []) :
    (npSelIdx lt ps1 rq1 :: npSelTail lt ps1 rq1).Perm rq1 := by
  have hne := sortStable_ne_nil (fun i j => lt (getP ps1 i) (getP ps1 j)) rq1 h
  have h2 := cons_headD_tail _ 0 hne
  rw [npSelIdx, npSelTail, h2]
  exact sortStable_perm _ _

theorem npSelIdx_mem (lt : Proc → Proc → Bool) (ps1 : List Proc)
    (rq1 : List Nat) (h : rq1 ≠ []) : npSelIdx lt ps1 rq1 ∈ rq1 :=
  ((npSel_perm lt ps1 rq1 h).mem_iff).mp (List.mem_cons_self _ _)

theorem npSelTail_len (lt : Proc → Proc → Bool) (ps1 : List Proc)
    (rq1 : List Nat) (h : rq1 ≠ []) :
    (npSelTail lt ps1 rq1).length + 1 = rq1.length := by
  have h0 := (npSel_perm lt ps1 rq1 h).length_eq
  simpa using h0

theorem npFinish_state (t : Int) (p : Proc) :
    (npFinish t p).state = PState.TERMINATED := rfl

theorem npFinish_remaining (t : Int) (p : Proc) :
    (npFinish t p).remainingTime = 0 := rfl

theorem npFinish_burst (t : Int) (p : Proc) :
    (npFinish t p).burst = p.burst := rfl

theorem npFinish_arrival (t : Int) (p : Proc) :
    (npFinish t p).arrival = p.arrival := rfl

theorem npFinish_completion (t : Int) (p : Proc) :
    (npFinish t p).completionTime = t + p.burst := rfl

theorem npFinish_turnaround (t : Int) (p : Proc) :
    (npFinish t p).turnaroundTime = (t + p.burst) - p.arrival := rfl

theorem npFinish_waiting (t : Int) (p : Proc) :
    (npFinish t p).waitingTime = ((t + p.burst) - p.arrival) - p.burst := rfl

theorem npFinish_pid (t : Int) (p : Proc) : (npFinish t p).pid = p.pid := rfl

theorem spentOf_npFinish (t : Int) (p : Proc) :
    spentOf (npFinish t p) = p.burst := by
  simp [npFinish, calcProcessMetrics, spentOf]

/-- The dispatch record satisfies the loop invariant, given the invariant
facts about its ingredients. -/
theorem npDispatchRecord_inv (B : List Int) (hB : ∀ b ∈ B, 0 < b)
    (procs1 : List Proc) (rest3 tail1 : List Nat) (i : Nat)
    (g : List GEntry) (t : Int) (cs1 : Nat)
    (hlenB1 : procs1.map Proc.burst = B)
    (hbound : ∀ x ∈ rest3 ++ i :: tail1, x < procs1.length)
    (hnd : (rest3 ++ i :: tail1).Nodup)
    (hnew1 : ∀ x ∈ rest3, (getP procs1 x).state = PState.NEW ∧
      (getP procs1 x).remainingTime = (getP procs1 x).burst)
    (hready1 : ∀ x ∈ i :: tail1, (getP procs1 x).state = PState.READY ∧
      (getP procs1 x).remainingTime = (getP procs1 x).burst)
    (hdone1 : ∀ x, x < procs1.length → x ∉ rest3 → x ∉ i :: tail1 →
      (getP procs1 x).state = PState.TERMINATED ∧
      (getP procs1 x).remainingTime = 0 ∧
      (getP procs1 x).turnaroundTime =
        (getP procs1 x).completionTime - (getP procs1 x).arrival ∧
      (getP procs1 x).waitingTime =
        (getP procs1 x).turnaroundTime - (getP procs1 x).burst)
    (hstops1 : ∀ e ∈ g, e.stop ≤ t)
    (hpos1 : ∀ e ∈ g, e.start < e.stop)
    (hpw1 : g.Pairwise (fun a b => a.stop ≤ b.start))
    (hspan1 : ganttSpan g = spent procs1) :
    NPInv B (npDispatchRecord procs1 rest3 tail1 i g t cs1) := by
  have hiB : i < procs1.length :=
    hbound i (List.mem_append_right _ (List.mem_cons_self _ _))
  have hiRem : (getP procs1 i).remainingTime = (getP procs1 i).burst :=
    (hready1 i (List.mem_cons_self _ _)).2
  have hbpos : 0 < (getP procs1 i).burst := burst_pos_of_inv hB hlenB1 i hiB
  have hndSplit := List.nodup_append.mp hnd
  have hndCons := List.nodup_cons.mp hndSplit.2.1
  have hdisj : ∀ x ∈ rest3, x ∉ i :: tail1 := fun x hx => hndSplit.2.2 hx
  refine ⟨?_, ?_, ?_, ?_, ?_, ?_, ?_, ?_, ?_, ?_⟩
  · simp only [npDispatchRecord]
    rw [map_set_pres Proc.burst procs1 i _ (npFinish_burst t _)]
    exact hlenB1
  · intro x hx
    simp only [npDispatchRecord, List.length_set]
    simp only [npDispatchRecord] at hx
    rcases List.mem_append.mp hx with h | h
    · exact hbound x (List.mem_append_left _ h)
    · exact hbound x (List.mem_append_right _ (List.mem_cons_of_mem _ h))
  · simp only [npDispatchRecord]
    have hsub : (rest3 ++ tail1).Sublist (rest3 ++ i :: tail1) :=
      List.Sublist.append_left (List.sublist_cons_self i tail1) rest3
    exact hsub.nodup hnd
  · intro x hx
    simp only [npDispatchRecord] at hx ⊢
    have hxni : x ≠ i := by
      intro hc
      exact hdisj x hx (hc ▸ List.mem_cons_self i tail1)
    rw [getP_set_ne _ _ _ _ hxni]
    exact hnew1 x hx
  · intro x hx
    simp only [npDispatchRecord] at hx ⊢
    have hxni : x ≠ i := by
      rintro rfl
      exact hndCons.1 hx
    rw [getP_set_ne _ _ _ _ hxni]
    exact hready1 x (List.mem_cons_of_mem _ hx)
  · intro x hxlen hx1 hx2
    simp only [npDispatchRecord, List.length_set] at hxlen hx1 hx2 ⊢
    by_cases hxi : x = i
    · subst hxi
      rw [getP_set_self _ _ _ hiB]
      refine ⟨npFinish_state t _, npFinish_remaining t _, ?_, ?_⟩
      · rw [npFinish_turnaround, npFinish_completion, npFinish_arrival]
      · rw [npFinish_waiting, npFinish_turnaround, npFinish_burst]
    · rw [getP_set_ne _ _ _ _ hxi]
      refine hdone1 x hxlen hx1 ?_
      intro hc
      rcases List.mem_cons.mp hc with h | h
      · exact hxi h
      · exact hx2 h
  · intro e he
    simp only [npDispatchRecord] at he ⊢
    rcases List.mem_append.mp he with h | h
    · have := hstops1 e h
      omega
    · simp only [List.mem_singleton] at h
      subst h
      simp
  · intro e he
    simp only [npDispatchRecord] at he
    rcases List.mem_append.mp he with h | h
    · exact hpos1 e h
    · simp only [List.mem_singleton] at h
      subst h
      simpa using hbpos
  · simp only [npDispatchRecord]
    refine List.pairwise_append.mpr ⟨hpw1, List.pairwise_singleton _ _, ?_⟩
    intro a ha b hb
    simp only [List.mem_singleton] at hb
    subst hb
    simpa using hstops1 a ha
  · simp only [npDispatchRecord]
    rw [ganttSpan_append, spent_set procs1 i _ hiB, spentOf_npFinish]
    rw [hspan1]
    simp only [spentOf, hiRem]
    ring

theorem npStep_preserve (byWhile : Bool) (lt : Proc → Proc → Bool)
    (B : List Int) (hB : ∀ b ∈ B, 0 < b) (s : NPState) (hInv : NPInv B s)
    (hne : s.rem ≠ [] ∨ s.rq ≠ []) :
    ∃ s2, npStep byWhile lt s = some s2 ∧ NPInv B s2 ∧
      npMeasure byWhile s2 < npMeasure byWhile s := by
  obtain ⟨hlenB, hbounds, hnodup, hremNew, hrqReady, hdone, hstops, hpos,
    hpw, hspan⟩ := hInv
  rcases hpop : npPop byWhile s.procs s.t s.rem with ⟨arrived, rest⟩
  have hjoin : (arrived ++ rest).Perm s.rem := by
    have h0 := npPop_join byWhile s.procs s.t s.rem
    rw [hpop] at h0; exact h0
  have hbnd : ∀ x, x ∈ s.rem ∨ x ∈ s.rq → x < s.procs.length :=
    fun x hx => hbounds x (List.mem_append.mpr hx)
  have hmemArr : ∀ x ∈ arrived, x ∈ s.rem :=
    fun x hx => (hjoin.mem_iff).mp (List.mem_append_left rest hx)
  have hmemRest : ∀ x ∈ rest, x ∈ s.rem :=
    fun x hx => (hjoin.mem_iff).mp (List.mem_append_right arrived hx)
  have hremnodup : s.rem.Nodup := (List.nodup_append.mp hnodup).1
  have harrNodup : arrived.Nodup :=
    (List.nodup_append.mp ((hjoin.nodup_iff).mpr hremnodup)).1
  have hNall : (rest ++ (s.rq ++ arrived)).Nodup := nodup_shuffle hnodup hjoin
  have hArrNotRq : ∀ x ∈ arrived, x ∉ s.rq :=
    fun x hx => (List.nodup_append.mp hnodup).2.2 (hmemArr x hx)
  have hRqNotArr : ∀ x ∈ s.rq, x ∉ arrived := fun x hx hc => hArrNotRq x hc hx
  have hget1not : ∀ x, x ∉ arrived →
      getP (setReady s.procs arrived) x = getP s.procs x :=
    fun x hx => getP_updAll_not_mem _ _ _ _ hx
  have hget1mem : ∀ x, x ∈ arrived → x < s.procs.length →
      getP (setReady s.procs arrived) x =
        { getP s.procs x with state := PState.READY } :=
    fun x hx hl => getP_updAll_mem _ _ _ _ harrNodup hx hl
  have hlen1 : (setReady s.procs arrived).length = s.procs.length :=
    length_updAll _ _ _
  have hlenB1 : (setReady s.procs arrived).map Proc.burst = B := by
    rw [setReady, map_updAll_pres Proc.burst
      (fun p => { p with state := PState.READY }) s.procs arrived
      (fun p => rfl)]
    exact hlenB
  simp only [npStep, hpop]
  cases hq : s.rq ++ arrived with
  | nil =>
    obtain ⟨hrq, harr⟩ := List.append_eq_nil.mp hq
    subst harr
    cases rest with
    | nil =>
      exfalso
      have hremnil : s.rem = [] := hjoin.symm.eq_nil
      rcases hne with h | h
      · exact h hremnil
      · exact h hrq
    | cons j rest2 =>
      have hjarr : ¬ (getP s.procs j).arrival ≤ s.t := by
        refine npPop_rest_head byWhile s.procs s.t s.rem j rest2 ?_
        rw [hpop]
      refine ⟨_, rfl, ?_, ?_⟩
      · refine ⟨?_, ?_, ?_, ?_, ?_, ?_, ?_, ?_, ?_, ?_⟩
        · simpa [npJumpState, setReady_nil] using hlenB
        · intro x hx
          simp only [npJumpState, setReady_nil, List.append_nil] at hx ⊢
          exact hbnd x (Or.inl (hmemRest x hx))
        · simp only [npJumpState, List.append_nil]
          exact ((hjoin.nodup_iff).mpr hremnodup).of_append_right
        · intro x hx
          simp only [npJumpState, setReady_nil] at hx ⊢
          exact hremNew x (hmemRest x hx)
        · intro x hx
          simp only [npJumpState] at hx
          simp at hx
        · intro x hxlen hx1 hx2
          simp only [npJumpState, setReady_nil] at hxlen hx1 hx2 ⊢
          refine hdone x hxlen ?_ (by rw [hrq]; simp)
          intro hc
          have hc2 := (hjoin.symm.mem_iff).mp hc
          simp only [List.nil_append] at hc2
          exact hx1 hc2
        · intro e he
          simp only [npJumpState, setReady_nil] at he ⊢
          have h1 := hstops e he
          omega
        · intro e he
          simp only [npJumpState] at he
          exact hpos e he
        · simpa only [npJumpState] using hpw
        · simpa [npJumpState, setReady_nil] using hspan
      · have hb1 : (npPop byWhile s.procs s.t s.rem).1 = [] := by rw [hpop]
        have hpne := npPop_fst_ne_nil byWhile s.procs
          ((getP s.procs j).arrival) j rest2 (le_refl _)
        have hlen2 : s.rem.length = rest2.length + 1 := by
          have h0 := hjoin.length_eq
          simp only [List.nil_append, List.length_cons] at h0
          omega
        simp only [npMeasure, npHasWork, npJumpState, setReady_nil, hb1, hrq,
          isEmpty_false_of_ne_nil hpne]
        simp [hlen2]
  | cons i0 rq2 =>
    have hq1mem : ∀ x, x ∈ s.rq ∨ x ∈ arrived → x ∈ i0 :: rq2 := by
      intro x hx; rw [← hq]; exact List.mem_append.mpr hx
    have hq1mem' : ∀ x ∈ i0 :: rq2, x ∈ s.rq ∨ x ∈ arrived := by
      intro x hx; rw [← hq] at hx; exact List.mem_append.mp hx
    have hrq1ne : (i0 :: rq2 : List Nat) ≠ [] := by simp
    have hselperm :=
      npSel_perm lt (setReady s.procs arrived) (i0 :: rq2) hrq1ne
    have himem : npSelIdx lt (setReady s.procs arrived) (i0 :: rq2) ∈
        i0 :: rq2 :=
      npSelIdx_mem lt (setReady s.procs arrived) (i0 :: rq2) hrq1ne
    have hNall' : (rest ++ (i0 :: rq2)).Nodup := by rw [← hq]; exact hNall
    have hnodupRq1 : (i0 :: rq2).Nodup := (List.nodup_append.mp hNall').2.1
    have hdisjRest : ∀ x ∈ rest, x ∉ i0 :: rq2 :=
      fun x hx => (List.nodup_append.mp hNall').2.2 hx
    have hrq1bound : ∀ x ∈ i0 :: rq2, x < s.procs.length := by
      intro x hx
      rcases hq1mem' x hx with h | h
      · exact hbnd x (Or.inr h)
      · exact hbnd x (Or.inl (hmemArr x h))
    have hrq1ready : ∀ x ∈ i0 :: rq2,
        (getP (setReady s.procs arrived) x).state = PState.READY ∧
        (getP (setReady s.procs arrived) x).remainingTime =
          (getP (setReady s.procs arrived) x).burst := by
      intro x hx
      rcases hq1mem' x hx with h | h
      · rw [hget1not x (hRqNotArr x h)]
        exact hrqReady x h
      · rw [hget1mem x h (hbnd x (Or.inl (hmemArr x h)))]
        exact ⟨rfl, (hremNew x (hmemArr x h)).2⟩
    have hpermNodup : (rest ++ (npSelIdx lt (setReady s.procs arrived)
        (i0 :: rq2) :: npSelTail lt (setReady s.procs arrived) (i0 :: rq2))).Nodup := by
      have hperm2 : (rest ++ (npSelIdx lt (setReady s.procs arrived)
          (i0 :: rq2) :: npSelTail lt (setReady s.procs arrived)
            (i0 :: rq2))).Perm (rest ++ (i0 :: rq2)) :=
        List.Perm.append_left rest hselperm
      exact (hperm2.nodup_iff).mpr hNall'
    refine ⟨_, rfl, ?_, ?_⟩
    · simp only [npDispatchState]
      refine npDispatchRecord_inv B hB _ _ _ _ _ _ _ hlenB1 ?_ ?_ ?_ ?_ ?_
        ?_ ?_ ?_ ?_
      · intro x hx
        rw [hlen1]
        rcases List.mem_append.mp hx with h | h
        · exact hbnd x (Or.inl (hmemRest x h))
        · have hx2 : x ∈ i0 :: rq2 := hselperm.mem_iff.mp h
          exact hrq1bound x hx2
      · exact hpermNodup
      · intro x hx
        have hxnq : x ∉ i0 :: rq2 := hdisjRest x hx
        have hxnotarr : x ∉ arrived := fun hc => hxnq (hq1mem x (Or.inr hc))
        rw [hget1not x hxnotarr]
        exact hremNew x (hmemRest x hx)
      · intro x hx
        exact hrq1ready x (hselperm.mem_iff.mp hx)
      · intro x hxlen hx1 hx2
        rw [hlen1] at hxlen
        have hxq1 : x ∉ i0 :: rq2 := by
          intro hc
          exact hx2 (hselperm.mem_iff.mpr hc)
        have hxnotarr : x ∉ arrived := fun hc => hxq1 (hq1mem x (Or.inr hc))
        have hxnotrq : x ∉ s.rq := fun hc => hxq1 (hq1mem x (Or.inl hc))
        have hxnotrem : x ∉ s.rem := by
          intro hc
          rcases List.mem_append.mp ((hjoin.symm.mem_iff).mp hc) with h | h
          · exact hxnotarr h
          · exact hx1 h
        rw [hget1not x hxnotarr]
        exact hdone x hxlen hxnotrem hxnotrq
      · intro e he
        exact hstops e he
      · intro e he
        exact hpos e he
      · exact hpw
      · rw [setReady]
        rw [spent_updAll_pres (fun p => { p with state := PState.READY })
          s.procs arrived (fun p0 => rfl)]
        exact hspan
    · have hmge := npMeasure_ge byWhile s
      have hlj : arrived.length + rest.length = s.rem.length := by
        have h0 := hjoin.length_eq
        simpa using h0
      have hlq : rq2.length + 1 = s.rq.length + arrived.length := by
        have h0 : (s.rq ++ arrived).length = (i0 :: rq2).length := by rw [hq]
        simp only [List.length_append, List.length_cons] at h0
        omega
      have hltail := npSelTail_len lt (setReady s.procs arrived)
        (i0 :: rq2) hrq1ne
      simp only [List.length_cons] at hltail
      refine lt_of_le_of_lt (npMeasure_le byWhile _) ?_
      simp only [npDispatchState, npDispatchRecord]
      omega

theorem npRun_complete (byWhile : Bool) (lt : Proc → Proc → Bool)
    (B : List Int) (hB : ∀ b ∈ B, 0 < b) :
    ∀ (f : Nat) (s : NPState), NPInv B s → npMeasure byWhile s < f →
      NPInv B (npRun byWhile lt f s) ∧ (npRun byWhile lt f s).rem = [] ∧
        (npRun byWhile lt f s).rq = [] := by
  intro f
  induction f with
  | zero => intro s hInv hm; omega
  | succ f2 ih =>
    intro s hInv hm
    by_cases hc : (s.rem.isEmpty && s.rq.isEmpty) = true
    · have hc2 := hc
      simp only [Bool.and_eq_true, List.isEmpty_iff] at hc2
      simp only [npRun, hc, if_true]
      exact ⟨hInv, hc2.1, hc2.2⟩
    · have hne : s.rem ≠ [] ∨ s.rq ≠ [] := by
        simp only [Bool.and_eq_true, List.isEmpty_iff] at hc
        by_cases h1 : s.rem = []
        · right; intro h2; exact hc ⟨h1, h2⟩
        · left; exact h1
      obtain ⟨s2, hstep, hinv2, hm2⟩ :=
        npStep_preserve byWhile lt B hB s hInv hne
      simp only [npRun, hc, if_false, hstep]
      exact ih s2 hinv2 (by omega)

theorem npInit_inv (ps : List Proc) :
    NPInv (ps.map Proc.burst) (npInit ps) := by
  have hlen : (ps.map resetP).length = ps.length := List.length_map _ _
  have hremperm : (npInit ps).rem.Perm (List.range ps.length) := by
    simp only [npInit, hlen]
    exact sortStable_perm _ _
  refine ⟨?_, ?_, ?_, ?_, ?_, ?_, ?_, ?_, ?_, ?_⟩
  · simp only [npInit, List.map_map]
    exact List.map_congr_left (fun p _ => rfl)
  · intro x hx
    simp only [npInit, List.append_nil] at hx
    have : x ∈ List.range ps.length := hremperm.mem_iff.mp hx
    simp only [npInit, hlen]
    exact List.mem_range.mp this
  · simp only [npInit, List.append_nil]
    exact (hremperm.nodup_iff).mpr (List.nodup_range _)
  · intro x hx
    have hxr : x ∈ List.range ps.length := hremperm.mem_iff.mp hx
    have hxlt : x < ps.length := List.mem_range.mp hxr
    simp only [npInit]
    rw [getP_map resetP ps x hxlt]
    exact ⟨rfl, rfl⟩
  · intro x hx
    simp only [npInit] at hx
    simp at hx
  · intro x hxlen hx1 hx2
    exfalso
    simp only [npInit, hlen] at hxlen
    exact hx1 (hremperm.mem_iff.mpr (List.mem_range.mpr hxlen))
  · intro e he
    simp only [npInit] at he
    simp at he
  · intro e he
    simp only [npInit] at he
    simp at he
  · simp only [npInit]
    exact List.Pairwise.nil
  · simp only [npInit, ganttSpan, List.map_nil, List.sum_nil]
    exact (spent_reset ps).symm

theorem npInit_fuel (byWhile : Bool) (ps : List Proc) :
    npMeasure byWhile (npInit ps) < npFuel ps := by
  have h1 := npMeasure_le byWhile (npInit ps)
  have h2 : (npInit ps).rem.length = ps.length := by
    have h0 := (sortStable_perm (fun i j =>
      arrivalPidLt (getP (ps.map resetP) i) (getP (ps.map resetP) j))
      (List.range (ps.map resetP).length)).length_eq
    simp only [npInit]
    rw [h0]
    simp
  have h3 : (npInit ps).rq.length = 0 := rfl
  simp only [npFuel]
  omega

theorem burst_hyp_map {ps : List Proc} (hb : ∀ p ∈ ps, 0 < p.burst) :
    ∀ b ∈ ps.map Proc.burst, 0 < b := by
  intro b hbmem
  obtain ⟨p, hp, rfl⟩ := List.mem_map.mp hbmem
  exact hb p hp

theorem npFinal (byWhile : Bool) (lt : Proc → Proc → Bool) (ps : List Proc)
    (hb : ∀ p ∈ ps, 0 < p.burst) :
    NPInv (ps.map Proc.burst) (npRun byWhile lt (npFuel ps) (npInit ps)) ∧
    (npRun byWhile lt (npFuel ps) (npInit ps)).rem = [] ∧
    (npRun byWhile lt (npFuel ps) (npInit ps)).rq = [] :=
  npRun_complete byWhile lt _ (burst_hyp_map hb) (npFuel ps) (npInit ps)
    (npInit_inv ps) (npInit_fuel byWhile ps)

theorem burstSum_eq_of_mapB {ps1 ps2 : List Proc}
    (h : ps1.map Proc.burst = ps2.map Proc.burst) :
    burstSum ps1 = burstSum ps2 := by
  simp only [burstSum, h]

theorem length_eq_of_mapB {ps1 ps2 : List Proc}
    (h : ps1.map Proc.burst = ps2.map Proc.burst) :
    ps1.length = ps2.length := by
  have h1 : (ps1.map Proc.burst).length = (ps2.map Proc.burst).length := by
    rw [h]
  simpa using h1

theorem mkResult_processes (name : String) (procs : List Proc)
    (g : List GEntry) (cs : Nat) (t : Int) :
    (mkResult name procs g cs t).processes = procs := by
  simp only [mkResult, calcMetrics]
  split
  · rfl
  · split <;> rfl

theorem mkResult_gantt (name : String) (procs : List Proc) (g : List GEntry)
    (cs : Nat) (t : Int) : (mkResult name procs g cs t).gantt = g := by
  simp only [mkResult, calcMetrics]
  split
  · rfl
  · split <;> rfl

theorem mkResult_cs (name : String) (procs : List Proc) (g : List GEntry)
    (cs : Nat) (t : Int) :
    (mkResult name procs g cs t).contextSwitches = cs := by
  simp only [mkResult, calcMetrics]
  split
  · rfl
  · split <;> rfl

theorem mkResult_total (name : String) (procs : List Proc) (g : List GEntry)
    (cs : Nat) (t : Int) : (mkResult name procs g cs t).totalTime = t := by
  simp only [mkResult, calcMetrics]
  split
  · rfl
  · split <;> rfl

/-- Properties of any completed simulation state satisfying the non-preemptive
invariant: every process is terminated with the metric equations, and the
Gantt chart is well-formed and accounts for the full (original) burst sum. -/
theorem npDone_props (B : List Int) (sf : NPState) (hInv : NPInv B sf)
    (hrem : sf.rem = []) (hrq : sf.rq = []) :
    (∀ p ∈ sf.procs, p.state = PState.TERMINATED ∧ p.remainingTime = 0 ∧
      p.turnaroundTime = p.completionTime - p.arrival ∧
      p.waitingTime = p.turnaroundTime - p.burst) ∧
    ganttOK sf.gantt (burstSum sf.procs) := by
  obtain ⟨hlenB, hbounds, hnodup, hremNew, hrqReady, hdone, hstops, hpos,
    hpw, hspan⟩ := hInv
  have hall : ∀ p ∈ sf.procs, p.state = PState.TERMINATED ∧
      p.remainingTime = 0 ∧
      p.turnaroundTime = p.completionTime - p.arrival ∧
      p.waitingTime = p.turnaroundTime - p.burst := by
    refine forall_mem_of_getP sf.procs ?_
    intro i hi
    exact hdone i hi (by rw [hrem]; simp) (by rw [hrq]; simp)
  refine ⟨hall, ?_, hpos, hpw, pairwise_start_lt _ hpw hpos⟩
  rw [hspan]
  exact spent_eq_burstSum sf.procs (fun p hp => (hall p hp).2.1)

/-! ### The Round Robin loop invariant -/

theorem perm_stitch {α : Type} (rest0 rest3 arrived2 cq2 : List α) (i : α)
    (hjoin2 : (arrived2 ++ rest3).Perm rest0) :
    (rest3 ++ ((cq2 ++ arrived2) ++ [i])).Perm (rest0 ++ (i :: cq2)) := by
  rw [← Multiset.coe_eq_coe] at hjoin2 ⊢
  rw [← Multiset.coe_add] at hjoin2
  simp only [← Multiset.coe_add, ← Multiset.cons_coe, Multiset.coe_nil,
    Multiset.cons_zero, ← Multiset.singleton_add, ← hjoin2]
  abel

theorem sumRemNat_set (ps : List Proc) (i : Nat) (p : Proc)
    (h : i < ps.length) :
    sumRemNat (ps.set i p) + (getP ps i).remainingTime.toNat =
      sumRemNat ps + p.remainingTime.toNat := by
  induction ps generalizing i with
  | nil => simp at h
  | cons a as ih =>
    cases i with
    | zero =>
      simp only [List.set, getP_cons_zero, sumRemNat, List.map_cons,
        List.sum_cons]
      omega
    | succ j =>
      have hj : j < as.length := by simpa using h
      have h2 := ih j hj
      simp only [sumRemNat] at h2
      simp only [List.set, getP_cons_succ, sumRemNat, List.map_cons,
        List.sum_cons]
      omega

theorem sumRemNat_updAll_pres (f : Proc → Proc) (ps : List Proc)
    (is2 : List Nat) (h : ∀ p, (f p).remainingTime = p.remainingTime) :
    sumRemNat (updAll f ps is2) = sumRemNat ps := by
  have h0 := map_updAll_pres (fun p => p.remainingTime.toNat) f ps is2
    (fun p => by simp [h])
  simp only [sumRemNat, h0]

theorem sumRemNat_setReady (ps : List Proc) (is2 : List Nat) :
    sumRemNat (setReady ps is2) = sumRemNat ps :=
  sumRemNat_updAll_pres (fun p => { p with state := PState.READY }) ps is2
    (fun _ => rfl)

/-- Loop invariant of the Round Robin scheduler. -/
structure RRInv (B : List Int) (s : RRState) : Prop where
  lenB : s.procs.map Proc.burst = B
  bounds : ∀ i ∈ s.rem ++ s.cq, i < s.procs.length
  nodup : (s.rem ++ s.cq).Nodup
  remNew : ∀ i ∈ s.rem, (getP s.procs i).state = PState.NEW ∧
    (getP s.procs i).remainingTime = (getP s.procs i).burst
  cqReady : ∀ i ∈ s.cq, (getP s.procs i).state = PState.READY ∧
    0 < (getP s.procs i).remainingTime
  doneTerm : ∀ i, i < s.procs.length → i ∉ s.rem → i ∉ s.cq →
    (getP s.procs i).state = PState.TERMINATED ∧
    (getP s.procs i).remainingTime = 0 ∧
    (getP s.procs i).turnaroundTime =
      (getP s.procs i).completionTime - (getP s.procs i).arrival ∧
    (getP s.procs i).waitingTime =
      (getP s.procs i).turnaroundTime - (getP s.procs i).burst
  completedEq : s.completed + (s.rem.length + s.cq.length) = s.procs.length
  stops : ∀ e ∈ s.gantt, e.stop ≤ s.t
  pos : ∀ e ∈ s.gantt, e.start < e.stop
  pw : s.gantt.Pairwise (fun a b => a.stop ≤ b.start)
  span : ganttSpan s.gantt = spent s.procs

theorem rrMeasure_le (s : RRState) :
    rrMeasure s ≤ 2 * (sumRemNat s.procs + s.rem.length) + 1 := by
  simp only [rrMeasure]
  split <;> omega

theorem rrMeasure_ge (s : RRState) :
    2 * (sumRemNat s.procs + s.rem.length) ≤ rrMeasure s := by
  simp only [rrMeasure]
  split <;> omega

theorem rrStep_preserve (q : Int) (hqpos : 0 < q) (B : List Int)
    (hB : ∀ b ∈ B, 0 < b) (s : RRState) (hInv : RRInv B s)
    (hcond : s.completed < s.procs.length) :
    ∃ s2, rrStep q s = some s2 ∧ RRInv B s2 ∧ rrMeasure s2 < rrMeasure s := by
  obtain ⟨hlenB, hbounds, hnodup, hremNew, hcqReady, hdone, hcompEq, hstops,
    hpos, hpw, hspan⟩ := hInv
  rcases hpop : npPop true s.procs s.t s.rem with ⟨arrived, rest⟩
  have hjoin : (arrived ++ rest).Perm s.rem := by
    have h0 := npPop_join true s.procs s.t s.rem
    rw [hpop] at h0; exact h0
  have hbnd : ∀ x, x ∈ s.rem ∨ x ∈ s.cq → x < s.procs.length :=
    fun x hx => hbounds x (List.mem_append.mpr hx)
  have hmemArr : ∀ x ∈ arrived, x ∈ s.rem :=
    fun x hx => (hjoin.mem_iff).mp (List.mem_append_left rest hx)
  have hmemRest : ∀ x ∈ rest, x ∈ s.rem :=
    fun x hx => (hjoin.mem_iff).mp (List.mem_append_right arrived hx)
  have hremnodup : s.rem.Nodup := (List.nodup_append.mp hnodup).1
  have hARnodup : (arrived ++ rest).Nodup := (hjoin.nodup_iff).mpr hremnodup
  have harrNodup : arrived.Nodup := (List.nodup_append.mp hARnodup).1
  have hrestNodup : rest.Nodup := (List.nodup_append.mp hARnodup).2.1
  have hdisjAR : ∀ x ∈ arrived, x ∉ rest :=
    fun x hx => (List.nodup_append.mp hARnodup).2.2 hx
  have hNall : (rest ++ (s.cq ++ arrived)).Nodup := nodup_shuffle hnodup hjoin
  have hArrNotCq : ∀ x ∈ arrived, x ∉ s.cq :=
    fun x hx => (List.nodup_append.mp hnodup).2.2 (hmemArr x hx)
  have hCqNotArr : ∀ x ∈ s.cq, x ∉ arrived := fun x hx hc => hArrNotCq x hc hx
  have hRemNotCq : ∀ x ∈ s.rem, x ∉ s.cq :=
    fun x hx => (List.nodup_append.mp hnodup).2.2 hx
  have hget1not : ∀ x, x ∉ arrived →
      getP (setReady s.procs arrived) x = getP s.procs x :=
    fun x hx => getP_updAll_not_mem _ _ _ _ hx
  have hget1mem : ∀ x, x ∈ arrived → x < s.procs.length →
      getP (setReady s.procs arrived) x =
        { getP s.procs x with state := PState.READY } :=
    fun x hx hl => getP_updAll_mem _ _ _ _ harrNodup hx hl
  have hlen1 : (setReady s.procs arrived).length = s.procs.length :=
    length_updAll _ _ _
  have hlenB1 : (setReady s.procs arrived).map Proc.burst = B := by
    rw [setReady, map_updAll_pres Proc.burst
      (fun p => { p with state := PState.READY }) s.procs arrived
      (fun p => rfl)]
    exact hlenB
  cases hq : s.cq ++ arrived with
  | nil =>
    obtain ⟨hcq, harr⟩ := List.append_eq_nil.mp hq
    subst harr
    cases rest with
    | nil =>
      exfalso
      have hremnil : s.rem = [] := hjoin.symm.eq_nil
      rw [hremnil, hcq] at hcompEq
      simp at hcompEq
      omega
    | cons j rest2 =>
      have hjarr : ¬ (getP s.procs j).arrival ≤ s.t := by
        refine npPop_rest_head true s.procs s.t s.rem j rest2 ?_
        rw [hpop]
      refine ⟨rrJumpState s [] j rest2, ?_, ?_, ?_⟩
      · simp only [rrStep, hpop, hq]
      · refine ⟨?_, ?_, ?_, ?_, ?_, ?_, ?_, ?_, ?_, ?_, ?_⟩
        · simpa [rrJumpState, setReady_nil] using hlenB
        · intro x hx
          simp only [rrJumpState, setReady_nil, List.append_nil] at hx ⊢
          exact hbnd x (Or.inl (hmemRest x hx))
        · simp only [rrJumpState, List.append_nil]
          exact hARnodup.of_append_right
        · intro x hx
          simp only [rrJumpState, setReady_nil] at hx ⊢
          exact hremNew x (hmemRest x hx)
        · intro x hx
          simp only [rrJumpState] at hx
          simp at hx
        · intro x hxlen hx1 hx2
          simp only [rrJumpState, setReady_nil] at hxlen hx1 hx2 ⊢
          refine hdone x hxlen ?_ (by rw [hcq]; simp)
          intro hc
          have hc2 := (hjoin.symm.mem_iff).mp hc
          simp only [List.nil_append] at hc2
          exact hx1 hc2
        · have hlen2 : s.rem.length = rest2.length + 1 := by
            have h0 := hjoin.length_eq
            simp only [List.nil_append, List.length_cons] at h0
            omega
          simp only [rrJumpState, setReady_nil, List.length_cons,
            List.length_nil]
          rw [hcq] at hcompEq
          simp only [List.length_nil] at hcompEq
          omega
        · intro e he
          simp only [rrJumpState, setReady_nil] at he ⊢
          have h1 := hstops e he
          omega
        · intro e he
          simp only [rrJumpState] at he
          exact hpos e he
        · simpa only [rrJumpState] using hpw
        · simpa [rrJumpState, setReady_nil] using hspan
      · have hb1 : (npPop true s.procs s.t s.rem).1 = [] := by rw [hpop]
        have hpne := npPop_fst_ne_nil true s.procs
          ((getP s.procs j).arrival) j rest2 (le_refl _)
        have hlen2 : s.rem.length = rest2.length + 1 := by
          have h0 := hjoin.length_eq
          simp only [List.nil_append, List.length_cons] at h0
          omega
        simp only [rrMeasure, rrHasWork, rrJumpState, setReady_nil, hb1, hcq,
          isEmpty_false_of_ne_nil hpne]
        simp [hlen2]
  | cons i cq2 =>
    have hq1mem : ∀ x, x ∈ s.cq ∨ x ∈ arrived → x ∈ i :: cq2 := by
      intro x hx; rw [← hq]; exact List.mem_append.mpr hx
    have hq1mem' : ∀ x ∈ i :: cq2, x ∈ s.cq ∨ x ∈ arrived := by
      intro x hx; rw [← hq] at hx; exact List.mem_append.mp hx
    have hN0 : (rest ++ (i :: cq2)).Nodup := by rw [← hq]; exact hNall
    have hN0split := List.nodup_append.mp hN0
    have hdisjRest : ∀ x ∈ rest, x ∉ i :: cq2 := fun x hx => hN0split.2.2 hx
    have hicq2 : i ∉ cq2 := (List.nodup_cons.mp hN0split.2.1).1
    have himem : i ∈ i :: cq2 := List.mem_cons_self _ _
    have hiBound : i < s.procs.length := by
      rcases hq1mem' i himem with h | h
      · exact hbnd i (Or.inr h)
      · exact hbnd i (Or.inl (hmemArr i h))
    have hq1ready : ∀ x ∈ i :: cq2,
        (getP (setReady s.procs arrived) x).state = PState.READY ∧
        0 < (getP (setReady s.procs arrived) x).remainingTime := by
      intro x hx
      rcases hq1mem' x hx with h | h
      · rw [hget1not x (hCqNotArr x h)]
        exact hcqReady x h
      · have hxb : x < s.procs.length := hbnd x (Or.inl (hmemArr x h))
        rw [hget1mem x h hxb]
        refine ⟨rfl, ?_⟩
        have hb2 := (hremNew x (hmemArr x h)).2
        have hbp : 0 < (getP s.procs x).burst := burst_pos_of_inv hB hlenB x hxb
        simpa [hb2] using hbp
    have hiRem1 : 0 < (getP (setReady s.procs arrived) i).remainingTime :=
      (hq1ready i himem).2
    have hminpos : 0 < min q (getP (setReady s.procs arrived) i).remainingTime :=
      lt_min hqpos hiRem1
    have hinotrest : i ∉ rest := fun hc => hdisjRest i hc himem
    rcases hpop2 : npPop true (setReady s.procs arrived)
        (s.t + min q (getP (setReady s.procs arrived) i).remainingTime) rest
      with ⟨arrived2, rest3⟩
    have hjoin2 : (arrived2 ++ rest3).Perm rest := by
      have h0 := npPop_join true (setReady s.procs arrived)
        (s.t + min q (getP (setReady s.procs arrived) i).remainingTime) rest
      rw [hpop2] at h0; exact h0
    have hmemArr2 : ∀ x ∈ arrived2, x ∈ rest :=
      fun x hx => (hjoin2.mem_iff).mp (List.mem_append_left rest3 hx)
    have hmemRest3 : ∀ x ∈ rest3, x ∈ rest :=
      fun x hx => (hjoin2.mem_iff).mp (List.mem_append_right arrived2 hx)
    have hA2Rnodup : (arrived2 ++ rest3).Nodup := (hjoin2.nodup_iff).mpr hrestNodup
    have harr2Nodup : arrived2.Nodup := (List.nodup_append.mp hA2Rnodup).1
    have hdisjA2R3 : ∀ x ∈ arrived2, x ∉ rest3 :=
      fun x hx => (List.nodup_append.mp hA2Rnodup).2.2 hx
    have hinotarr2 : i ∉ arrived2 := fun hc => hinotrest (hmemArr2 i hc)
    have harr2notarr : ∀ x ∈ arrived2, x ∉ arrived :=
      fun x hx hc => hdisjAR x hc (hmemArr2 x hx)
    have hget2not : ∀ x, x ∉ arrived2 →
        getP (setReady (setReady s.procs arrived) arrived2) x =
          getP (setReady s.procs arrived) x :=
      fun x hx => getP_updAll_not_mem _ _ _ _ hx
    have hget2mem : ∀ x ∈ arrived2,
        getP (setReady (setReady s.procs arrived) arrived2) x =
          { getP s.procs x with state := PState.READY } := by
      intro x hx
      have hxb : x < s.procs.length :=
        hbnd x (Or.inl (hmemRest x (hmemArr2 x hx)))
      have h1 : getP (setReady (setReady s.procs arrived) arrived2) x =
          { getP (setReady s.procs arrived) x with state := PState.READY } :=
        getP_updAll_mem _ _ _ _ harr2Nodup hx (by rw [hlen1]; exact hxb)
      rw [h1, hget1not x (fun hc => hdisjAR x hc (hmemArr2 x hx))]
    have hlen2 : (setReady (setReady s.procs arrived) arrived2).length =
        s.procs.length := by
      rw [length_setReady, hlen1]
    have hlenB2 : (setReady (setReady s.procs arrived) arrived2).map
        Proc.burst = B := by
      rw [map_burst_setReady]
      exact hlenB1
    have hgi2 : getP (setReady (setReady s.procs arrived) arrived2) i =
        getP (setReady s.procs arrived) i := hget2not i hinotarr2
    have hsp2 : spent (setReady (setReady s.procs arrived) arrived2) =
        spent s.procs := by
      rw [spent_setReady, spent_setReady]
    have hW2 : sumRemNat (setReady (setReady s.procs arrived) arrived2) =
        sumRemNat s.procs := by
      rw [sumRemNat_setReady, sumRemNat_setReady]
    have hlj1 : arrived.length + rest.length = s.rem.length := by
      have h0 := hjoin.length_eq
      simpa using h0
    have hlj2 : arrived2.length + rest3.length = rest.length := by
      have h0 := hjoin2.length_eq
      simpa using h0
    have hlq : cq2.length + 1 = s.cq.length + arrived.length := by
      have h0 : (s.cq ++ arrived).length = (i :: cq2).length := by rw [hq]
      simp only [List.length_append, List.length_cons] at h0
      omega
    have hdoneSide : ∀ x, x < s.procs.length → x ∉ rest3 →
        x ∉ cq2 → x ∉ arrived2 → x ≠ i →
        getP (setReady (setReady s.procs arrived) arrived2) x = getP s.procs x ∧
        x ∉ s.rem ∧ x ∉ s.cq := by
      intro x hxlen hx1 hx2 hx3 hx4
      have hxnotarr : x ∉ arrived := by
        intro hc
        rcases List.mem_cons.mp (hq1mem x (Or.inr hc)) with h | h
        · exact hx4 h
        · exact hx2 h
      have hxnotrest : x ∉ rest := by
        intro hc
        rcases List.mem_append.mp ((hjoin2.symm.mem_iff).mp hc) with h | h
        · exact hx3 h
        · exact hx1 h
      have hxnotrem : x ∉ s.rem := by
        intro hc
        rcases List.mem_append.mp ((hjoin.symm.mem_iff).mp hc) with h | h
        · exact hxnotarr h
        · exact hxnotrest h
      have hxnotcq : x ∉ s.cq := by
        intro hc
        rcases List.mem_cons.mp (hq1mem x (Or.inl hc)) with h | h
        · exact hx4 h
        · exact hx2 h
      exact ⟨by rw [hget2not x hx3, hget1not x hxnotarr], hxnotrem, hxnotcq⟩
    have hcq2ready : ∀ x ∈ cq2 ++ arrived2,
        (getP (setReady (setReady s.procs arrived) arrived2) x).state =
          PState.READY ∧
        0 < (getP (setReady (setReady s.procs arrived) arrived2) x).remainingTime
        := by
      intro x hx
      rcases List.mem_append.mp hx with h | h
      · have hxnotarr2 : x ∉ arrived2 := by
          intro hc
          exact hdisjRest x (hmemArr2 x hc) (List.mem_cons_of_mem i h)
        rw [hget2not x hxnotarr2]
        exact hq1ready x (List.mem_cons_of_mem i h)
      · rw [hget2mem x h]
        refine ⟨rfl, ?_⟩
        have hxrem : x ∈ s.rem := hmemRest x (hmemArr2 x h)
        have hxb : x < s.procs.length := hbnd x (Or.inl hxrem)
        have hb2 := (hremNew x hxrem).2
        have hbp : 0 < (getP s.procs x).burst := burst_pos_of_inv hB hlenB x hxb
        simpa [hb2] using hbp
    have hcq2nodup : (rest3 ++ ((cq2 ++ arrived2) ++ [i])).Nodup :=
      ((perm_stitch rest rest3 arrived2 cq2 i hjoin2).nodup_iff).mpr hN0
    by_cases hbr : (0 : Int) <
        (rrRunProc q s.t (getP (setReady s.procs arrived) i)).remainingTime
    · refine ⟨rrContinueState q s arrived i cq2 rest, ?_, ?_, ?_⟩
      · simp only [rrStep, hpop, hq]
        rw [if_pos hbr]
      · refine ⟨?_, ?_, ?_, ?_, ?_, ?_, ?_, ?_, ?_, ?_, ?_⟩
        · simp only [rrContinueState, hpop2]
          rw [map_set_pres Proc.burst _ i _ (by rw [hgi2]; rfl)]
          exact hlenB2
        · intro x hx
          simp only [rrContinueState, hpop2, List.length_set, hlen2] at hx ⊢
          rcases List.mem_append.mp hx with h | h
          · exact hbnd x (Or.inl (hmemRest x (hmemRest3 x h)))
          · rcases List.mem_append.mp h with h2 | h2
            · rcases List.mem_append.mp h2 with h3 | h3
              · rcases hq1mem' x (List.mem_cons_of_mem i h3) with h4 | h4
                · exact hbnd x (Or.inr h4)
                · exact hbnd x (Or.inl (hmemArr x h4))
              · exact hbnd x (Or.inl (hmemRest x (hmemArr2 x h3)))
            · simp only [List.mem_singleton] at h2
              subst h2
              exact hiBound
        · simp only [rrContinueState, hpop2]
          exact hcq2nodup
        · intro x hx
          simp only [rrContinueState, hpop2] at hx ⊢
          have hx1 : x ∈ rest := hmemRest3 x hx
          have hxni : x ≠ i := fun hc => hdisjRest x hx1 (hc ▸ himem)
          have hxnotarr2 : x ∉ arrived2 := fun hc => hdisjA2R3 x hc hx
          have hxnotarr : x ∉ arrived := fun hc => hdisjAR x hc hx1
          rw [getP_set_ne _ _ _ _ hxni, hget2not x hxnotarr2,
            hget1not x hxnotarr]
          exact hremNew x (hmemRest x hx1)
        · intro x hx
          simp only [rrContinueState, hpop2] at hx ⊢
          rcases List.mem_append.mp hx with h | h
          · have hxni : x ≠ i := by
              rintro rfl
              rcases List.mem_append.mp h with h2 | h2
              · exact hicq2 h2
              · exact hinotarr2 h2
            rw [getP_set_ne _ _ _ _ hxni]
            exact hcq2ready x h
          · simp only [List.mem_singleton] at h
            subst h
            rw [getP_set_self _ _ _ (by rw [hlen2]; exact hiBound)]
            exact ⟨rfl, hbr⟩
        · intro x hxlen hx1 hx2
          simp only [rrContinueState, hpop2, List.length_set, hlen2]
            at hxlen hx1 hx2 ⊢
          have hxni : x ≠ i := by
            intro hc
            exact hx2 (hc ▸ List.mem_append_right _ (List.mem_singleton.mpr rfl))
          have hxnotcq2 : x ∉ cq2 := fun hc =>
            hx2 (List.mem_append_left _ (List.mem_append_left _ hc))
          have hxnotarr2 : x ∉ arrived2 := fun hc =>
            hx2 (List.mem_append_left _ (List.mem_append_right _ hc))
          obtain ⟨hgx, hxrem, hxcq⟩ :=
            hdoneSide x hxlen hx1 hxnotcq2 hxnotarr2 hxni
          rw [getP_set_ne _ _ _ _ hxni, hgx]
          exact hdone x hxlen hxrem hxcq
        · simp only [rrContinueState, hpop2, List.length_set, hlen2,
            List.length_append, List.length_cons, List.length_singleton,
            List.length_nil]
          simp only [List.length_cons] at hlq
          omega
        · intro e he
          simp only [rrContinueState, hpop2] at he ⊢
          rcases List.mem_append.mp he with h | h
          · have := hstops e h
            omega
          · simp only [List.mem_singleton] at h
            subst h
            simp
        · intro e he
          simp only [rrContinueState, hpop2] at he ⊢
          rcases List.mem_append.mp he with h | h
          · exact hpos e h
          · simp only [List.mem_singleton] at h
            subst h
            simpa using hminpos
        · simp only [rrContinueState, hpop2]
          refine List.pairwise_append.mpr
            ⟨hpw, List.pairwise_singleton _ _, ?_⟩
          intro a ha b hb
          simp only [List.mem_singleton] at hb
          subst hb
          simpa using hstops a ha
        · simp only [rrContinueState, hpop2]
          rw [ganttSpan_append,
            spent_set _ i _ (by rw [hlen2]; exact hiBound), hgi2, hsp2, hspan]
          simp only [rrRunProc, spentOf]
          ring
      · refine lt_of_le_of_lt (rrMeasure_le _) ?_
        have hWeq := sumRemNat_set (setReady (setReady s.procs arrived)
          arrived2) i ({ rrRunProc q s.t (getP (setReady s.procs arrived) i)
            with state := PState.READY })
          (by rw [hlen2]; exact hiBound)
        rw [hgi2, hW2] at hWeq
        have hp2rem : ({ rrRunProc q s.t (getP (setReady s.procs arrived) i)
            with state := PState.READY } : Proc).remainingTime =
            (getP (setReady s.procs arrived) i).remainingTime -
              min q (getP (setReady s.procs arrived) i).remainingTime := rfl
        rw [hp2rem] at hWeq
        have hminch := min_choice q (getP (setReady s.procs arrived) i).remainingTime
        have hge := rrMeasure_ge s
        simp only [rrContinueState, hpop2]
        simp only [] at hWeq
        omega
    · have hremzero : (getP (setReady s.procs arrived) i).remainingTime -
          min q (getP (setReady s.procs arrived) i).remainingTime = 0 := by
        simp only [rrRunProc] at hbr
        have hminch := min_choice q (getP (setReady s.procs arrived) i).remainingTime
        omega
      refine ⟨rrCompleteState q s arrived i cq2 rest, ?_, ?_, ?_⟩
      · simp only [rrStep, hpop, hq]
        rw [if_neg hbr]
      · refine ⟨?_, ?_, ?_, ?_, ?_, ?_, ?_, ?_, ?_, ?_, ?_⟩
        · simp only [rrCompleteState, hpop2]
          rw [map_set_pres Proc.burst _ i _ (by rw [hgi2]; simp [calcProcessMetrics, rrRunProc])]
          exact hlenB2
        · intro x hx
          simp only [rrCompleteState, hpop2, List.length_set, hlen2] at hx ⊢
          rcases List.mem_append.mp hx with h | h
          · exact hbnd x (Or.inl (hmemRest x (hmemRest3 x h)))
          · rcases List.mem_append.mp h with h3 | h3
            · rcases hq1mem' x (List.mem_cons_of_mem i h3) with h4 | h4
              · exact hbnd x (Or.inr h4)
              · exact hbnd x (Or.inl (hmemArr x h4))
            · exact hbnd x (Or.inl (hmemRest x (hmemArr2 x h3)))
        · simp only [rrCompleteState, hpop2]
          have hsub : (rest3 ++ (cq2 ++ arrived2)).Sublist
              (rest3 ++ ((cq2 ++ arrived2) ++ [i])) :=
            List.Sublist.append_left (List.sublist_append_left _ _) rest3
          exact hsub.nodup hcq2nodup
        · intro x hx
          simp only [rrCompleteState, hpop2] at hx ⊢
          have hx1 : x ∈ rest := hmemRest3 x hx
          have hxni : x ≠ i := fun hc => hdisjRest x hx1 (hc ▸ himem)
          have hxnotarr2 : x ∉ arrived2 := fun hc => hdisjA2R3 x hc hx
          have hxnotarr : x ∉ arrived := fun hc => hdisjAR x hc hx1
          rw [getP_set_ne _ _ _ _ hxni, hget2not x hxnotarr2,
            hget1not x hxnotarr]
          exact hremNew x (hmemRest x hx1)
        · intro x hx
          simp only [rrCompleteState, hpop2] at hx ⊢
          have hxni : x ≠ i := by
            rintro rfl
            rcases List.mem_append.mp hx with h2 | h2
            · exact hicq2 h2
            · exact hinotarr2 h2
          rw [getP_set_ne _ _ _ _ hxni]
          exact hcq2ready x hx
        · intro x hxlen hx1 hx2
          simp only [rrCompleteState, hpop2, List.length_set, hlen2]
            at hxlen hx1 hx2 ⊢
          by_cases hxi : x = i
          · subst hxi
            rw [getP_set_self _ _ _ (by rw [hlen2]; exact hiBound)]
            refine ⟨rfl, ?_, ?_, ?_⟩
            · exact hremzero
            · simp [calcProcessMetrics, rrRunProc]
            · simp [calcProcessMetrics, rrRunProc]
          · have hxnotcq2 : x ∉ cq2 := fun hc =>
              hx2 (List.mem_append_left _ hc)
            have hxnotarr2 : x ∉ arrived2 := fun hc =>
              hx2 (List.mem_append_right _ hc)
            obtain ⟨hgx, hxrem, hxcq⟩ :=
              hdoneSide x hxlen hx1 hxnotcq2 hxnotarr2 hxi
            rw [getP_set_ne _ _ _ _ hxi, hgx]
            exact hdone x hxlen hxrem hxcq
        · simp only [rrCompleteState, hpop2, List.length_set, hlen2,
            List.length_append]
          simp only [List.length_cons] at hlq
          omega
        · intro e he
          simp only [rrCompleteState, hpop2] at he ⊢
          rcases List.mem_append.mp he with h | h
          · have := hstops e h
            omega
          · simp only [List.mem_singleton] at h
            subst h
            simp
        · intro e he
          simp only [rrCompleteState, hpop2] at he ⊢
          rcases List.mem_append.mp he with h | h
          · exact hpos e h
          · simp only [List.mem_singleton] at h
            subst h
            simpa using hminpos
        · simp only [rrCompleteState, hpop2]
          refine List.pairwise_append.mpr
            ⟨hpw, List.pairwise_singleton _ _, ?_⟩
          intro a ha b hb
          simp only [List.mem_singleton] at hb
          subst hb
          simpa using hstops a ha
        · simp only [rrCompleteState, hpop2]
          rw [ganttSpan_append,
            spent_set _ i _ (by rw [hlen2]; exact hiBound), hgi2, hsp2, hspan]
          simp only [spentOf, calcProcessMetrics, rrRunProc]
          ring
      · refine lt_of_le_of_lt (rrMeasure_le _) ?_
        have hWeq := sumRemNat_set (setReady (setReady s.procs arrived)
          arrived2) i (calcProcessMetrics { rrRunProc q s.t
            (getP (setReady s.procs arrived) i) with
            state := PState.TERMINATED,
            completionTime := s.t + min q
              (getP (setReady s.procs arrived) i).remainingTime })
          (by rw [hlen2]; exact hiBound)
        rw [hgi2, hW2] at hWeq
        have hp2rem : (calcProcessMetrics { rrRunProc q s.t
            (getP (setReady s.procs arrived) i) with
            state := PState.TERMINATED,
            completionTime := s.t + min q
              (getP (setReady s.procs arrived) i).remainingTime }).remainingTime =
            (getP (setReady s.procs arrived) i).remainingTime -
              min q (getP (setReady s.procs arrived) i).remainingTime := rfl
        rw [hp2rem] at hWeq
        have hminch := min_choice q (getP (setReady s.procs arrived) i).remainingTime
        have hge := rrMeasure_ge s
        simp only [rrCompleteState, hpop2]
        simp only [] at hWeq
        omega

theorem rrRun_complete (q : Int) (hqpos : 0 < q) (B : List Int)
    (hB : ∀ b ∈ B, 0 < b) :
    ∀ (f : Nat) (s : RRState), RRInv B s → rrMeasure s < f →
      RRInv B (rrRun q f s) ∧
        (rrRun q f s).completed = (rrRun q f s).procs.length := by
  intro f
  induction f with
  | zero => intro s hInv hm; omega
  | succ f2 ih =>
    intro s hInv hm
    by_cases hc : s.completed < s.procs.length
    · obtain ⟨s2, hstep, hinv2, hm2⟩ := rrStep_preserve q hqpos B hB s hInv hc
      simp only [rrRun, if_pos hc, hstep]
      exact ih s2 hinv2 (by omega)
    · simp only [rrRun, if_neg hc]
      have hcomp := hInv.completedEq
      exact ⟨hInv, by omega⟩

theorem sumRemNat_reset (ps : List Proc) :
    sumRemNat (ps.map resetP) = sumBurstNat ps := by
  simp only [sumRemNat, sumBurstNat, List.map_map]
  rfl

theorem rrInit_inv (ps : List Proc) :
    RRInv (ps.map Proc.burst) (rrInit ps) := by
  have hlen : (ps.map resetP).length = ps.length := List.length_map _ _
  have hremperm : (rrInit ps).rem.Perm (List.range ps.length) := by
    simp only [rrInit, hlen]
    exact sortStable_perm _ _
  refine ⟨?_, ?_, ?_, ?_, ?_, ?_, ?_, ?_, ?_, ?_, ?_⟩
  · simp only [rrInit, List.map_map]
    exact List.map_congr_left (fun p _ => rfl)
  · intro x hx
    simp only [rrInit, List.append_nil] at hx
    have : x ∈ List.range ps.length := hremperm.mem_iff.mp hx
    simp only [rrInit, hlen]
    exact List.mem_range.mp this
  · simp only [rrInit, List.append_nil]
    exact (hremperm.nodup_iff).mpr (List.nodup_range _)
  · intro x hx
    have hxr : x ∈ List.range ps.length := hremperm.mem_iff.mp hx
    have hxlt : x < ps.length := List.mem_range.mp hxr
    simp only [rrInit]
    rw [getP_map resetP ps x hxlt]
    exact ⟨rfl, rfl⟩
  · intro x hx
    simp only [rrInit] at hx
    simp at hx
  · intro x hxlen hx1 hx2
    exfalso
    simp only [rrInit, hlen] at hxlen
    exact hx1 (hremperm.mem_iff.mpr (List.mem_range.mpr hxlen))
  · have h2 : (rrInit ps).rem.length = ps.length := by
      rw [hremperm.length_eq]
      simp
    simp only [rrInit, List.length_nil, hlen] at h2 ⊢
    omega
  · intro e he
    simp only [rrInit] at he
    simp at he
  · intro e he
    simp only [rrInit] at he
    simp at he
  · simp only [rrInit]
    exact List.Pairwise.nil
  · simp only [rrInit, ganttSpan, List.map_nil, List.sum_nil]
    exact (spent_reset ps).symm

theorem rrInit_fuel (ps : List Proc) :
    rrMeasure (rrInit ps) < rrFuel ps := by
  have h1 := rrMeasure_le (rrInit ps)
  have h2 : (rrInit ps).rem.length = ps.length := by
    have h0 := (sortStable_perm (fun i j =>
      arrivalPidLt (getP (ps.map resetP) i) (getP (ps.map resetP) j))
      (List.range (ps.map resetP).length)).length_eq
    simp only [rrInit]
    rw [h0]
    simp
  have h3 : sumRemNat (rrInit ps).procs = sumBurstNat ps := sumRemNat_reset ps
  simp only [rrFuel]
  omega

theorem rrFinal (q : Int) (hqpos : 0 < q) (ps : List Proc)
    (hb : ∀ p ∈ ps, 0 < p.burst) :
    RRInv (ps.map Proc.burst) (rrRun q (rrFuel ps) (rrInit ps)) ∧
    (rrRun q (rrFuel ps) (rrInit ps)).completed =
      (rrRun q (rrFuel ps) (rrInit ps)).procs.length :=
  rrRun_complete q hqpos _ (burst_hyp_map hb) (rrFuel ps) (rrInit ps)
    (rrInit_inv ps) (rrInit_fuel ps)

/-- Properties of any completed Round Robin state satisfying the invariant:
every process is terminated with the metric equations, and the Gantt chart is
well-formed and accounts for the full (original) burst sum. -/
theorem rrDone_props (B : List Int) (sf : RRState) (hInv : RRInv B sf)
    (hcomp : sf.completed = sf.procs.length) :
    (∀ p ∈ sf.procs, p.state = PState.TERMINATED ∧ p.remainingTime = 0 ∧
      p.turnaroundTime = p.completionTime - p.arrival ∧
      p.waitingTime = p.turnaroundTime - p.burst) ∧
    ganttOK sf.gantt (burstSum sf.procs) := by
  obtain ⟨hlenB, hbounds, hnodup, hremNew, hcqReady, hdone, hcompEq, hstops,
    hpos, hpw, hspan⟩ := hInv
  have hrem : sf.rem = [] := by
    have : sf.rem.length = 0 := by omega
    exact List.length_eq_zero.mp this
  have hcq : sf.cq = [] := by
    have : sf.cq.length = 0 := by omega
    exact List.length_eq_zero.mp this
  have hall : ∀ p ∈ sf.procs, p.state = PState.TERMINATED ∧
      p.remainingTime = 0 ∧
      p.turnaroundTime = p.completionTime - p.arrival ∧
      p.waitingTime = p.turnaroundTime - p.burst := by
    refine forall_mem_of_getP sf.procs ?_
    intro i hi
    exact hdone i hi (by rw [hrem]; simp) (by rw [hcq]; simp)
  refine ⟨hall, ?_, hpos, hpw, pairwise_start_lt _ hpw hpos⟩
  rw [hspan]
  exact spent_eq_burstSum sf.procs (fun p hp => (hall p hp).2.1)

/-! ### The SRTF loop invariant -/

theorem mem_newArrivedIdx (ps : List Proc) (t : Int) (i : Nat) :
    i ∈ newArrivedIdx ps t ↔
      i < ps.length ∧ (getP ps i).arrival ≤ t ∧
        (getP ps i).state = PState.NEW := by
  simp [newArrivedIdx, List.mem_filter, List.mem_range, and_assoc]

theorem newArrivedIdx_nodup (ps : List Proc) (t : Int) :
    (newArrivedIdx ps t).Nodup :=
  (List.nodup_range _).filter _

theorem olistMin_mem {l : List Int} {a : Int} (h : olistMin l = some a) :
    a ∈ l := by
  induction l generalizing a with
  | nil => simp [olistMin] at h
  | cons x xs ih =>
    simp only [olistMin] at h
    cases hm : olistMin xs with
    | none =>
      rw [hm] at h
      simp only [Option.some.injEq] at h
      exact h ▸ List.mem_cons_self x xs
    | some m =>
      rw [hm] at h
      simp only [Option.some.injEq] at h
      rcases min_choice x m with h2 | h2
      · have hxa : x = a := by rw [← h, h2]
        exact hxa ▸ List.mem_cons_self x xs
      · have hma : m = a := by rw [← h, h2]
        exact List.mem_cons_of_mem x (hma ▸ ih hm)

theorem olistMin_eq_none {l : List Int} : olistMin l = none ↔ l = [] := by
  cases l with
  | nil => simp [olistMin]
  | cons x xs =>
    simp only [olistMin]
    cases olistMin xs <;> simp

theorem minNewArrival_none {ps : List Proc} (h : minNewArrival ps = none) :
    newCount ps = 0 := by
  simp only [minNewArrival] at h
  have h2 := olistMin_eq_none.mp h
  have h3 : ps.filter (fun p => decide (p.state = PState.NEW)) = [] :=
    List.map_eq_nil_iff.mp h2
  simp [newCount, List.countP_eq_length_filter, h3]

theorem minNewArrival_some {ps : List Proc} {a : Int}
    (h : minNewArrival ps = some a) :
    ∃ p ∈ ps, p.state = PState.NEW ∧ p.arrival = a := by
  simp only [minNewArrival] at h
  have h2 := olistMin_mem h
  rcases List.mem_map.mp h2 with ⟨p, hp, hpa⟩
  rcases List.mem_filter.mp hp with ⟨hmem, hnew⟩
  exact ⟨p, hmem, by simpa using hnew, hpa⟩

theorem minFutureArrival_lt {ps : List Proc} {t a : Int}
    (h : minFutureArrival ps t = some a) : t < a := by
  simp only [minFutureArrival] at h
  have h2 := olistMin_mem h
  rcases List.mem_map.mp h2 with ⟨p, hp, hpa⟩
  rcases List.mem_filter.mp hp with ⟨hmem, hcond⟩
  simp only [Bool.and_eq_true, decide_eq_true_eq] at hcond
  exact hpa ▸ hcond.2

theorem exists_getP_of_mem {ps : List Proc} {p : Proc} (h : p ∈ ps) :
    ∃ i, i < ps.length ∧ getP ps i = p := by
  rcases List.mem_iff_getElem.mp h with ⟨i, hi, hp⟩
  exact ⟨i, hi, by rw [getP_eq_getElem ps i hi]; exact hp⟩

theorem newCount_setReady (ps : List Proc) (arrived : List Nat)
    (hnod : arrived.Nodup)
    (h : ∀ i ∈ arrived, i < ps.length ∧ (getP ps i).state = PState.NEW) :
    newCount (setReady ps arrived) + arrived.length = newCount ps := by
  induction arrived generalizing ps with
  | nil => simp [setReady, updAll]
  | cons i rest ih =>
    obtain ⟨hni, hnodr⟩ := List.nodup_cons.mp hnod
    obtain ⟨hilen, hinew⟩ := h i (List.mem_cons_self _ _)
    have hstep : newCount (updAt ps i
        (fun p => { p with state := PState.READY })) + 1 = newCount ps := by
      have h0 := countP_set (fun p => decide (p.state = PState.NEW)) ps i
        ({ getP ps i with state := PState.READY }) hilen
      rw [if_pos (by simp [hinew]), if_neg (by simp)] at h0
      simpa [newCount, updAt] using h0
    have hrest : ∀ j ∈ rest,
        j < (updAt ps i (fun p => { p with state := PState.READY })).length ∧
        (getP (updAt ps i (fun p => { p with state := PState.READY }))
          j).state = PState.NEW := by
      intro j hj
      obtain ⟨hjl, hjn⟩ := h j (List.mem_cons_of_mem _ hj)
      have hne : j ≠ i := fun hc => hni (hc ▸ hj)
      rw [length_updAt, getP_updAt_ne _ _ _ _ hne]
      exact ⟨hjl, hjn⟩
    have h1 := ih _ hnodr hrest
    simp only [setReady, updAll_cons] at h1 ⊢
    simp only [List.length_cons]
    omega

theorem sumRemNat_updAt_pres (ps : List Proc) (i : Nat) (f : Proc → Proc)
    (h : (f (getP ps i)).remainingTime = (getP ps i).remainingTime) :
    sumRemNat (updAt ps i f) = sumRemNat ps := by
  by_cases hi : i < ps.length
  · have h0 := sumRemNat_set ps i (f (getP ps i)) hi
    rw [h] at h0
    simpa [updAt] using h0
  · simp [updAt, set_oob ps i _ (by omega)]

theorem newCount_updAt_pres (ps : List Proc) (i : Nat) (f : Proc → Proc)
    (h : decide ((f (getP ps i)).state = PState.NEW) =
         decide ((getP ps i).state = PState.NEW)) :
    newCount (updAt ps i f) = newCount ps :=
  countP_updAt_pres _ ps i f h

/-- Loop invariant of the SRTF scheduler.  `running_process` is `None` at the
top of every iteration (both dispatch outcomes clear it), which keeps the
context-switch counter at zero forever. -/
structure SRTFInv (B : List Int) (s : SRTFState) : Prop where
  lenB : s.procs.map Proc.burst = B
  runNone : s.running = none
  csZero : s.cs = 0
  bounds : ∀ i ∈ s.rq, i < s.procs.length
  nodup : s.rq.Nodup
  rqReady : ∀ i ∈ s.rq, (getP s.procs i).state = PState.READY ∧
    0 < (getP s.procs i).remainingTime
  newRem : ∀ i, i < s.procs.length → (getP s.procs i).state = PState.NEW →
    (getP s.procs i).remainingTime = (getP s.procs i).burst
  doneTerm : ∀ i, i < s.procs.length → i ∉ s.rq →
    (getP s.procs i).state = PState.NEW ∨
    ((getP s.procs i).state = PState.TERMINATED ∧
     (getP s.procs i).remainingTime = 0 ∧
     (getP s.procs i).turnaroundTime =
       (getP s.procs i).completionTime - (getP s.procs i).arrival ∧
     (getP s.procs i).waitingTime =
       (getP s.procs i).turnaroundTime - (getP s.procs i).burst)
  completedEq : s.completed + (s.rq.length + newCount s.procs) =
    s.procs.length
  stops : ∀ e ∈ s.gantt, e.stop ≤ s.t
  pos : ∀ e ∈ s.gantt, e.start < e.stop
  pw : s.gantt.Pairwise (fun a b => a.stop ≤ b.start)
  span : ganttSpan s.gantt = spent s.procs

theorem newCount_eq_of_getP (ps1 ps2 : List Proc)
    (hlen : ps1.length = ps2.length)
    (h : ∀ k, k < ps1.length →
      decide ((getP ps1 k).state = PState.NEW) =
      decide ((getP ps2 k).state = PState.NEW)) :
    newCount ps1 = newCount ps2 := by
  induction ps1 generalizing ps2 with
  | nil =>
    cases ps2 with
    | nil => rfl
    | cons b bs => simp at hlen
  | cons a as ih =>
    cases ps2 with
    | nil => simp at hlen
    | cons b bs =>
      have h0 := h 0 (by simp)
      simp only [getP_cons_zero] at h0
      have hlen2 : as.length = bs.length := by simpa using hlen
      have ih2 := ih bs hlen2 (fun k hk => by
        have h2 := h (k + 1) (by simpa using Nat.succ_lt_succ hk)
        simpa only [getP_cons_succ] using h2)
      simp only [newCount, List.countP_cons] at ih2 ⊢
      rw [ih2, h0]

theorem sumRemNat_updAt_lt (ps : List Proc) (i : Nat) (f : Proc → Proc)
    (h : i < ps.length)
    (hlt : (f (getP ps i)).remainingTime < (getP ps i).remainingTime)
    (hnn : 0 ≤ (f (getP ps i)).remainingTime) :
    sumRemNat (updAt ps i f) < sumRemNat ps := by
  have h0 := sumRemNat_set ps i (f (getP ps i)) h
  have h1 : updAt ps i f = ps.set i (f (getP ps i)) := rfl
  rw [← h1] at h0
  omega

theorem srtfMeasure_le (s : SRTFState) :
    srtfMeasure s ≤ 2 * sumRemNat s.procs + 1 := by
  simp only [srtfMeasure]
  split <;> omega

theorem srtfMeasure_ge (s : SRTFState) :
    2 * sumRemNat s.procs ≤ srtfMeasure s := by
  simp only [srtfMeasure]
  split <;> omega

/-- One SRTF iteration under the loop guard: it returns `some`, preserves the
invariant, and strictly decreases the termination measure. -/
theorem srtfStep_preserve (B : List Int) (hB : ∀ b ∈ B, 0 < b)
    (s : SRTFState) (hInv : SRTFInv B s)
    (hcond : s.completed < s.procs.length) :
    ∃ s2, srtfStep s = some s2 ∧ SRTFInv B s2 ∧
      srtfMeasure s2 < srtfMeasure s := by
  obtain ⟨hlenB, hrun, hcs, hbounds, hnodup, hrqReady, hnewRem, hdone,
    hcompEq, hstops, hpos, hpw, hspan⟩ := hInv
  cases hq : s.rq ++ newArrivedIdx s.procs s.t with
  | nil =>
    obtain ⟨hrq, harr⟩ := List.append_eq_nil.mp hq
    cases hmn : minNewArrival
        (setReady s.procs (newArrivedIdx s.procs s.t)) with
    | none =>
      exfalso
      rw [harr, setReady_nil] at hmn
      have h0 := minNewArrival_none hmn
      rw [hrq] at hcompEq
      simp only [List.length_nil] at hcompEq
      omega
    | some a =>
      have hmn2 : minNewArrival s.procs = some a := by
        rw [harr, setReady_nil] at hmn; exact hmn
      obtain ⟨p, hpmem, hpnew, hpa⟩ := minNewArrival_some hmn2
      obtain ⟨j, hjlen, hjp⟩ := exists_getP_of_mem hpmem
      have hjnew : (getP s.procs j).state = PState.NEW := by
        rw [hjp]; exact hpnew
      have hja : (getP s.procs j).arrival = a := by rw [hjp]; exact hpa
      have hjnot : j ∉ newArrivedIdx s.procs s.t := by rw [harr]; simp
      have hta : s.t < a := by
        by_contra hle
        push_neg at hle
        exact hjnot ((mem_newArrivedIdx _ _ _).mpr
          ⟨hjlen, by rw [hja]; exact hle, hjnew⟩)
      have hjmem2 : j ∈ newArrivedIdx s.procs a :=
        (mem_newArrivedIdx _ _ _).mpr ⟨hjlen, by rw [hja], hjnew⟩
      refine ⟨srtfJumpState s (newArrivedIdx s.procs s.t) a, ?_, ?_, ?_⟩
      · simp only [srtfStep, hq, hmn]
      · refine ⟨?_, ?_, ?_, ?_, ?_, ?_, ?_, ?_, ?_, ?_, ?_, ?_, ?_⟩ <;>
          simp only [srtfJumpState, harr, setReady_nil]
        · exact hlenB
        · exact hrun
        · exact hcs
        · exact hbounds
        · exact hnodup
        · exact hrqReady
        · exact hnewRem
        · exact hdone
        · exact hcompEq
        · intro e he
          have h1 := hstops e he
          omega
        · exact hpos
        · exact hpw
        · exact hspan
      · have hhw2 : srtfHasWork
            (srtfJumpState s (newArrivedIdx s.procs s.t) a) = true := by
          have hne2 : (newArrivedIdx s.procs a).isEmpty = false :=
            isEmpty_false_of_ne_nil (List.ne_nil_of_mem hjmem2)
          simp [srtfHasWork, srtfJumpState, harr, setReady_nil, hne2]
        have hhw1 : srtfHasWork s = false := by
          simp [srtfHasWork, hrq, harr]
        have h1 : srtfMeasure (srtfJumpState s (newArrivedIdx s.procs s.t) a)
            = 2 * sumRemNat s.procs := by
          rw [srtfMeasure, hhw2]
          simp [srtfJumpState, harr, setReady_nil]
        have h2 : srtfMeasure s = 2 * sumRemNat s.procs + 1 := by
          simp [srtfMeasure, hhw1]
        omega
  | cons j0 l0 =>
    have harrmem : ∀ x ∈ newArrivedIdx s.procs s.t, x < s.procs.length ∧
        (getP s.procs x).arrival ≤ s.t ∧
        (getP s.procs x).state = PState.NEW :=
      fun x hx => (mem_newArrivedIdx _ _ _).mp hx
    have harrnodup := newArrivedIdx_nodup s.procs s.t
    have hrqNotArr : ∀ x ∈ s.rq, x ∉ newArrivedIdx s.procs s.t := by
      intro x hx hc
      have h1 := (hrqReady x hx).1
      have h2 := (harrmem x hc).2.2
      rw [h1] at h2
      exact PState.noConfusion h2
    have hrq1nodup : (s.rq ++ newArrivedIdx s.procs s.t).Nodup :=
      List.nodup_append.mpr ⟨hnodup, harrnodup, hrqNotArr⟩
    have hbnd1 : ∀ x ∈ s.rq ++ newArrivedIdx s.procs s.t,
        x < s.procs.length := by
      intro x hx
      rcases List.mem_append.mp hx with h | h
      · exact hbounds x h
      · exact (harrmem x h).1
    have hget1not : ∀ x, x ∉ newArrivedIdx s.procs s.t →
        getP (setReady s.procs (newArrivedIdx s.procs s.t)) x =
          getP s.procs x :=
      fun x hx => getP_updAll_not_mem _ _ _ _ hx
    have hget1mem : ∀ x ∈ newArrivedIdx s.procs s.t,
        getP (setReady s.procs (newArrivedIdx s.procs s.t)) x =
          { getP s.procs x with state := PState.READY } :=
      fun x hx => getP_updAll_mem _ _ _ _ harrnodup hx (harrmem x hx).1
    have hlen1 : (setReady s.procs (newArrivedIdx s.procs s.t)).length =
        s.procs.length := length_setReady _ _
    have hready1 : ∀ x ∈ s.rq ++ newArrivedIdx s.procs s.t,
        (getP (setReady s.procs (newArrivedIdx s.procs s.t)) x).state =
          PState.READY ∧
        0 < (getP (setReady s.procs (newArrivedIdx s.procs s.t))
          x).remainingTime := by
      intro x hx
      rcases List.mem_append.mp hx with h | h
      · rw [hget1not x (hrqNotArr x h)]
        exact hrqReady x h
      · rw [hget1mem x h]
        refine ⟨rfl, ?_⟩
        have hb2 := hnewRem x (harrmem x h).1 (harrmem x h).2.2
        have hbp : 0 < (getP s.procs x).burst :=
          burst_pos_of_inv hB hlenB x (harrmem x h).1
        show 0 < (getP s.procs x).remainingTime
        omega
    cases hs : srtfSorted s (newArrivedIdx s.procs s.t) with
    | nil =>
      exfalso
      have hperm : (srtfSorted s (newArrivedIdx s.procs s.t)).Perm
          (s.rq ++ newArrivedIdx s.procs s.t) := sortStable_perm _ _
      rw [hs, hq] at hperm
      have h0 := hperm.length_eq
      simp at h0
    | cons i tl =>
      have hperm0 : (srtfSorted s (newArrivedIdx s.procs s.t)).Perm
          (s.rq ++ newArrivedIdx s.procs s.t) := sortStable_perm _ _
      rw [hs] at hperm0
      have hsortNodup : (i :: tl).Nodup := (hperm0.nodup_iff).mpr hrq1nodup
      have hitl : i ∉ tl := (List.nodup_cons.mp hsortNodup).1
      have htlNodup : tl.Nodup := (List.nodup_cons.mp hsortNodup).2
      have hmem1 : ∀ x ∈ i :: tl, x ∈ s.rq ++ newArrivedIdx s.procs s.t :=
        fun x hx => hperm0.mem_iff.mp hx
      have hmem1' : ∀ x ∈ s.rq ++ newArrivedIdx s.procs s.t, x ∈ i :: tl :=
        fun x hx => hperm0.mem_iff.mpr hx
      have himem := hmem1 i (List.mem_cons_self _ _)
      have hiBound : i < s.procs.length := hbnd1 i himem
      have hib1 : i < (setReady s.procs
          (newArrivedIdx s.procs s.t)).length := by
        rw [hlen1]; exact hiBound
      have hstatei := (hready1 i himem).1
      have hremi := (hready1 i himem).2
      have hlentl : tl.length + 1 =
          s.rq.length + (newArrivedIdx s.procs s.t).length := by
        have h0 := hperm0.length_eq
        simp only [List.length_cons, List.length_append] at h0
        omega
      have hcondi : s.running ≠ some i := by
        rw [hrun]; exact fun hc => Option.noConfusion hc
      have hps3 : srtfPs3 s (newArrivedIdx s.procs s.t) i =
          updAt (updAt (setReady s.procs (newArrivedIdx s.procs s.t)) i
              (fun p0 => { p0 with
                responseTime := if p0.responseTime = -1 then s.t - p0.arrival
                                else p0.responseTime })) i
            (fun p0 => { p0 with state := PState.RUNNING }) := by
        simp only [srtfPs3, if_pos hcondi]
      have hib2 : i < (updAt (setReady s.procs (newArrivedIdx s.procs s.t)) i
          (fun p0 => { p0 with
            responseTime := if p0.responseTime = -1 then s.t - p0.arrival
                            else p0.responseTime })).length := by
        rw [length_updAt]; exact hib1
      have hlen3 : (srtfPs3 s (newArrivedIdx s.procs s.t) i).length =
          s.procs.length := by
        rw [hps3, length_updAt, length_updAt, hlen1]
      have hib3 : i < (srtfPs3 s (newArrivedIdx s.procs s.t) i).length := by
        rw [hlen3]; exact hiBound
      have hg3ne : ∀ x, x ≠ i →
          getP (srtfPs3 s (newArrivedIdx s.procs s.t) i) x =
            getP (setReady s.procs (newArrivedIdx s.procs s.t)) x := by
        intro x hx
        rw [hps3, getP_updAt_ne _ _ _ _ hx, getP_updAt_ne _ _ _ _ hx]
      have hg3state : (getP (srtfPs3 s (newArrivedIdx s.procs s.t) i)
          i).state = PState.RUNNING := by
        rw [hps3, getP_updAt_self _ _ _ hib2]
      have hg3rem : (getP (srtfPs3 s (newArrivedIdx s.procs s.t) i)
          i).remainingTime =
          (getP (setReady s.procs (newArrivedIdx s.procs s.t))
            i).remainingTime := by
        rw [hps3, getP_updAt_self _ _ _ hib2, getP_updAt_self _ _ _ hib1]
      have hg3burst : (getP (srtfPs3 s (newArrivedIdx s.procs s.t) i)
          i).burst =
          (getP (setReady s.procs (newArrivedIdx s.procs s.t)) i).burst := by
        rw [hps3, getP_updAt_self _ _ _ hib2, getP_updAt_self _ _ _ hib1]
      have hmap3 : (srtfPs3 s (newArrivedIdx s.procs s.t) i).map Proc.burst
          = B := by
        rw [hps3, map_updAt_pres Proc.burst _ i
            (fun p0 => { p0 with state := PState.RUNNING }) (fun p => rfl),
          map_updAt_pres Proc.burst _ i
            (fun p0 => { p0 with
              responseTime := if p0.responseTime = -1 then s.t - p0.arrival
                              else p0.responseTime }) (fun p => rfl),
          map_burst_setReady]
        exact hlenB
      have hspent3 : spent (srtfPs3 s (newArrivedIdx s.procs s.t) i) =
          spent s.procs := by
        rw [hps3, spent_updAt_pres _ _ _ rfl, spent_updAt_pres _ _ _ rfl,
          spent_setReady]
      have hW3 : sumRemNat (srtfPs3 s (newArrivedIdx s.procs s.t) i) =
          sumRemNat s.procs := by
        rw [hps3, sumRemNat_updAt_pres _ _ _ rfl,
          sumRemNat_updAt_pres _ _ _ rfl, sumRemNat_setReady]
      have hnew1 : newCount (setReady s.procs (newArrivedIdx s.procs s.t)) +
          (newArrivedIdx s.procs s.t).length = newCount s.procs :=
        newCount_setReady _ _ harrnodup
          (fun x hx => ⟨(harrmem x hx).1, (harrmem x hx).2.2⟩)
      have hnew3 : newCount (srtfPs3 s (newArrivedIdx s.procs s.t) i) =
          newCount (setReady s.procs (newArrivedIdx s.procs s.t)) := by
        refine newCount_eq_of_getP _ _ (by rw [hlen3, hlen1]) ?_
        intro k hk
        by_cases hki : k = i
        · subst hki
          rw [hg3state, hstatei]
          rfl
        · rw [hg3ne k hki]
      have hremi3 : 0 < (getP (srtfPs3 s (newArrivedIdx s.procs s.t) i)
          i).remainingTime := by
        rw [hg3rem]; exact hremi
      have hrq2i : srtfRq2 s (i :: tl) i = tl := by
        simp [srtfRq2, hcondi]
      have hcs1 : srtfCs1 s i = 0 := by
        simp [srtfCs1, hrun, hcs]
      have hcompEq3 : srtfComp s (newArrivedIdx s.procs s.t) i =
          s.t + (getP (setReady s.procs (newArrivedIdx s.procs s.t))
            i).remainingTime := by
        rw [srtfComp, hg3rem]
      have htlready : ∀ x ∈ tl,
          (getP (srtfPs3 s (newArrivedIdx s.procs s.t) i) x).state =
            PState.READY ∧
          0 < (getP (srtfPs3 s (newArrivedIdx s.procs s.t) i)
            x).remainingTime := by
        intro x hx
        have hxi : x ≠ i := fun hc => hitl (hc ▸ hx)
        rw [hg3ne x hxi]
        exact hready1 x (hmem1 x (List.mem_cons_of_mem _ hx))
      have hbndtl : ∀ x ∈ tl, x < s.procs.length :=
        fun x hx => hbnd1 x (hmem1 x (List.mem_cons_of_mem _ hx))
      have hdoneSide : ∀ x, x < s.procs.length → x ≠ i → x ∉ tl →
          getP (srtfPs3 s (newArrivedIdx s.procs s.t) i) x =
            getP s.procs x ∧ x ∉ s.rq ∧
            x ∉ newArrivedIdx s.procs s.t := by
        intro x hxlen hxi hxtl
        have hxrq1 : x ∉ s.rq ++ newArrivedIdx s.procs s.t := by
          intro hc
          rcases List.mem_cons.mp (hmem1' x hc) with h | h
          · exact hxi h
          · exact hxtl h
        have hxrq : x ∉ s.rq := fun hc => hxrq1 (List.mem_append_left _ hc)
        have hxarr : x ∉ newArrivedIdx s.procs s.t :=
          fun hc => hxrq1 (List.mem_append_right _ hc)
        rw [hg3ne x hxi, hget1not x hxarr]
        exact ⟨rfl, hxrq, hxarr⟩
      have hgfin : getP (updAt (srtfPs3 s (newArrivedIdx s.procs s.t) i) i
          (srtfTermF s (newArrivedIdx s.procs s.t) i)) i =
          srtfTermF s (newArrivedIdx s.procs s.t) i
            (getP (srtfPs3 s (newArrivedIdx s.procs s.t) i) i) :=
        getP_updAt_self _ _ _ hib3
      have hcompInv : SRTFInv B
          (srtfCompleteState s (newArrivedIdx s.procs s.t) (i :: tl)) := by
        refine ⟨?_, rfl, ?_, ?_, ?_, ?_, ?_, ?_, ?_, ?_, ?_, ?_, ?_⟩
        · simp only [srtfCompleteState, List.headD_cons]
          rw [map_updAt_pres Proc.burst _ i
            (srtfTermF s (newArrivedIdx s.procs s.t) i) (fun p => rfl)]
          exact hmap3
        · simp only [srtfCompleteState, List.headD_cons]
          exact hcs1
        · intro x hx
          simp only [srtfCompleteState, List.headD_cons, hrq2i] at hx
          simp only [srtfCompleteState, List.headD_cons, length_updAt, hlen3]
          exact hbndtl x hx
        · simp only [srtfCompleteState, List.headD_cons, hrq2i]
          exact htlNodup
        · intro x hx
          simp only [srtfCompleteState, List.headD_cons, hrq2i] at hx ⊢
          have hxi : x ≠ i := fun hc => hitl (hc ▸ hx)
          rw [getP_updAt_ne _ _ _ _ hxi]
          exact htlready x hx
        · intro x hxlen hxnew
          simp only [srtfCompleteState, List.headD_cons, length_updAt, hlen3]
            at hxlen hxnew ⊢
          by_cases hxi : x = i
          · subst hxi
            rw [hgfin] at hxnew
            exact absurd hxnew (by simp [srtfTermF, calcProcessMetrics])
          · rw [getP_updAt_ne _ _ _ _ hxi] at hxnew ⊢
            by_cases hxarr : x ∈ newArrivedIdx s.procs s.t
            · rw [hg3ne x hxi, hget1mem x hxarr] at hxnew
              exact absurd hxnew (by simp)
            · rw [hg3ne x hxi, hget1not x hxarr] at hxnew ⊢
              exact hnewRem x hxlen hxnew
        · intro x hxlen hxnot
          simp only [srtfCompleteState, List.headD_cons, length_updAt, hlen3,
            hrq2i] at hxlen hxnot ⊢
          by_cases hxi : x = i
          · subst hxi
            rw [hgfin]
            exact Or.inr ⟨rfl, rfl, rfl, rfl⟩
          · obtain ⟨hgx, hxrq, hxarr⟩ := hdoneSide x hxlen hxi hxnot
            rw [getP_updAt_ne _ _ _ _ hxi, hgx]
            exact hdone x hxlen hxrq
        · have hnewF : newCount (updAt (srtfPs3 s
              (newArrivedIdx s.procs s.t) i) i
              (srtfTermF s (newArrivedIdx s.procs s.t) i)) =
              newCount (srtfPs3 s (newArrivedIdx s.procs s.t) i) := by
            refine newCount_updAt_pres _ _ _ ?_
            rw [hg3state]
            simp [srtfTermF, calcProcessMetrics]
          simp only [srtfCompleteState, List.headD_cons, hrq2i, length_updAt,
            hlen3, hnewF, hnew3]
          omega
        · intro e he
          simp only [srtfCompleteState, List.headD_cons] at he ⊢
          have h2 : s.t < srtfComp s (newArrivedIdx s.procs s.t) i := by
            rw [hcompEq3]; omega
          rcases List.mem_append.mp he with h | h
          · have h1 := hstops e h
            omega
          · simp only [List.mem_singleton] at h
            subst h
            simp
        · intro e he
          simp only [srtfCompleteState, List.headD_cons] at he
          rcases List.mem_append.mp he with h | h
          · exact hpos e h
          · simp only [List.mem_singleton] at h
            subst h
            show s.t < srtfComp s (newArrivedIdx s.procs s.t) i
            rw [hcompEq3]; omega
        · simp only [srtfCompleteState, List.headD_cons]
          refine List.pairwise_append.mpr
            ⟨hpw, List.pairwise_singleton _ _, ?_⟩
          intro e he e2 he2
          simp only [List.mem_singleton] at he2
          subst he2
          exact hstops e he
        · simp only [srtfCompleteState, List.headD_cons]
          rw [ganttSpan_append]
          rw [show updAt (srtfPs3 s (newArrivedIdx s.procs s.t) i) i
              (srtfTermF s (newArrivedIdx s.procs s.t) i) =
              (srtfPs3 s (newArrivedIdx s.procs s.t) i).set i
                (srtfTermF s (newArrivedIdx s.procs s.t) i
                  (getP (srtfPs3 s (newArrivedIdx s.procs s.t) i) i))
            from rfl]
          rw [spent_set _ _ _ hib3, hspent3, hspan]
          have h1 : spentOf (srtfTermF s (newArrivedIdx s.procs s.t) i
              (getP (srtfPs3 s (newArrivedIdx s.procs s.t) i) i)) =
              (getP (srtfPs3 s (newArrivedIdx s.procs s.t) i) i).burst := by
            simp [srtfTermF, spentOf, calcProcessMetrics]
          rw [h1]
          simp only [spentOf, hcompEq3, hg3rem, hg3burst]
          ring
      have hcompMeas : srtfMeasure
          (srtfCompleteState s (newArrivedIdx s.procs s.t) (i :: tl)) <
          srtfMeasure s := by
        refine lt_of_le_of_lt (srtfMeasure_le _) ?_
        have hge := srtfMeasure_ge s
        have hdec : sumRemNat (srtfCompleteState s
            (newArrivedIdx s.procs s.t) (i :: tl)).procs <
            sumRemNat s.procs := by
          rw [← hW3]
          simp only [srtfCompleteState, List.headD_cons]
          refine sumRemNat_updAt_lt _ i
            (srtfTermF s (newArrivedIdx s.procs s.t) i) hib3 ?_ ?_
          · simpa [srtfTermF, calcProcessMetrics] using hremi3
          · simp [srtfTermF, calcProcessMetrics]
        omega
      cases hna : minFutureArrival
          (srtfPs3 s (newArrivedIdx s.procs s.t) i) s.t with
      | some a =>
        have hta := minFutureArrival_lt hna
        by_cases hlt : a < srtfComp s (newArrivedIdx s.procs s.t) i
        · have hgfinP : getP (updAt (srtfPs3 s (newArrivedIdx s.procs s.t) i)
              i (srtfPremF s a)) i =
              srtfPremF s a
                (getP (srtfPs3 s (newArrivedIdx s.procs s.t) i) i) :=
            getP_updAt_self _ _ _ hib3
          have hremP : 0 < (srtfPremF s a
              (getP (srtfPs3 s (newArrivedIdx s.procs s.t) i)
                i)).remainingTime := by
            simp only [srtfPremF]
            rw [hcompEq3] at hlt
            rw [hg3rem]
            omega
          refine ⟨srtfPreemptState s (newArrivedIdx s.procs s.t) (i :: tl) a,
            ?_, ?_, ?_⟩
          · simp only [srtfStep, hq, hs, List.headD_cons, hna]
            rw [if_pos hlt]
          · refine ⟨?_, rfl, ?_, ?_, ?_, ?_, ?_, ?_, ?_, ?_, ?_, ?_, ?_⟩
            · simp only [srtfPreemptState, List.headD_cons]
              rw [map_updAt_pres Proc.burst _ i (srtfPremF s a)
                (fun p => rfl)]
              exact hmap3
            · simp only [srtfPreemptState, List.headD_cons]
              exact hcs1
            · intro x hx
              simp only [srtfPreemptState, List.headD_cons, hrq2i] at hx
              simp only [srtfPreemptState, List.headD_cons, length_updAt,
                hlen3]
              rcases List.mem_append.mp hx with h | h
              · exact hbndtl x h
              · simp only [List.mem_singleton] at h
                subst h
                exact hiBound
            · simp only [srtfPreemptState, List.headD_cons, hrq2i]
              refine List.nodup_append.mpr
                ⟨htlNodup, List.nodup_singleton _, ?_⟩
              intro x hx
              simp only [List.mem_singleton]
              exact fun hc => hitl (hc ▸ hx)
            · intro x hx
              simp only [srtfPreemptState, List.headD_cons, hrq2i] at hx ⊢
              rcases List.mem_append.mp hx with h | h
              · have hxi : x ≠ i := fun hc => hitl (hc ▸ h)
                rw [getP_updAt_ne _ _ _ _ hxi]
                exact htlready x h
              · simp only [List.mem_singleton] at h
                subst h
                rw [hgfinP]
                exact ⟨rfl, hremP⟩
            · intro x hxlen hxnew
              simp only [srtfPreemptState, List.headD_cons, length_updAt,
                hlen3] at hxlen hxnew ⊢
              by_cases hxi : x = i
              · subst hxi
                rw [hgfinP] at hxnew
                exact absurd hxnew (by simp [srtfPremF])
              · rw [getP_updAt_ne _ _ _ _ hxi] at hxnew ⊢
                by_cases hxarr : x ∈ newArrivedIdx s.procs s.t
                · rw [hg3ne x hxi, hget1mem x hxarr] at hxnew
                  exact absurd hxnew (by simp)
                · rw [hg3ne x hxi, hget1not x hxarr] at hxnew ⊢
                  exact hnewRem x hxlen hxnew
            · intro x hxlen hxnot
              simp only [srtfPreemptState, List.headD_cons, length_updAt,
                hlen3, hrq2i] at hxlen hxnot ⊢
              have hxi : x ≠ i := by
                intro hc
                exact hxnot (hc ▸ List.mem_append_right _
                  (List.mem_singleton.mpr rfl))
              have hxtl : x ∉ tl :=
                fun hc => hxnot (List.mem_append_left _ hc)
              obtain ⟨hgx, hxrq, hxarr⟩ := hdoneSide x hxlen hxi hxtl
              rw [getP_updAt_ne _ _ _ _ hxi, hgx]
              exact hdone x hxlen hxrq
            · have hnewF : newCount (updAt (srtfPs3 s
                  (newArrivedIdx s.procs s.t) i) i (srtfPremF s a)) =
                  newCount (srtfPs3 s (newArrivedIdx s.procs s.t) i) := by
                refine newCount_updAt_pres _ _ _ ?_
                rw [hg3state]
                simp [srtfPremF]
              simp only [srtfPreemptState, List.headD_cons, hrq2i,
                length_updAt, hlen3, hnewF, hnew3, List.length_append,
                List.length_singleton]
              omega
            · intro e he
              simp only [srtfPreemptState, List.headD_cons] at he ⊢
              rcases List.mem_append.mp he with h | h
              · have h1 := hstops e h
                omega
              · simp only [List.mem_singleton] at h
                subst h
                simp
            · intro e he
              simp only [srtfPreemptState, List.headD_cons] at he
              rcases List.mem_append.mp he with h | h
              · exact hpos e h
              · simp only [List.mem_singleton] at h
                subst h
                exact hta
            · simp only [srtfPreemptState, List.headD_cons]
              refine List.pairwise_append.mpr
                ⟨hpw, List.pairwise_singleton _ _, ?_⟩
              intro e he e2 he2
              simp only [List.mem_singleton] at he2
              subst he2
              exact hstops e he
            · simp only [srtfPreemptState, List.headD_cons]
              rw [ganttSpan_append]
              rw [show updAt (srtfPs3 s (newArrivedIdx s.procs s.t) i) i
                  (srtfPremF s a) =
                  (srtfPs3 s (newArrivedIdx s.procs s.t) i).set i
                    (srtfPremF s a
                      (getP (srtfPs3 s (newArrivedIdx s.procs s.t) i) i))
                from rfl]
              rw [spent_set _ _ _ hib3, hspent3, hspan]
              simp only [spentOf, srtfPremF]
              ring
          · refine lt_of_le_of_lt (srtfMeasure_le _) ?_
            have hge := srtfMeasure_ge s
            have hdec : sumRemNat (srtfPreemptState s
                (newArrivedIdx s.procs s.t) (i :: tl) a).procs <
                sumRemNat s.procs := by
              rw [← hW3]
              simp only [srtfPreemptState, List.headD_cons]
              refine sumRemNat_updAt_lt _ i (srtfPremF s a) hib3 ?_ ?_
              · simp only [srtfPremF]
                omega
              · simp only [srtfPremF]
                rw [hcompEq3] at hlt
                rw [hg3rem]
                omega
            omega
        · refine ⟨srtfCompleteState s (newArrivedIdx s.procs s.t) (i :: tl),
            ?_, ?_, ?_⟩
          · simp only [srtfStep, hq, hs, List.headD_cons, hna]
            rw [if_neg hlt]
          · exact hcompInv
          · exact hcompMeas
      | none =>
        refine ⟨srtfCompleteState s (newArrivedIdx s.procs s.t) (i :: tl),
          ?_, ?_, ?_⟩
        · simp only [srtfStep, hq, hs, List.headD_cons, hna]
        · exact hcompInv
        · exact hcompMeas

theorem srtfRun_complete (B : List Int) (hB : ∀ b ∈ B, 0 < b) :
    ∀ (f : Nat) (s : SRTFState), SRTFInv B s → srtfMeasure s < f →
      SRTFInv B (srtfRun f s) ∧
        (srtfRun f s).completed = (srtfRun f s).procs.length := by
  intro f
  induction f with
  | zero => intro s hInv hm; omega
  | succ f2 ih =>
    intro s hInv hm
    by_cases hc : s.completed < s.procs.length
    · obtain ⟨s2, hstep, hinv2, hm2⟩ := srtfStep_preserve B hB s hInv hc
      simp only [srtfRun, if_pos hc, hstep]
      exact ih s2 hinv2 (by omega)
    · simp only [srtfRun, if_neg hc]
      have hcomp := hInv.completedEq
      exact ⟨hInv, by omega⟩

theorem newCount_reset (ps : List Proc) :
    newCount (ps.map resetP) = ps.length := by
  have h0 : ∀ p0 ∈ ps.map resetP,
      (fun p => decide (p.state = PState.NEW)) p0 = true := by
    intro p0 hp0
    rcases List.mem_map.mp hp0 with ⟨q, hq, rfl⟩
    simp [resetP]
  rw [newCount, List.countP_eq_length.mpr h0, List.length_map]

theorem srtfInit_inv (ps : List Proc) :
    SRTFInv (ps.map Proc.burst) (srtfInit ps) := by
  refine ⟨?_, rfl, rfl, ?_, ?_, ?_, ?_, ?_, ?_, ?_, ?_, ?_, ?_⟩
  · simp only [srtfInit, List.map_map]
    exact List.map_congr_left (fun p _ => rfl)
  · intro x hx
    simp only [srtfInit] at hx
    simp at hx
  · simp only [srtfInit]
    exact List.nodup_nil
  · intro x hx
    simp only [srtfInit] at hx
    simp at hx
  · intro x hxlen hxnew
    simp only [srtfInit, List.length_map] at hxlen ⊢
    rw [getP_map resetP ps x hxlen]
    rfl
  · intro x hxlen hxnot
    simp only [srtfInit, List.length_map] at hxlen
    left
    simp only [srtfInit]
    rw [getP_map resetP ps x hxlen]
    rfl
  · simp only [srtfInit, List.length_nil, newCount_reset, List.length_map]
    omega
  · intro e he
    simp only [srtfInit] at he
    simp at he
  · intro e he
    simp only [srtfInit] at he
    simp at he
  · simp only [srtfInit]
    exact List.Pairwise.nil
  · simp only [srtfInit, ganttSpan, List.map_nil, List.sum_nil]
    exact (spent_reset ps).symm

theorem srtfInit_fuel (ps : List Proc) :
    srtfMeasure (srtfInit ps) < srtfFuel ps := by
  have h1 := srtfMeasure_le (srtfInit ps)
  have h2 : sumRemNat (srtfInit ps).procs = sumBurstNat ps :=
    sumRemNat_reset ps
  simp only [srtfFuel]
  omega

theorem srtfFinal (ps : List Proc) (hb : ∀ p ∈ ps, 0 < p.burst) :
    SRTFInv (ps.map Proc.burst) (srtfRun (srtfFuel ps) (srtfInit ps)) ∧
    (srtfRun (srtfFuel ps) (srtfInit ps)).completed =
      (srtfRun (srtfFuel ps) (srtfInit ps)).procs.length :=
  srtfRun_complete _ (burst_hyp_map hb) (srtfFuel ps) (srtfInit ps)
    (srtfInit_inv ps) (srtfInit_fuel ps)

/-- Properties of any completed SRTF state satisfying the invariant: all
processes terminated with the metric equations, a well-formed Gantt chart
spanning the burst sum, and zero recorded context switches. -/
theorem srtfDone_props (B : List Int) (sf : SRTFState) (hInv : SRTFInv B sf)
    (hcomp : sf.completed = sf.procs.length) :
    (∀ p ∈ sf.procs, p.state = PState.TERMINATED ∧ p.remainingTime = 0 ∧
      p.turnaroundTime = p.completionTime - p.arrival ∧
      p.waitingTime = p.turnaroundTime - p.burst) ∧
    ganttOK sf.gantt (burstSum sf.procs) ∧ sf.cs = 0 := by
  obtain ⟨hlenB, hrun, hcs, hbounds, hnodup, hrqReady, hnewRem, hdone,
    hcompEq, hstops, hpos, hpw, hspan⟩ := hInv
  have hrq : sf.rq = [] := by
    have h0 : sf.rq.length = 0 := by omega
    exact List.length_eq_zero.mp h0
  have hnc : newCount sf.procs = 0 := by omega
  simp only [newCount] at hnc
  have hnonew : ∀ p ∈ sf.procs, ¬ (p.state = PState.NEW) := by
    intro p hp
    have h0 := List.countP_eq_zero.mp hnc p hp
    simpa using h0
  have hall : ∀ p ∈ sf.procs, p.state = PState.TERMINATED ∧
      p.remainingTime = 0 ∧ p.turnaroundTime = p.completionTime - p.arrival ∧
      p.waitingTime = p.turnaroundTime - p.burst := by
    refine forall_mem_of_getP sf.procs ?_
    intro i hi
    rcases hdone i hi (by rw [hrq]; simp) with h | h
    · exact absurd h (hnonew _ (getP_mem sf.procs i hi))
    · exact h
  refine ⟨hall, ⟨?_, hpos, hpw, pairwise_start_lt _ hpw hpos⟩, hcs⟩
  rw [hspan]
  exact spent_eq_burstSum sf.procs (fun p hp => (hall p hp).2.1)

/-! ### The Preemptive Priority loop invariant -/

theorem getP_field_updAt_pres {α : Type} (g : Proc → α) (ps : List Proc)
    (i : Nat) (f : Proc → Proc) (h : ∀ p, g (f p) = g p) (x : Nat) :
    g (getP (updAt ps i f) x) = g (getP ps x) := by
  by_cases hxi : x = i
  · subst hxi
    by_cases hb : x < ps.length
    · rw [getP_updAt_self _ _ _ hb, h]
    · rw [updAt, set_oob ps x _ (by omega)]
  · rw [getP_updAt_ne _ _ _ _ hxi]

theorem getP_field_updAll_pres {α : Type} (g : Proc → α) (f : Proc → Proc)
    (ps : List Proc) (l : List Nat) (h : ∀ p, g (f p) = g p) (x : Nat) :
    g (getP (updAll f ps l) x) = g (getP ps x) := by
  induction l generalizing ps with
  | nil => rfl
  | cons i l2 ih =>
    rw [updAll_cons, ih _, getP_field_updAt_pres g ps i f h x]

/-- Loop invariant of the Preemptive Priority scheduler; like SRTF,
`running_process` is `None` at the top of every reachable iteration, starving
the context-switch counter. -/
structure PPInv (B : List Int) (s : PPState) : Prop where
  lenB : s.procs.map Proc.burst = B
  runNone : s.running = none
  csZero : s.cs = 0
  bounds : ∀ i ∈ s.rq, i < s.procs.length
  nodup : s.rq.Nodup
  rqReady : ∀ i ∈ s.rq, (getP s.procs i).state = PState.READY ∧
    0 < (getP s.procs i).remainingTime
  newRem : ∀ i, i < s.procs.length → (getP s.procs i).state = PState.NEW →
    (getP s.procs i).remainingTime = (getP s.procs i).burst
  doneTerm : ∀ i, i < s.procs.length → i ∉ s.rq →
    (getP s.procs i).state = PState.NEW ∨
    ((getP s.procs i).state = PState.TERMINATED ∧
     (getP s.procs i).remainingTime = 0 ∧
     (getP s.procs i).turnaroundTime =
       (getP s.procs i).completionTime - (getP s.procs i).arrival ∧
     (getP s.procs i).waitingTime =
       (getP s.procs i).turnaroundTime - (getP s.procs i).burst)
  completedEq : s.completed + (s.rq.length + newCount s.procs) =
    s.procs.length
  stops : ∀ e ∈ s.gantt, e.stop ≤ s.t
  pos : ∀ e ∈ s.gantt, e.start < e.stop
  pw : s.gantt.Pairwise (fun a b => a.stop ≤ b.start)
  span : ganttSpan s.gantt = spent s.procs

theorem ppMeasure_le (s : PPState) :
    ppMeasure s ≤ 2 * sumRemNat s.procs + 1 := by
  simp only [ppMeasure]
  split <;> omega

theorem ppMeasure_ge (s : PPState) :
    2 * sumRemNat s.procs ≤ ppMeasure s := by
  simp only [ppMeasure]
  split <;> omega

/-- One Preemptive Priority iteration under the loop guard (for a positive
aging interval): it returns `some`, preserves the invariant, and strictly
decreases the termination measure. -/
theorem ppStep_preserve (agingI agingA : Int) (hI : 0 < agingI)
    (B : List Int) (hB : ∀ b ∈ B, 0 < b)
    (s : PPState) (hInv : PPInv B s)
    (hcond : s.completed < s.procs.length) :
    ∃ s2, ppStep agingI agingA s = some s2 ∧ PPInv B s2 ∧
      ppMeasure s2 < ppMeasure s := by
  obtain ⟨hlenB, hrun, hcs, hbounds, hnodup, hrqReady, hnewRem, hdone,
    hcompEq, hstops, hpos, hpw, hspan⟩ := hInv
  have hnagingGt : s.t < ppLastA agingI s + agingI := by
    by_cases hda : ppDoAge agingI s = true
    · simp only [ppLastA, if_pos hda]
      omega
    · simp only [ppLastA, if_neg hda]
      have h0 : ¬ (agingI ≤ s.t - s.lastAging) := by
        simpa [ppDoAge] using hda
      omega
  cases hq : s.rq ++ newArrivedIdx s.procs s.t with
  | nil =>
    obtain ⟨hrq, harr⟩ := List.append_eq_nil.mp hq
    have hps2nil : ppPs2 agingI agingA s (newArrivedIdx s.procs s.t) =
        s.procs := by
      by_cases hda : ppDoAge agingI s = true
      · simp only [ppPs2, if_pos hda, harr, hrq, setReady_nil,
          List.append_nil]
        rfl
      · simp only [ppPs2, if_neg hda, harr, setReady_nil]
    cases hmn : minNewArrival (ppPs2 agingI agingA s
        (newArrivedIdx s.procs s.t)) with
    | none =>
      exfalso
      rw [hps2nil] at hmn
      have h0 := minNewArrival_none hmn
      rw [hrq] at hcompEq
      simp only [List.length_nil] at hcompEq
      omega
    | some a =>
      have hmn2 : minNewArrival s.procs = some a := by
        rw [hps2nil] at hmn; exact hmn
      obtain ⟨p, hpmem, hpnew, hpa⟩ := minNewArrival_some hmn2
      obtain ⟨j, hjlen, hjp⟩ := exists_getP_of_mem hpmem
      have hjnew : (getP s.procs j).state = PState.NEW := by
        rw [hjp]; exact hpnew
      have hja : (getP s.procs j).arrival = a := by rw [hjp]; exact hpa
      have hjnot : j ∉ newArrivedIdx s.procs s.t := by rw [harr]; simp
      have hta : s.t < a := by
        by_contra hle
        push_neg at hle
        exact hjnot ((mem_newArrivedIdx _ _ _).mpr
          ⟨hjlen, by rw [hja]; exact hle, hjnew⟩)
      have hjmem2 : j ∈ newArrivedIdx s.procs a :=
        (mem_newArrivedIdx _ _ _).mpr ⟨hjlen, by rw [hja], hjnew⟩
      refine ⟨ppJumpState agingI agingA s (newArrivedIdx s.procs s.t) a,
        ?_, ?_, ?_⟩
      · simp only [ppStep, hq, hmn]
      · refine ⟨?_, ?_, ?_, ?_, ?_, ?_, ?_, ?_, ?_, ?_, ?_, ?_, ?_⟩ <;>
          simp only [ppJumpState, hps2nil]
        · exact hlenB
        · exact hrun
        · exact hcs
        · exact hbounds
        · exact hnodup
        · exact hrqReady
        · exact hnewRem
        · exact hdone
        · exact hcompEq
        · intro e he
          have h1 := hstops e he
          omega
        · exact hpos
        · exact hpw
        · exact hspan
      · have hhw2 : ppHasWork
            (ppJumpState agingI agingA s (newArrivedIdx s.procs s.t) a)
            = true := by
          have hne2 : (newArrivedIdx s.procs a).isEmpty = false :=
            isEmpty_false_of_ne_nil (List.ne_nil_of_mem hjmem2)
          simp [ppHasWork, ppJumpState, hps2nil, hne2]
        have hhw1 : ppHasWork s = false := by
          simp [ppHasWork, hrq, harr]
        have h1 : ppMeasure
            (ppJumpState agingI agingA s (newArrivedIdx s.procs s.t) a)
            = 2 * sumRemNat s.procs := by
          rw [ppMeasure, hhw2]
          simp [ppJumpState, hps2nil]
        have h2 : ppMeasure s = 2 * sumRemNat s.procs + 1 := by
          simp [ppMeasure, hhw1]
        omega
  | cons j0 l0 =>
    have harrmem : ∀ x ∈ newArrivedIdx s.procs s.t, x < s.procs.length ∧
        (getP s.procs x).arrival ≤ s.t ∧
        (getP s.procs x).state = PState.NEW :=
      fun x hx => (mem_newArrivedIdx _ _ _).mp hx
    have harrnodup := newArrivedIdx_nodup s.procs s.t
    have hrqNotArr : ∀ x ∈ s.rq, x ∉ newArrivedIdx s.procs s.t := by
      intro x hx hc
      have h1 := (hrqReady x hx).1
      have h2 := (harrmem x hc).2.2
      rw [h1] at h2
      exact PState.noConfusion h2
    have hrq1nodup : (s.rq ++ newArrivedIdx s.procs s.t).Nodup :=
      List.nodup_append.mpr ⟨hnodup, harrnodup, hrqNotArr⟩
    have hbnd1 : ∀ x ∈ s.rq ++ newArrivedIdx s.procs s.t,
        x < s.procs.length := by
      intro x hx
      rcases List.mem_append.mp hx with h | h
      · exact hbounds x h
      · exact (harrmem x h).1
    have hget1not : ∀ x, x ∉ newArrivedIdx s.procs s.t →
        getP (setReady s.procs (newArrivedIdx s.procs s.t)) x =
          getP s.procs x :=
      fun x hx => getP_updAll_not_mem _ _ _ _ hx
    have hget1mem : ∀ x ∈ newArrivedIdx s.procs s.t,
        getP (setReady s.procs (newArrivedIdx s.procs s.t)) x =
          { getP s.procs x with state := PState.READY } :=
      fun x hx => getP_updAll_mem _ _ _ _ harrnodup hx (harrmem x hx).1
    have hlen1 : (setReady s.procs (newArrivedIdx s.procs s.t)).length =
        s.procs.length := length_setReady _ _
    have hready1 : ∀ x ∈ s.rq ++ newArrivedIdx s.procs s.t,
        (getP (setReady s.procs (newArrivedIdx s.procs s.t)) x).state =
          PState.READY ∧
        0 < (getP (setReady s.procs (newArrivedIdx s.procs s.t))
          x).remainingTime := by
      intro x hx
      rcases List.mem_append.mp hx with h | h
      · rw [hget1not x (hrqNotArr x h)]
        exact hrqReady x h
      · rw [hget1mem x h]
        refine ⟨rfl, ?_⟩
        have hb2 := hnewRem x (harrmem x h).1 (harrmem x h).2.2
        have hbp : 0 < (getP s.procs x).burst :=
          burst_pos_of_inv hB hlenB x (harrmem x h).1
        show 0 < (getP s.procs x).remainingTime
        omega
    have hps2len : (ppPs2 agingI agingA s
        (newArrivedIdx s.procs s.t)).length = s.procs.length := by
      by_cases hda : ppDoAge agingI s = true
      · simp only [ppPs2, if_pos hda, length_updAll]
        exact hlen1
      · simp only [ppPs2, if_neg hda]
        exact hlen1
    have hg2state : ∀ x, (getP (ppPs2 agingI agingA s
        (newArrivedIdx s.procs s.t)) x).state =
        (getP (setReady s.procs (newArrivedIdx s.procs s.t)) x).state := by
      intro x
      by_cases hda : ppDoAge agingI s = true
      · simp only [ppPs2, if_pos hda]
        exact getP_field_updAll_pres Proc.state (ppAgeF agingA) _ _
          (fun p => rfl) x
      · simp only [ppPs2, if_neg hda]
    have hg2rem : ∀ x, (getP (ppPs2 agingI agingA s
        (newArrivedIdx s.procs s.t)) x).remainingTime =
        (getP (setReady s.procs (newArrivedIdx s.procs s.t))
          x).remainingTime := by
      intro x
      by_cases hda : ppDoAge agingI s = true
      · simp only [ppPs2, if_pos hda]
        exact getP_field_updAll_pres Proc.remainingTime (ppAgeF agingA) _ _
          (fun p => rfl) x
      · simp only [ppPs2, if_neg hda]
    have hg2burst : ∀ x, (getP (ppPs2 agingI agingA s
        (newArrivedIdx s.procs s.t)) x).burst =
        (getP (setReady s.procs (newArrivedIdx s.procs s.t)) x).burst := by
      intro x
      by_cases hda : ppDoAge agingI s = true
      · simp only [ppPs2, if_pos hda]
        exact getP_field_updAll_pres Proc.burst (ppAgeF agingA) _ _
          (fun p => rfl) x
      · simp only [ppPs2, if_neg hda]
    have hg2not : ∀ x, x ∉ s.rq ++ newArrivedIdx s.procs s.t →
        getP (ppPs2 agingI agingA s (newArrivedIdx s.procs s.t)) x =
          getP s.procs x := by
      intro x hx
      have hxarr : x ∉ newArrivedIdx s.procs s.t :=
        fun hc => hx (List.mem_append_right _ hc)
      by_cases hda : ppDoAge agingI s = true
      · simp only [ppPs2, if_pos hda]
        rw [getP_updAll_not_mem _ _ _ _ hx]
        exact hget1not x hxarr
      · simp only [ppPs2, if_neg hda]
        exact hget1not x hxarr
    have hmap2 : (ppPs2 agingI agingA s
        (newArrivedIdx s.procs s.t)).map Proc.burst = B := by
      by_cases hda : ppDoAge agingI s = true
      · simp only [ppPs2, if_pos hda]
        rw [map_updAll_pres Proc.burst (ppAgeF agingA) _ _ (fun p => rfl),
          map_burst_setReady]
        exact hlenB
      · simp only [ppPs2, if_neg hda]
        rw [map_burst_setReady]
        exact hlenB
    have hspent2 : spent (ppPs2 agingI agingA s
        (newArrivedIdx s.procs s.t)) = spent s.procs := by
      by_cases hda : ppDoAge agingI s = true
      · simp only [ppPs2, if_pos hda]
        rw [spent_updAll_pres (ppAgeF agingA) _ _ (fun p => rfl),
          spent_setReady]
      · simp only [ppPs2, if_neg hda]
        rw [spent_setReady]
    have hW2 : sumRemNat (ppPs2 agingI agingA s
        (newArrivedIdx s.procs s.t)) = sumRemNat s.procs := by
      by_cases hda : ppDoAge agingI s = true
      · simp only [ppPs2, if_pos hda]
        rw [sumRemNat_updAll_pres (ppAgeF agingA) _ _ (fun p => rfl),
          sumRemNat_setReady]
      · simp only [ppPs2, if_neg hda]
        rw [sumRemNat_setReady]
    have hnew2 : newCount (ppPs2 agingI agingA s
        (newArrivedIdx s.procs s.t)) =
        newCount (setReady s.procs (newArrivedIdx s.procs s.t)) := by
      by_cases hda : ppDoAge agingI s = true
      · simp only [ppPs2, if_pos hda, newCount]
        exact countP_updAll_pres _ (ppAgeF agingA) _ _ (fun p => rfl)
      · simp only [ppPs2, if_neg hda]
    have hnew1 : newCount (setReady s.procs (newArrivedIdx s.procs s.t)) +
        (newArrivedIdx s.procs s.t).length = newCount s.procs :=
      newCount_setReady _ _ harrnodup
        (fun x hx => ⟨(harrmem x hx).1, (harrmem x hx).2.2⟩)
    have hready2 : ∀ x ∈ s.rq ++ newArrivedIdx s.procs s.t,
        (getP (ppPs2 agingI agingA s (newArrivedIdx s.procs s.t)) x).state =
          PState.READY ∧
        0 < (getP (ppPs2 agingI agingA s (newArrivedIdx s.procs s.t))
          x).remainingTime := by
      intro x hx
      rw [hg2state x, hg2rem x]
      exact hready1 x hx
    cases hs : ppSorted agingI agingA s (newArrivedIdx s.procs s.t) with
    | nil =>
      exfalso
      have hperm : (ppSorted agingI agingA s
          (newArrivedIdx s.procs s.t)).Perm
          (s.rq ++ newArrivedIdx s.procs s.t) := sortStable_perm _ _
      rw [hs, hq] at hperm
      have h0 := hperm.length_eq
      simp at h0
    | cons i tl =>
      have hperm0 : (ppSorted agingI agingA s
          (newArrivedIdx s.procs s.t)).Perm
          (s.rq ++ newArrivedIdx s.procs s.t) := sortStable_perm _ _
      rw [hs] at hperm0
      have hsortNodup : (i :: tl).Nodup := (hperm0.nodup_iff).mpr hrq1nodup
      have hitl : i ∉ tl := (List.nodup_cons.mp hsortNodup).1
      have htlNodup : tl.Nodup := (List.nodup_cons.mp hsortNodup).2
      have hmem1 : ∀ x ∈ i :: tl, x ∈ s.rq ++ newArrivedIdx s.procs s.t :=
        fun x hx => hperm0.mem_iff.mp hx
      have hmem1' : ∀ x ∈ s.rq ++ newArrivedIdx s.procs s.t, x ∈ i :: tl :=
        fun x hx => hperm0.mem_iff.mpr hx
      have himem := hmem1 i (List.mem_cons_self _ _)
      have hiBound : i < s.procs.length := hbnd1 i himem
      have hib2 : i < (ppPs2 agingI agingA s
          (newArrivedIdx s.procs s.t)).length := by
        rw [hps2len]; exact hiBound
      have hstatei := (hready2 i himem).1
      have hremi := (hready2 i himem).2
      have hlentl : tl.length + 1 =
          s.rq.length + (newArrivedIdx s.procs s.t).length := by
        have h0 := hperm0.length_eq
        simp only [List.length_cons, List.length_append] at h0
        omega
      have hcondi : s.running ≠ some i := by
        rw [hrun]; exact fun hc => Option.noConfusion hc
      have hps4 : ppPs4 agingI agingA s (newArrivedIdx s.procs s.t) i =
          updAt (updAt (ppPs2 agingI agingA s (newArrivedIdx s.procs s.t)) i
              (fun p0 => { p0 with
                responseTime := if p0.responseTime = -1 then s.t - p0.arrival
                                else p0.responseTime })) i
            (fun p0 => { p0 with state := PState.RUNNING }) := by
        simp only [ppPs4, if_pos hcondi]
      have hib3 : i < (updAt (ppPs2 agingI agingA s
          (newArrivedIdx s.procs s.t)) i
          (fun p0 => { p0 with
            responseTime := if p0.responseTime = -1 then s.t - p0.arrival
                            else p0.responseTime })).length := by
        rw [length_updAt]; exact hib2
      have hlen4 : (ppPs4 agingI agingA s
          (newArrivedIdx s.procs s.t) i).length = s.procs.length := by
        rw [hps4, length_updAt, length_updAt, hps2len]
      have hib4 : i < (ppPs4 agingI agingA s
          (newArrivedIdx s.procs s.t) i).length := by
        rw [hlen4]; exact hiBound
      have hg4ne : ∀ x, x ≠ i →
          getP (ppPs4 agingI agingA s (newArrivedIdx s.procs s.t) i) x =
            getP (ppPs2 agingI agingA s (newArrivedIdx s.procs s.t)) x := by
        intro x hx
        rw [hps4, getP_updAt_ne _ _ _ _ hx, getP_updAt_ne _ _ _ _ hx]
      have hg4state : (getP (ppPs4 agingI agingA s
          (newArrivedIdx s.procs s.t) i) i).state = PState.RUNNING := by
        rw [hps4, getP_updAt_self _ _ _ hib3]
      have hg4rem : (getP (ppPs4 agingI agingA s
          (newArrivedIdx s.procs s.t) i) i).remainingTime =
          (getP (ppPs2 agingI agingA s (newArrivedIdx s.procs s.t))
            i).remainingTime := by
        rw [hps4, getP_updAt_self _ _ _ hib3, getP_updAt_self _ _ _ hib2]
      have hg4burst : (getP (ppPs4 agingI agingA s
          (newArrivedIdx s.procs s.t) i) i).burst =
          (getP (ppPs2 agingI agingA s (newArrivedIdx s.procs s.t))
            i).burst := by
        rw [hps4, getP_updAt_self _ _ _ hib3, getP_updAt_self _ _ _ hib2]
      have hmap4 : (ppPs4 agingI agingA s
          (newArrivedIdx s.procs s.t) i).map Proc.burst = B := by
        rw [hps4, map_updAt_pres Proc.burst _ i
            (fun p0 => { p0 with state := PState.RUNNING }) (fun p => rfl),
          map_updAt_pres Proc.burst _ i
            (fun p0 => { p0 with
              responseTime := if p0.responseTime = -1 then s.t - p0.arrival
                              else p0.responseTime }) (fun p => rfl)]
        exact hmap2
      have hspent4 : spent (ppPs4 agingI agingA s
          (newArrivedIdx s.procs s.t) i) = spent s.procs := by
        rw [hps4, spent_updAt_pres _ _ _ rfl, spent_updAt_pres _ _ _ rfl]
        exact hspent2
      have hW4 : sumRemNat (ppPs4 agingI agingA s
          (newArrivedIdx s.procs s.t) i) = sumRemNat s.procs := by
        rw [hps4, sumRemNat_updAt_pres _ _ _ rfl,
          sumRemNat_updAt_pres _ _ _ rfl]
        exact hW2
      have hnew4 : newCount (ppPs4 agingI agingA s
          (newArrivedIdx s.procs s.t) i) =
          newCount (ppPs2 agingI agingA s (newArrivedIdx s.procs s.t)) := by
        refine newCount_eq_of_getP _ _ (by rw [hlen4, hps2len]) ?_
        intro k hk
        by_cases hki : k = i
        · subst hki
          rw [hg4state, hstatei]
          rfl
        · rw [hg4ne k hki]
      have hremi4 : 0 < (getP (ppPs4 agingI agingA s
          (newArrivedIdx s.procs s.t) i) i).remainingTime := by
        rw [hg4rem]; exact hremi
      have hrq2i : ppRq2 s (i :: tl) i = tl := by
        simp [ppRq2, hcondi]
      have hcs1 : ppCs1 s i = 0 := by
        simp [ppCs1, hrun, hcs]
      have hneGt : s.t < ppNe agingI agingA s
          (newArrivedIdx s.procs s.t) i := by
        cases hna0 : minFutureArrival (ppPs4 agingI agingA s
            (newArrivedIdx s.procs s.t) i) s.t with
        | none =>
          simp only [ppNe, hna0]
          exact lt_min hnagingGt (by omega)
        | some a =>
          have h1 := minFutureArrival_lt hna0
          simp only [ppNe, hna0]
          exact lt_min h1 (lt_min hnagingGt (by omega))
      have hneLeComp : ppNe agingI agingA s (newArrivedIdx s.procs s.t) i ≤
          s.t + (getP (ppPs4 agingI agingA s (newArrivedIdx s.procs s.t) i)
            i).remainingTime := by
        cases hna0 : minFutureArrival (ppPs4 agingI agingA s
            (newArrivedIdx s.procs s.t) i) s.t with
        | none =>
          simp only [ppNe, hna0]
          exact min_le_right _ _
        | some a =>
          simp only [ppNe, hna0]
          exact le_trans (min_le_right _ _) (min_le_right _ _)
      have hps5 : ppPs5 agingI agingA s (newArrivedIdx s.procs s.t) i =
          updAt (ppPs4 agingI agingA s (newArrivedIdx s.procs s.t) i) i
            (ppBurnF agingI agingA s (newArrivedIdx s.procs s.t) i) := rfl
      have hg5self : getP (ppPs5 agingI agingA s
          (newArrivedIdx s.procs s.t) i) i =
          ppBurnF agingI agingA s (newArrivedIdx s.procs s.t) i
            (getP (ppPs4 agingI agingA s (newArrivedIdx s.procs s.t) i) i)
          := by
        rw [hps5]
        exact getP_updAt_self _ _ _ hib4
      have hg5rem : (getP (ppPs5 agingI agingA s
          (newArrivedIdx s.procs s.t) i) i).remainingTime =
          (getP (ppPs4 agingI agingA s (newArrivedIdx s.procs s.t) i)
            i).remainingTime -
          (ppNe agingI agingA s (newArrivedIdx s.procs s.t) i - s.t) := by
        rw [hg5self]
        rfl
      have hg5state : (getP (ppPs5 agingI agingA s
          (newArrivedIdx s.procs s.t) i) i).state = PState.RUNNING := by
        rw [hg5self]
        exact hg4state
      have hg5ne : ∀ x, x ≠ i →
          getP (ppPs5 agingI agingA s (newArrivedIdx s.procs s.t) i) x =
            getP (ppPs4 agingI agingA s (newArrivedIdx s.procs s.t) i) x := by
        intro x hx
        rw [hps5, getP_updAt_ne _ _ _ _ hx]
      have hlen5 : (ppPs5 agingI agingA s
          (newArrivedIdx s.procs s.t) i).length = s.procs.length := by
        rw [hps5, length_updAt, hlen4]
      have hib5 : i < (ppPs5 agingI agingA s
          (newArrivedIdx s.procs s.t) i).length := by
        rw [hlen5]; exact hiBound
      have hmap5 : (ppPs5 agingI agingA s
          (newArrivedIdx s.procs s.t) i).map Proc.burst = B := by
        rw [hps5, map_updAt_pres Proc.burst _ i
          (ppBurnF agingI agingA s (newArrivedIdx s.procs s.t) i)
          (fun p => rfl)]
        exact hmap4
      have hnew5 : newCount (ppPs5 agingI agingA s
          (newArrivedIdx s.procs s.t) i) =
          newCount (ppPs4 agingI agingA s (newArrivedIdx s.procs s.t) i) := by
        refine newCount_eq_of_getP _ _ (by rw [hlen5, hlen4]) ?_
        intro k hk
        by_cases hki : k = i
        · subst hki
          rw [hg5state, hg4state]
        · rw [hg5ne k hki]
      have hg1pos : ppG1 agingI agingA s (newArrivedIdx s.procs s.t) i =
          s.gantt ++ [⟨(getP (ppPs2 agingI agingA s
            (newArrivedIdx s.procs s.t)) i).pid, s.t,
            ppNe agingI agingA s (newArrivedIdx s.procs s.t) i⟩] := by
        rw [ppG1, if_pos (by omega)]
      have htlready : ∀ x ∈ tl,
          (getP (ppPs5 agingI agingA s (newArrivedIdx s.procs s.t) i)
            x).state = PState.READY ∧
          0 < (getP (ppPs5 agingI agingA s (newArrivedIdx s.procs s.t) i)
            x).remainingTime := by
        intro x hx
        have hxi : x ≠ i := fun hc => hitl (hc ▸ hx)
        rw [hg5ne x hxi, hg4ne x hxi]
        exact hready2 x (hmem1 x (List.mem_cons_of_mem _ hx))
      have hbndtl : ∀ x ∈ tl, x < s.procs.length :=
        fun x hx => hbnd1 x (hmem1 x (List.mem_cons_of_mem _ hx))
      have hdoneSide : ∀ x, x < s.procs.length → x ≠ i → x ∉ tl →
          getP (ppPs5 agingI agingA s (newArrivedIdx s.procs s.t) i) x =
            getP s.procs x ∧ x ∉ s.rq := by
        intro x hxlen hxi hxtl
        have hxrq1 : x ∉ s.rq ++ newArrivedIdx s.procs s.t := by
          intro hc
          rcases List.mem_cons.mp (hmem1' x hc) with h | h
          · exact hxi h
          · exact hxtl h
        have hxrq : x ∉ s.rq := fun hc => hxrq1 (List.mem_append_left _ hc)
        rw [hg5ne x hxi, hg4ne x hxi, hg2not x hxrq1]
        exact ⟨rfl, hxrq⟩
      have hnewSide : ∀ x, x < s.procs.length → x ≠ i →
          (getP (ppPs5 agingI agingA s (newArrivedIdx s.procs s.t) i)
            x).state = PState.NEW →
          (getP (ppPs5 agingI agingA s (newArrivedIdx s.procs s.t) i)
            x).remainingTime =
          (getP (ppPs5 agingI agingA s (newArrivedIdx s.procs s.t) i)
            x).burst := by
        intro x hxlen hxi hxnew
        rw [hg5ne x hxi, hg4ne x hxi] at hxnew ⊢
        by_cases hxq : x ∈ s.rq ++ newArrivedIdx s.procs s.t
        · have h1 := (hready2 x hxq).1
          rw [h1] at hxnew
          exact PState.noConfusion hxnew
        · rw [hg2not x hxq] at hxnew ⊢
          exact hnewRem x hxlen hxnew
      by_cases hA : (getP (ppPs5 agingI agingA s
          (newArrivedIdx s.procs s.t) i) i).remainingTime ≤ 0
      · -- the dispatched process runs to completion at the next event
        have hneComp : ppNe agingI agingA s (newArrivedIdx s.procs s.t) i =
            s.t + (getP (ppPs4 agingI agingA s (newArrivedIdx s.procs s.t) i)
              i).remainingTime := by
          rw [hg5rem] at hA
          omega
        have hrem5zero : (getP (ppPs5 agingI agingA s
            (newArrivedIdx s.procs s.t) i) i).remainingTime = 0 := by
          rw [hg5rem, hneComp]
          ring
        have hgfin : getP (updAt (ppPs5 agingI agingA s
            (newArrivedIdx s.procs s.t) i) i
            (ppTermF agingI agingA s (newArrivedIdx s.procs s.t) i)) i =
            ppTermF agingI agingA s (newArrivedIdx s.procs s.t) i
              (getP (ppPs5 agingI agingA s (newArrivedIdx s.procs s.t) i) i)
            := getP_updAt_self _ _ _ hib5
        refine ⟨ppCompleteState agingI agingA s (newArrivedIdx s.procs s.t)
          (i :: tl), ?_, ?_, ?_⟩
        · simp only [ppStep, hq, hs, List.headD_cons]
          rw [if_pos hA]
        · refine ⟨?_, rfl, ?_, ?_, ?_, ?_, ?_, ?_, ?_, ?_, ?_, ?_, ?_⟩
          · simp only [ppCompleteState, List.headD_cons]
            rw [map_updAt_pres Proc.burst _ i
              (ppTermF agingI agingA s (newArrivedIdx s.procs s.t) i)
              (fun p => rfl)]
            exact hmap5
          · simp only [ppCompleteState, List.headD_cons]
            exact hcs1
          · intro x hx
            simp only [ppCompleteState, List.headD_cons, hrq2i] at hx
            simp only [ppCompleteState, List.headD_cons, length_updAt, hlen5]
            exact hbndtl x hx
          · simp only [ppCompleteState, List.headD_cons, hrq2i]
            exact htlNodup
          · intro x hx
            simp only [ppCompleteState, List.headD_cons, hrq2i] at hx ⊢
            have hxi : x ≠ i := fun hc => hitl (hc ▸ hx)
            rw [getP_updAt_ne _ _ _ _ hxi]
            exact htlready x hx
          · intro x hxlen hxnew
            simp only [ppCompleteState, List.headD_cons, length_updAt,
              hlen5] at hxlen hxnew ⊢
            by_cases hxi : x = i
            · subst hxi
              rw [hgfin] at hxnew
              exact absurd hxnew (by simp [ppTermF, calcProcessMetrics])
            · rw [getP_updAt_ne _ _ _ _ hxi] at hxnew ⊢
              exact hnewSide x hxlen hxi hxnew
          · intro x hxlen hxnot
            simp only [ppCompleteState, List.headD_cons, length_updAt, hlen5,
              hrq2i] at hxlen hxnot ⊢
            by_cases hxi : x = i
            · subst hxi
              rw [hgfin]
              exact Or.inr ⟨rfl, rfl, rfl, rfl⟩
            · obtain ⟨hgx, hxrq⟩ := hdoneSide x hxlen hxi hxnot
              rw [getP_updAt_ne _ _ _ _ hxi, hgx]
              exact hdone x hxlen hxrq
          · have hnewF : newCount (updAt (ppPs5 agingI agingA s
                (newArrivedIdx s.procs s.t) i) i
                (ppTermF agingI agingA s (newArrivedIdx s.procs s.t) i)) =
                newCount (ppPs5 agingI agingA s
                  (newArrivedIdx s.procs s.t) i) := by
              refine newCount_updAt_pres _ _ _ ?_
              rw [hg5state]
              simp [ppTermF, calcProcessMetrics]
            simp only [ppCompleteState, List.headD_cons, hrq2i, length_updAt,
              hlen5, hnewF, hnew5, hnew4, hnew2]
            omega
          · intro e he
            simp only [ppCompleteState, List.headD_cons, hg1pos] at he ⊢
            rcases List.mem_append.mp he with h | h
            · have h1 := hstops e h
              omega
            · simp only [List.mem_singleton] at h
              subst h
              simp
          · intro e he
            simp only [ppCompleteState, List.headD_cons, hg1pos] at he
            rcases List.mem_append.mp he with h | h
            · exact hpos e h
            · simp only [List.mem_singleton] at h
              subst h
              exact hneGt
          · simp only [ppCompleteState, List.headD_cons, hg1pos]
            refine List.pairwise_append.mpr
              ⟨hpw, List.pairwise_singleton _ _, ?_⟩
            intro e he e2 he2
            simp only [List.mem_singleton] at he2
            subst he2
            exact hstops e he
          · simp only [ppCompleteState, List.headD_cons, hg1pos]
            rw [ganttSpan_append]
            rw [show updAt (ppPs5 agingI agingA s
                (newArrivedIdx s.procs s.t) i) i
                (ppTermF agingI agingA s (newArrivedIdx s.procs s.t) i) =
                (ppPs5 agingI agingA s (newArrivedIdx s.procs s.t) i).set i
                  (ppTermF agingI agingA s (newArrivedIdx s.procs s.t) i
                    (getP (ppPs5 agingI agingA s
                      (newArrivedIdx s.procs s.t) i) i))
              from rfl]
            rw [spent_set _ _ _ hib5]
            rw [hps5, show updAt (ppPs4 agingI agingA s
                (newArrivedIdx s.procs s.t) i) i
                (ppBurnF agingI agingA s (newArrivedIdx s.procs s.t) i) =
                (ppPs4 agingI agingA s (newArrivedIdx s.procs s.t) i).set i
                  (ppBurnF agingI agingA s (newArrivedIdx s.procs s.t) i
                    (getP (ppPs4 agingI agingA s
                      (newArrivedIdx s.procs s.t) i) i))
              from rfl]
            rw [spent_set _ _ _ hib4, hspent4, hspan]
            rw [getP_set_self _ _ _ hib4]
            have h1 : spentOf (ppTermF agingI agingA s
                (newArrivedIdx s.procs s.t) i
                (ppBurnF agingI agingA s (newArrivedIdx s.procs s.t) i
                  (getP (ppPs4 agingI agingA s
                    (newArrivedIdx s.procs s.t) i) i))) =
                (getP (ppPs4 agingI agingA s (newArrivedIdx s.procs s.t) i)
                  i).burst := by
              simp [ppTermF, ppBurnF, spentOf, calcProcessMetrics]
            rw [h1]
            simp only [spentOf, ppBurnF, hneComp]
            ring
        · refine lt_of_le_of_lt (ppMeasure_le _) ?_
          have hge := ppMeasure_ge s
          have hdec : sumRemNat (ppCompleteState agingI agingA s
              (newArrivedIdx s.procs s.t) (i :: tl)).procs <
              sumRemNat s.procs := by
            rw [← hW4]
            simp only [ppCompleteState, List.headD_cons]
            have h0 : sumRemNat (updAt (ppPs5 agingI agingA s
                (newArrivedIdx s.procs s.t) i) i
                (ppTermF agingI agingA s (newArrivedIdx s.procs s.t) i)) =
                sumRemNat (ppPs5 agingI agingA s
                  (newArrivedIdx s.procs s.t) i) := by
              refine sumRemNat_updAt_pres _ _ _ ?_
              simp [ppTermF, calcProcessMetrics, hrem5zero]
            rw [h0, hps5]
            refine sumRemNat_updAt_lt _ i
              (ppBurnF agingI agingA s (newArrivedIdx s.procs s.t) i)
              hib4 ?_ ?_
            · simp only [ppBurnF]
              omega
            · simp only [ppBurnF]
              omega
          omega
      · -- the dispatched process yields at an arrival or aging boundary
        have hrem5pos : 0 < (getP (ppPs5 agingI agingA s
            (newArrivedIdx s.procs s.t) i) i).remainingTime := by omega
        have hneLtComp : ppNe agingI agingA s (newArrivedIdx s.procs s.t) i <
            s.t + (getP (ppPs4 agingI agingA s (newArrivedIdx s.procs s.t) i)
              i).remainingTime := by
          rw [hg5rem] at hrem5pos
          omega
        have hBtrue : ((match minFutureArrival (ppPs4 agingI agingA s
              (newArrivedIdx s.procs s.t) i) s.t with
            | some a => decide (ppNe agingI agingA s
                (newArrivedIdx s.procs s.t) i = a)
            | none => false) ||
            decide (ppNe agingI agingA s (newArrivedIdx s.procs s.t) i =
              ppLastA agingI s + agingI)) = true := by
          cases hna0 : minFutureArrival (ppPs4 agingI agingA s
              (newArrivedIdx s.procs s.t) i) s.t with
          | none =>
            have h0 : ppNe agingI agingA s (newArrivedIdx s.procs s.t) i =
                min (ppLastA agingI s + agingI)
                  (s.t + (getP (ppPs4 agingI agingA s
                    (newArrivedIdx s.procs s.t) i) i).remainingTime) := by
              simp only [ppNe, hna0]
            rcases min_choice (ppLastA agingI s + agingI)
                (s.t + (getP (ppPs4 agingI agingA s
                  (newArrivedIdx s.procs s.t) i) i).remainingTime)
              with h1 | h1
            · simp only [hna0, Bool.false_or, decide_eq_true_eq]
              rw [h0, h1]
            · exfalso
              rw [h1] at h0
              omega
          | some a =>
            have h0 : ppNe agingI agingA s (newArrivedIdx s.procs s.t) i =
                min a (min (ppLastA agingI s + agingI)
                  (s.t + (getP (ppPs4 agingI agingA s
                    (newArrivedIdx s.procs s.t) i) i).remainingTime)) := by
              simp only [ppNe, hna0]
            simp only [hna0, Bool.or_eq_true, decide_eq_true_eq]
            rcases min_choice a (min (ppLastA agingI s + agingI)
                (s.t + (getP (ppPs4 agingI agingA s
                  (newArrivedIdx s.procs s.t) i) i).remainingTime))
              with h1 | h1
            · left
              rw [h0, h1]
            · rcases min_choice (ppLastA agingI s + agingI)
                  (s.t + (getP (ppPs4 agingI agingA s
                    (newArrivedIdx s.procs s.t) i) i).remainingTime)
                with h2 | h2
              · right
                rw [h0, h1, h2]
              · exfalso
                rw [h1, h2] at h0
                omega
        have hgfinY : getP (updAt (ppPs5 agingI agingA s
            (newArrivedIdx s.procs s.t) i) i
            (fun p0 => { p0 with state := PState.READY })) i =
            { getP (ppPs5 agingI agingA s (newArrivedIdx s.procs s.t) i) i
              with state := PState.READY } := getP_updAt_self _ _ _ hib5
        refine ⟨ppYieldState agingI agingA s (newArrivedIdx s.procs s.t)
          (i :: tl), ?_, ?_, ?_⟩
        · simp only [ppStep, hq, hs, List.headD_cons]
          rw [if_neg hA, if_pos hBtrue]
        · refine ⟨?_, rfl, ?_, ?_, ?_, ?_, ?_, ?_, ?_, ?_, ?_, ?_, ?_⟩
          · simp only [ppYieldState, List.headD_cons]
            rw [map_updAt_pres Proc.burst _ i
              (fun p0 => { p0 with state := PState.READY }) (fun p => rfl)]
            exact hmap5
          · simp only [ppYieldState, List.headD_cons]
            exact hcs1
          · intro x hx
            simp only [ppYieldState, List.headD_cons, hrq2i] at hx
            simp only [ppYieldState, List.headD_cons, length_updAt, hlen5]
            rcases List.mem_append.mp hx with h | h
            · exact hbndtl x h
            · simp only [List.mem_singleton] at h
              subst h
              exact hiBound
          · simp only [ppYieldState, List.headD_cons, hrq2i]
            refine List.nodup_append.mpr
              ⟨htlNodup, List.nodup_singleton _, ?_⟩
            intro x hx
            simp only [List.mem_singleton]
            exact fun hc => hitl (hc ▸ hx)
          · intro x hx
            simp only [ppYieldState, List.headD_cons, hrq2i] at hx ⊢
            rcases List.mem_append.mp hx with h | h
            · have hxi : x ≠ i := fun hc => hitl (hc ▸ h)
              rw [getP_updAt_ne _ _ _ _ hxi]
              exact htlready x h
            · simp only [List.mem_singleton] at h
              subst h
              rw [hgfinY]
              exact ⟨rfl, hrem5pos⟩
          · intro x hxlen hxnew
            simp only [ppYieldState, List.headD_cons, length_updAt, hlen5]
              at hxlen hxnew ⊢
            by_cases hxi : x = i
            · subst hxi
              rw [hgfinY] at hxnew
              exact absurd hxnew (by simp)
            · rw [getP_updAt_ne _ _ _ _ hxi] at hxnew ⊢
              exact hnewSide x hxlen hxi hxnew
          · intro x hxlen hxnot
            simp only [ppYieldState, List.headD_cons, length_updAt, hlen5,
              hrq2i] at hxlen hxnot ⊢
            have hxi : x ≠ i := by
              intro hc
              exact hxnot (hc ▸ List.mem_append_right _
                (List.mem_singleton.mpr rfl))
            have hxtl : x ∉ tl :=
              fun hc => hxnot (List.mem_append_left _ hc)
            obtain ⟨hgx, hxrq⟩ := hdoneSide x hxlen hxi hxtl
            rw [getP_updAt_ne _ _ _ _ hxi, hgx]
            exact hdone x hxlen hxrq
          · have hnewF : newCount (updAt (ppPs5 agingI agingA s
                (newArrivedIdx s.procs s.t) i) i
                (fun p0 => { p0 with state := PState.READY })) =
                newCount (ppPs5 agingI agingA s
                  (newArrivedIdx s.procs s.t) i) := by
              refine newCount_updAt_pres _ _ _ ?_
              rw [hg5state]
              rfl
            simp only [ppYieldState, List.headD_cons, hrq2i, length_updAt,
              hlen5, hnewF, hnew5, hnew4, hnew2, List.length_append,
              List.length_singleton]
            omega
          · intro e he
            simp only [ppYieldState, List.headD_cons, hg1pos] at he ⊢
            rcases List.mem_append.mp he with h | h
            · have h1 := hstops e h
              omega
            · simp only [List.mem_singleton] at h
              subst h
              simp
          · intro e he
            simp only [ppYieldState, List.headD_cons, hg1pos] at he
            rcases List.mem_append.mp he with h | h
            · exact hpos e h
            · simp only [List.mem_singleton] at h
              subst h
              exact hneGt
          · simp only [ppYieldState, List.headD_cons, hg1pos]
            refine List.pairwise_append.mpr
              ⟨hpw, List.pairwise_singleton _ _, ?_⟩
            intro e he e2 he2
            simp only [List.mem_singleton] at he2
            subst he2
            exact hstops e he
          · simp only [ppYieldState, List.headD_cons, hg1pos]
            rw [ganttSpan_append]
            rw [show updAt (ppPs5 agingI agingA s
                (newArrivedIdx s.procs s.t) i) i
                (fun p0 => { p0 with state := PState.READY }) =
                (ppPs5 agingI agingA s (newArrivedIdx s.procs s.t) i).set i
                  ({ getP (ppPs5 agingI agingA s
                      (newArrivedIdx s.procs s.t) i) i
                    with state := PState.READY })
              from rfl]
            rw [spent_set _ _ _ hib5]
            rw [hps5, show updAt (ppPs4 agingI agingA s
                (newArrivedIdx s.procs s.t) i) i
                (ppBurnF agingI agingA s (newArrivedIdx s.procs s.t) i) =
                (ppPs4 agingI agingA s (newArrivedIdx s.procs s.t) i).set i
                  (ppBurnF agingI agingA s (newArrivedIdx s.procs s.t) i
                    (getP (ppPs4 agingI agingA s
                      (newArrivedIdx s.procs s.t) i) i))
              from rfl]
            rw [spent_set _ _ _ hib4, hspent4, hspan]
            rw [getP_set_self _ _ _ hib4]
            simp only [spentOf, ppBurnF]
            ring
        · refine lt_of_le_of_lt (ppMeasure_le _) ?_
          have hge := ppMeasure_ge s
          have hdec : sumRemNat (ppYieldState agingI agingA s
              (newArrivedIdx s.procs s.t) (i :: tl)).procs <
              sumRemNat s.procs := by
            rw [← hW4]
            simp only [ppYieldState, List.headD_cons]
            have h0 : sumRemNat (updAt (ppPs5 agingI agingA s
                (newArrivedIdx s.procs s.t) i) i
                (fun p0 => { p0 with state := PState.READY })) =
                sumRemNat (ppPs5 agingI agingA s
                  (newArrivedIdx s.procs s.t) i) := by
              refine sumRemNat_updAt_pres _ _ _ ?_
              rfl
            rw [h0, hps5]
            refine sumRemNat_updAt_lt _ i
              (ppBurnF agingI agingA s (newArrivedIdx s.procs s.t) i)
              hib4 ?_ ?_
            · simp only [ppBurnF]
              omega
            · rw [hg5rem] at hrem5pos
              simp only [ppBurnF]
              omega
          omega

theorem ppRun_complete (agingI agingA : Int) (hI : 0 < agingI)
    (B : List Int) (hB : ∀ b ∈ B, 0 < b) :
    ∀ (f : Nat) (s : PPState), PPInv B s → ppMeasure s < f →
      PPInv B (ppRun agingI agingA f s) ∧
        (ppRun agingI agingA f s).completed =
          (ppRun agingI agingA f s).procs.length := by
  intro f
  induction f with
  | zero => intro s hInv hm; omega
  | succ f2 ih =>
    intro s hInv hm
    by_cases hc : s.completed < s.procs.length
    · obtain ⟨s2, hstep, hinv2, hm2⟩ :=
        ppStep_preserve agingI agingA hI B hB s hInv hc
      simp only [ppRun, if_pos hc, hstep]
      exact ih s2 hinv2 (by omega)
    · simp only [ppRun, if_neg hc]
      have hcomp := hInv.completedEq
      exact ⟨hInv, by omega⟩

theorem ppInit_inv (ps : List Proc) :
    PPInv (ps.map Proc.burst) (ppInit ps) := by
  refine ⟨?_, rfl, rfl, ?_, ?_, ?_, ?_, ?_, ?_, ?_, ?_, ?_, ?_⟩
  · simp only [ppInit, List.map_map]
    exact List.map_congr_left (fun p _ => rfl)
  · intro x hx
    simp only [ppInit] at hx
    simp at hx
  · simp only [ppInit]
    exact List.nodup_nil
  · intro x hx
    simp only [ppInit] at hx
    simp at hx
  · intro x hxlen hxnew
    simp only [ppInit, List.length_map] at hxlen ⊢
    rw [getP_map resetP ps x hxlen]
    rfl
  · intro x hxlen hxnot
    simp only [ppInit, List.length_map] at hxlen
    left
    simp only [ppInit]
    rw [getP_map resetP ps x hxlen]
    rfl
  · simp only [ppInit, List.length_nil, newCount_reset, List.length_map]
    omega
  · intro e he
    simp only [ppInit] at he
    simp at he
  · intro e he
    simp only [ppInit] at he
    simp at he
  · simp only [ppInit]
    exact List.Pairwise.nil
  · simp only [ppInit, ganttSpan, List.map_nil, List.sum_nil]
    exact (spent_reset ps).symm

theorem ppInit_fuel (ps : List Proc) :
    ppMeasure (ppInit ps) < ppFuel ps := by
  have h1 := ppMeasure_le (ppInit ps)
  have h2 : sumRemNat (ppInit ps).procs = sumBurstNat ps :=
    sumRemNat_reset ps
  simp only [ppFuel]
  omega

theorem ppFinal (agingI agingA : Int) (hI : 0 < agingI) (ps : List Proc)
    (hb : ∀ p ∈ ps, 0 < p.burst) :
    PPInv (ps.map Proc.burst)
      (ppRun agingI agingA (ppFuel ps) (ppInit ps)) ∧
    (ppRun agingI agingA (ppFuel ps) (ppInit ps)).completed =
      (ppRun agingI agingA (ppFuel ps) (ppInit ps)).procs.length :=
  ppRun_complete agingI agingA hI _ (burst_hyp_map hb) (ppFuel ps)
    (ppInit ps) (ppInit_inv ps) (ppInit_fuel ps)

/-- Properties of any completed Preemptive Priority state satisfying the
invariant: all processes terminated with the metric equations, a well-formed
Gantt chart spanning the burst sum, and zero recorded context switches. -/
theorem ppDone_props (B : List Int) (sf : PPState) (hInv : PPInv B sf)
    (hcomp : sf.completed = sf.procs.length) :
    (∀ p ∈ sf.procs, p.state = PState.TERMINATED ∧ p.remainingTime = 0 ∧
      p.turnaroundTime = p.completionTime - p.arrival ∧
      p.waitingTime = p.turnaroundTime - p.burst) ∧
    ganttOK sf.gantt (burstSum sf.procs) ∧ sf.cs = 0 := by
  obtain ⟨hlenB, hrun, hcs, hbounds, hnodup, hrqReady, hnewRem, hdone,
    hcompEq, hstops, hpos, hpw, hspan⟩ := hInv
  have hrq : sf.rq = [] := by
    have h0 : sf.rq.length = 0 := by omega
    exact List.length_eq_zero.mp h0
  have hnc : newCount sf.procs = 0 := by omega
  simp only [newCount] at hnc
  have hnonew : ∀ p ∈ sf.procs, ¬ (p.state = PState.NEW) := by
    intro p hp
    have h0 := List.countP_eq_zero.mp hnc p hp
    simpa using h0
  have hall : ∀ p ∈ sf.procs, p.state = PState.TERMINATED ∧
      p.remainingTime = 0 ∧ p.turnaroundTime = p.completionTime - p.arrival ∧
      p.waitingTime = p.turnaroundTime - p.burst := by
    refine forall_mem_of_getP sf.procs ?_
    intro i hi
    rcases hdone i hi (by rw [hrq]; simp) with h | h
    · exact absurd h (hnonew _ (getP_mem sf.procs i hi))
    · exact h
  refine ⟨hall, ⟨?_, hpos, hpw, pairwise_start_lt _ hpw hpos⟩, hcs⟩
  rw [hspan]
  exact spent_eq_burstSum sf.procs (fun p hp => (hall p hp).2.1)

/-! ### The MLFQ loop invariant -/

/-- Loop invariant of the MLFQ scheduler; the three levels are constrained
only through their concatenation. -/
structure MLFQInv (B : List Int) (s : MLFQState) : Prop where
  lenB : s.procs.map Proc.burst = B
  bounds : ∀ i ∈ s.rem ++ (s.q0 ++ (s.q1 ++ s.q2)), i < s.procs.length
  nodup : (s.rem ++ (s.q0 ++ (s.q1 ++ s.q2))).Nodup
  remNew : ∀ i ∈ s.rem, (getP s.procs i).state = PState.NEW ∧
    (getP s.procs i).remainingTime = (getP s.procs i).burst
  qReady : ∀ i ∈ s.q0 ++ (s.q1 ++ s.q2),
    (getP s.procs i).state = PState.READY ∧
    0 < (getP s.procs i).remainingTime
  doneTerm : ∀ i, i < s.procs.length → i ∉ s.rem →
    i ∉ s.q0 ++ (s.q1 ++ s.q2) →
    (getP s.procs i).state = PState.TERMINATED ∧
    (getP s.procs i).remainingTime = 0 ∧
    (getP s.procs i).turnaroundTime =
      (getP s.procs i).completionTime - (getP s.procs i).arrival ∧
    (getP s.procs i).waitingTime =
      (getP s.procs i).turnaroundTime - (getP s.procs i).burst
  completedEq : s.completed +
    (s.rem.length + (s.q0 ++ (s.q1 ++ s.q2)).length) = s.procs.length
  stops : ∀ e ∈ s.gantt, e.stop ≤ s.t
  pos : ∀ e ∈ s.gantt, e.start < e.stop
  pw : s.gantt.Pairwise (fun a b => a.stop ≤ b.start)
  span : ganttSpan s.gantt = spent s.procs

theorem mlfqMeasure_le (s : MLFQState) :
    mlfqMeasure s ≤ 2 * sumRemNat s.procs + 1 := by
  simp only [mlfqMeasure]
  split <;> omega

theorem mlfqMeasure_ge (s : MLFQState) :
    2 * sumRemNat s.procs ≤ mlfqMeasure s := by
  simp only [mlfqMeasure]
  split <;> omega

theorem perm_of_msetEq {α : Type} {l1 l2 : List α}
    (h : (↑l1 : Multiset α) = ↑l2) : l1.Perm l2 :=
  Multiset.coe_eq_coe.mp h

/-- One MLFQ dispatch out of a non-empty queue preserves the invariant and
strictly decreases the measure, uniformly in the scheduled level. -/
theorem mlfqDispatchCore (B : List Int) (hB : ∀ b ∈ B, 0 < b)
    (s : MLFQState)
    (hlenB : s.procs.map Proc.burst = B)
    (hbounds : ∀ x ∈ s.rem ++ (s.q0 ++ (s.q1 ++ s.q2)), x < s.procs.length)
    (hnodup : (s.rem ++ (s.q0 ++ (s.q1 ++ s.q2))).Nodup)
    (hremNew : ∀ x ∈ s.rem, (getP s.procs x).state = PState.NEW ∧
      (getP s.procs x).remainingTime = (getP s.procs x).burst)
    (hqReady : ∀ x ∈ s.q0 ++ (s.q1 ++ s.q2),
      (getP s.procs x).state = PState.READY ∧
      0 < (getP s.procs x).remainingTime)
    (hdone : ∀ x, x < s.procs.length → x ∉ s.rem →
      x ∉ s.q0 ++ (s.q1 ++ s.q2) →
      (getP s.procs x).state = PState.TERMINATED ∧
      (getP s.procs x).remainingTime = 0 ∧
      (getP s.procs x).turnaroundTime =
        (getP s.procs x).completionTime - (getP s.procs x).arrival ∧
      (getP s.procs x).waitingTime =
        (getP s.procs x).turnaroundTime - (getP s.procs x).burst)
    (hcompEq : s.completed +
      (s.rem.length + (s.q0 ++ (s.q1 ++ s.q2)).length) = s.procs.length)
    (hstops : ∀ e ∈ s.gantt, e.stop ≤ s.t)
    (hpos : ∀ e ∈ s.gantt, e.start < e.stop)
    (hpw : s.gantt.Pairwise (fun a b => a.stop ≤ b.start))
    (hspan : ganttSpan s.gantt = spent s.procs)
    (arrived rest : List Nat)
    (hpop : npPop true s.procs s.t s.rem = (arrived, rest))
    (lvl : Nat) (qtail : List Nat) (i : Nat) (others : List Nat)
    (hlv : lvl = 0 ∨ lvl = 1 ∨ lvl = 2)
    (hcomb : mlfqQ0b s arrived ++ (mlfqQ1b s ++ mlfqQ2b s) =
      i :: (qtail ++ others))
    (hqc : ∀ a2 : List Nat,
      (mlfqQ0c s arrived lvl qtail a2 ++
        (mlfqQ1c s lvl qtail ++ mlfqQ2c s lvl qtail)).Perm
        ((qtail ++ others) ++ a2))
    (hqd : ∀ a2 : List Nat,
      ((if min (lvl + 1) 2 = 0 then mlfqQ0c s arrived lvl qtail a2 ++ [i]
          else mlfqQ0c s arrived lvl qtail a2) ++
        ((if min (lvl + 1) 2 = 1 then mlfqQ1c s lvl qtail ++ [i]
          else mlfqQ1c s lvl qtail) ++
         (if min (lvl + 1) 2 = 2 then mlfqQ2c s lvl qtail ++ [i]
          else mlfqQ2c s lvl qtail))).Perm
        (((qtail ++ others) ++ a2) ++ [i]))
    (hqs : ∀ a2 : List Nat,
      ((if lvl = 0 then mlfqQ0c s arrived lvl qtail a2 ++ [i]
          else mlfqQ0c s arrived lvl qtail a2) ++
        ((if lvl = 1 then mlfqQ1c s lvl qtail ++ [i]
          else mlfqQ1c s lvl qtail) ++
         (if lvl = 2 then mlfqQ2c s lvl qtail ++ [i]
          else mlfqQ2c s lvl qtail))).Perm
        (((qtail ++ others) ++ a2) ++ [i])) :
    MLFQInv B (mlfqDispatch s arrived lvl qtail i rest) ∧
    mlfqMeasure (mlfqDispatch s arrived lvl qtail i rest) < mlfqMeasure s
    := by
  have hjoin : (arrived ++ rest).Perm s.rem := by
    have h0 := npPop_join true s.procs s.t s.rem
    rw [hpop] at h0; exact h0
  have hmemArr : ∀ x ∈ arrived, x ∈ s.rem :=
    fun x hx => (hjoin.mem_iff).mp (List.mem_append_left rest hx)
  have hmemRest : ∀ x ∈ rest, x ∈ s.rem :=
    fun x hx => (hjoin.mem_iff).mp (List.mem_append_right arrived hx)
  have hremnodup : s.rem.Nodup := (List.nodup_append.mp hnodup).1
  have hQnodup : (s.q0 ++ (s.q1 ++ s.q2)).Nodup :=
    (List.nodup_append.mp hnodup).2.1
  have hRemNotQ : ∀ x ∈ s.rem, x ∉ s.q0 ++ (s.q1 ++ s.q2) :=
    fun x hx => (List.nodup_append.mp hnodup).2.2 hx
  have hARnodup : (arrived ++ rest).Nodup := (hjoin.nodup_iff).mpr hremnodup
  have harrNodup : arrived.Nodup := (List.nodup_append.mp hARnodup).1
  have hrestNodup : rest.Nodup := (List.nodup_append.mp hARnodup).2.1
  have hdisjAR : ∀ x ∈ arrived, x ∉ rest :=
    fun x hx => (List.nodup_append.mp hARnodup).2.2 hx
  have hQbperm : (mlfqQ0b s arrived ++ (mlfqQ1b s ++ mlfqQ2b s)).Perm
      ((s.q0 ++ (s.q1 ++ s.q2)) ++ arrived) := by
    by_cases hbo : mlfqDoBoost s = true
    · simp only [mlfqQ0b, mlfqQ1b, mlfqQ2b, if_pos hbo]
      refine perm_of_msetEq ?_
      simp only [← Multiset.coe_add, Multiset.coe_nil]
      abel
    · simp only [mlfqQ0b, mlfqQ1b, mlfqQ2b, if_neg hbo]
      refine perm_of_msetEq ?_
      simp only [← Multiset.coe_add]
      abel
  have hIQT : (i :: (qtail ++ others)).Perm
      ((s.q0 ++ (s.q1 ++ s.q2)) ++ arrived) := hcomb ▸ hQbperm
  have hQbnodup : (i :: (qtail ++ others)).Nodup := by
    refine (hIQT.nodup_iff).mpr ?_
    refine List.nodup_append.mpr ⟨hQnodup, harrNodup, ?_⟩
    intro x hx hc
    exact hRemNotQ x (hmemArr x hc) hx
  have hiqt : i ∉ qtail ++ others := (List.nodup_cons.mp hQbnodup).1
  have hqtNodup : (qtail ++ others).Nodup := (List.nodup_cons.mp hQbnodup).2
  have hmemQb : ∀ x ∈ i :: (qtail ++ others),
      x ∈ s.q0 ++ (s.q1 ++ s.q2) ∨ x ∈ arrived :=
    fun x hx => List.mem_append.mp (hIQT.mem_iff.mp hx)
  have hmemQb' : ∀ x, x ∈ s.q0 ++ (s.q1 ++ s.q2) ∨ x ∈ arrived →
      x ∈ i :: (qtail ++ others) :=
    fun x hx => hIQT.mem_iff.mpr (List.mem_append.mpr hx)
  have hbndQb : ∀ x ∈ i :: (qtail ++ others), x < s.procs.length := by
    intro x hx
    rcases hmemQb x hx with h | h
    · exact hbounds x (List.mem_append_right _ h)
    · exact hbounds x (List.mem_append_left _ (hmemArr x h))
  have hiBound : i < s.procs.length := hbndQb i (List.mem_cons_self _ _)
  have hinotrest : i ∉ rest := by
    intro hc
    rcases hmemQb i (List.mem_cons_self _ _) with h | h
    · exact hRemNotQ i (hmemRest i hc) h
    · exact hdisjAR i h hc
  -- the master list after arrivals and boost
  have haddnot : ∀ x, x ∉ arrived →
      getP (addAllQ0 s.procs arrived) x = getP s.procs x :=
    fun x hx => getP_updAll_not_mem _ _ _ _ hx
  have haddmem : ∀ x ∈ arrived,
      getP (addAllQ0 s.procs arrived) x =
        { getP s.procs x with queueLevel := 0, state := PState.READY } :=
    fun x hx => getP_updAll_mem _ _ _ _ harrNodup hx
      (hbounds x (List.mem_append_left _ (hmemArr x hx)))
  have hg2state : ∀ x, (getP (mlfqPs2 s arrived) x).state =
      (getP (addAllQ0 s.procs arrived) x).state := by
    intro x
    by_cases hbo : mlfqDoBoost s = true
    · simp only [mlfqPs2, if_pos hbo]
      exact getP_field_updAll_pres Proc.state mlfqBoostF _ _ (fun p => rfl) x
    · simp only [mlfqPs2, if_neg hbo]
  have hg2rem : ∀ x, (getP (mlfqPs2 s arrived) x).remainingTime =
      (getP s.procs x).remainingTime := by
    intro x
    have h1 : (getP (addAllQ0 s.procs arrived) x).remainingTime =
        (getP s.procs x).remainingTime :=
      getP_field_updAll_pres Proc.remainingTime
        (fun p => { p with queueLevel := 0, state := PState.READY })
        s.procs arrived (fun p => rfl) x
    by_cases hbo : mlfqDoBoost s = true
    · simp only [mlfqPs2, if_pos hbo]
      rw [getP_field_updAll_pres Proc.remainingTime mlfqBoostF _ _
        (fun p => rfl) x]
      exact h1
    · simp only [mlfqPs2, if_neg hbo]
      exact h1
  have hg2burst : ∀ x, (getP (mlfqPs2 s arrived) x).burst =
      (getP s.procs x).burst := by
    intro x
    have h1 : (getP (addAllQ0 s.procs arrived) x).burst =
        (getP s.procs x).burst :=
      getP_field_updAll_pres Proc.burst
        (fun p => { p with queueLevel := 0, state := PState.READY })
        s.procs arrived (fun p => rfl) x
    by_cases hbo : mlfqDoBoost s = true
    · simp only [mlfqPs2, if_pos hbo]
      rw [getP_field_updAll_pres Proc.burst mlfqBoostF _ _ (fun p => rfl) x]
      exact h1
    · simp only [mlfqPs2, if_neg hbo]
      exact h1
  have hg2arr : ∀ x, (getP (mlfqPs2 s arrived) x).arrival =
      (getP s.procs x).arrival := by
    intro x
    have h1 : (getP (addAllQ0 s.procs arrived) x).arrival =
        (getP s.procs x).arrival :=
      getP_field_updAll_pres Proc.arrival
        (fun p => { p with queueLevel := 0, state := PState.READY })
        s.procs arrived (fun p => rfl) x
    by_cases hbo : mlfqDoBoost s = true
    · simp only [mlfqPs2, if_pos hbo]
      rw [getP_field_updAll_pres Proc.arrival mlfqBoostF _ _
        (fun p => rfl) x]
      exact h1
    · simp only [mlfqPs2, if_neg hbo]
      exact h1
  have hg2notfull : ∀ x, x ∉ arrived → x ∉ s.q1 ++ s.q2 →
      getP (mlfqPs2 s arrived) x = getP s.procs x := by
    intro x hx1 hx2
    by_cases hbo : mlfqDoBoost s = true
    · simp only [mlfqPs2, if_pos hbo]
      rw [getP_updAll_not_mem _ _ _ _ hx2]
      exact haddnot x hx1
    · simp only [mlfqPs2, if_neg hbo]
      exact haddnot x hx1
  have hg2len : (mlfqPs2 s arrived).length = s.procs.length := by
    by_cases hbo : mlfqDoBoost s = true
    · simp only [mlfqPs2, if_pos hbo, length_updAll, addAllQ0]
    · simp only [mlfqPs2, if_neg hbo, addAllQ0, length_updAll]
  have hmap2 : (mlfqPs2 s arrived).map Proc.burst = B := by
    have h1 : (addAllQ0 s.procs arrived).map Proc.burst = B := by
      rw [addAllQ0, map_updAll_pres Proc.burst
        (fun p => { p with queueLevel := 0, state := PState.READY })
        s.procs arrived (fun p => rfl)]
      exact hlenB
    by_cases hbo : mlfqDoBoost s = true
    · simp only [mlfqPs2, if_pos hbo]
      rw [map_updAll_pres Proc.burst mlfqBoostF _ _ (fun p => rfl)]
      exact h1
    · simp only [mlfqPs2, if_neg hbo]
      exact h1
  have hspent2 : spent (mlfqPs2 s arrived) = spent s.procs := by
    have h1 : spent (addAllQ0 s.procs arrived) = spent s.procs := by
      rw [addAllQ0]
      exact spent_updAll_pres _ _ _ (fun p => rfl)
    by_cases hbo : mlfqDoBoost s = true
    · simp only [mlfqPs2, if_pos hbo]
      rw [spent_updAll_pres mlfqBoostF _ _ (fun p => rfl)]
      exact h1
    · simp only [mlfqPs2, if_neg hbo]
      exact h1
  have hW2 : sumRemNat (mlfqPs2 s arrived) = sumRemNat s.procs := by
    have h1 : sumRemNat (addAllQ0 s.procs arrived) = sumRemNat s.procs := by
      rw [addAllQ0]
      exact sumRemNat_updAll_pres _ _ _ (fun p => rfl)
    by_cases hbo : mlfqDoBoost s = true
    · simp only [mlfqPs2, if_pos hbo]
      rw [sumRemNat_updAll_pres mlfqBoostF _ _ (fun p => rfl)]
      exact h1
    · simp only [mlfqPs2, if_neg hbo]
      exact h1
  have hready2 : ∀ x ∈ i :: (qtail ++ others),
      (getP (mlfqPs2 s arrived) x).state = PState.READY ∧
      0 < (getP (mlfqPs2 s arrived) x).remainingTime := by
    intro x hx
    rcases hmemQb x hx with h | h
    · have h1 := hqReady x h
      have h2 : x ∉ arrived := by
        intro hc
        exact hRemNotQ x (hmemArr x hc) h
      constructor
      · rw [hg2state x, haddnot x h2]
        exact h1.1
      · rw [hg2rem x]
        exact h1.2
    · constructor
      · rw [hg2state x, haddmem x h]
      · rw [hg2rem x]
        have hxb : x < s.procs.length :=
          hbounds x (List.mem_append_left _ (hmemArr x h))
        have h2 := (hremNew x (hmemArr x h)).2
        have hbp : 0 < (getP s.procs x).burst :=
          burst_pos_of_inv hB hlenB x hxb
        omega
  -- the dispatched process
  have hps3 : mlfqPs3 s arrived i =
      updAt (mlfqPs2 s arrived) i (mlfqRespRunF s) := rfl
  have hib2 : i < (mlfqPs2 s arrived).length := by
    rw [hg2len]; exact hiBound
  have hlen3 : (mlfqPs3 s arrived i).length = s.procs.length := by
    rw [hps3, length_updAt, hg2len]
  have hib3 : i < (mlfqPs3 s arrived i).length := by
    rw [hlen3]; exact hiBound
  have hg3ne : ∀ x, x ≠ i → getP (mlfqPs3 s arrived i) x =
      getP (mlfqPs2 s arrived) x := by
    intro x hx
    rw [hps3, getP_updAt_ne _ _ _ _ hx]
  have hg3state : (getP (mlfqPs3 s arrived i) i).state = PState.RUNNING := by
    rw [hps3, getP_updAt_self _ _ _ hib2]
    rfl
  have hg3rem : (getP (mlfqPs3 s arrived i) i).remainingTime =
      (getP (mlfqPs2 s arrived) i).remainingTime := by
    rw [hps3, getP_updAt_self _ _ _ hib2]
    rfl
  have hg3burst : (getP (mlfqPs3 s arrived i) i).burst =
      (getP (mlfqPs2 s arrived) i).burst := by
    rw [hps3, getP_updAt_self _ _ _ hib2]
    rfl
  have hg3arrAll : ∀ x, (getP (mlfqPs3 s arrived i) x).arrival =
      (getP s.procs x).arrival := by
    intro x
    have h1 : (getP (mlfqPs3 s arrived i) x).arrival =
        (getP (mlfqPs2 s arrived) x).arrival := by
      rw [hps3]
      exact getP_field_updAt_pres Proc.arrival _ i (mlfqRespRunF s)
        (fun p => rfl) x
    rw [h1]
    exact hg2arr x
  have hmap3 : (mlfqPs3 s arrived i).map Proc.burst = B := by
    rw [hps3, map_updAt_pres Proc.burst _ i (mlfqRespRunF s) (fun p => rfl)]
    exact hmap2
  have hspent3 : spent (mlfqPs3 s arrived i) = spent s.procs := by
    rw [hps3, spent_updAt_pres _ _ _ rfl]
    exact hspent2
  have hW3 : sumRemNat (mlfqPs3 s arrived i) = sumRemNat s.procs := by
    rw [hps3, sumRemNat_updAt_pres _ _ _ rfl]
    exact hW2
  have hremi3 : 0 < (getP (mlfqPs3 s arrived i) i).remainingTime := by
    rw [hg3rem]
    exact (hready2 i (List.mem_cons_self _ _)).2
  have htqpos : 0 < mlfqTq s arrived lvl i := by
    rcases hlv with h | h | h <;> subst h
    · simp [mlfqTq]
    · simp [mlfqTq]
    · simpa [mlfqTq] using hremi3
  have hrun0pos : 0 < mlfqRun0 s arrived lvl i :=
    lt_min htqpos hremi3
  have hrun1pos : 0 < mlfqRun1 s arrived lvl i rest := by
    cases hrest : rest with
    | nil => simpa [mlfqRun1, mlfqNa, hrest] using hrun0pos
    | cons j rest2 =>
      have hjarr : ¬ (getP s.procs j).arrival ≤ s.t := by
        refine npPop_rest_head true s.procs s.t s.rem j rest2 ?_
        rw [hpop, hrest]
      simp only [mlfqRun1, mlfqNa, hrest]
      split
      · rw [hg3arrAll j]
        omega
      · exact hrun0pos
  have hactpos : 0 < mlfqActual s arrived lvl i rest :=
    lt_min hrun1pos hremi3
  have hactle : mlfqActual s arrived lvl i rest ≤
      (getP (mlfqPs3 s arrived i) i).remainingTime :=
    min_le_right _ _
  have hfingt : s.t < mlfqFin s arrived lvl i rest := by
    simp only [mlfqFin]
    omega
  -- the master list after the slice
  have hps4 : mlfqPs4 s arrived lvl i rest =
      updAt (mlfqPs3 s arrived i) i (mlfqBurnF s arrived lvl i rest) := rfl
  have hlen4 : (mlfqPs4 s arrived lvl i rest).length = s.procs.length := by
    rw [hps4, length_updAt, hlen3]
  have hib4 : i < (mlfqPs4 s arrived lvl i rest).length := by
    rw [hlen4]; exact hiBound
  have hg4ne : ∀ x, x ≠ i → getP (mlfqPs4 s arrived lvl i rest) x =
      getP (mlfqPs3 s arrived i) x := by
    intro x hx
    rw [hps4, getP_updAt_ne _ _ _ _ hx]
  have hg4rem : (getP (mlfqPs4 s arrived lvl i rest) i).remainingTime =
      (getP (mlfqPs3 s arrived i) i).remainingTime -
        mlfqActual s arrived lvl i rest := by
    rw [hps4, getP_updAt_self _ _ _ hib3]
    rfl
  have hg4state : (getP (mlfqPs4 s arrived lvl i rest) i).state =
      PState.RUNNING := by
    rw [hps4, getP_updAt_self _ _ _ hib3]
    exact hg3state
  have hg4burst : (getP (mlfqPs4 s arrived lvl i rest) i).burst =
      (getP (mlfqPs3 s arrived i) i).burst := by
    rw [hps4, getP_updAt_self _ _ _ hib3]
    rfl
  have hg4arrAll : ∀ x, (getP (mlfqPs4 s arrived lvl i rest) x).arrival =
      (getP s.procs x).arrival := by
    intro x
    have h1 : (getP (mlfqPs4 s arrived lvl i rest) x).arrival =
        (getP (mlfqPs3 s arrived i) x).arrival := by
      rw [hps4]
      exact getP_field_updAt_pres Proc.arrival _ i
        (mlfqBurnF s arrived lvl i rest) (fun p => rfl) x
    rw [h1]
    exact hg3arrAll x
  have hmap4 : (mlfqPs4 s arrived lvl i rest).map Proc.burst = B := by
    rw [hps4, map_updAt_pres Proc.burst _ i
      (mlfqBurnF s arrived lvl i rest) (fun p => rfl)]
    exact hmap3
  rw [mlfqDispatch]
  rcases hpop2 : npPop true (mlfqPs4 s arrived lvl i rest)
      (mlfqFin s arrived lvl i rest) rest with ⟨arrived2, rest3⟩
  have hjoin2 : (arrived2 ++ rest3).Perm rest := by
    have h0 := npPop_join true (mlfqPs4 s arrived lvl i rest)
      (mlfqFin s arrived lvl i rest) rest
    rw [hpop2] at h0; exact h0
  have hmemArr2 : ∀ x ∈ arrived2, x ∈ rest :=
    fun x hx => (hjoin2.mem_iff).mp (List.mem_append_left rest3 hx)
  have hmemRest3 : ∀ x ∈ rest3, x ∈ rest :=
    fun x hx => (hjoin2.mem_iff).mp (List.mem_append_right arrived2 hx)
  have hA2Rnodup : (arrived2 ++ rest3).Nodup :=
    (hjoin2.nodup_iff).mpr hrestNodup
  have harr2Nodup : arrived2.Nodup := (List.nodup_append.mp hA2Rnodup).1
  have hrest3Nodup : rest3.Nodup := (List.nodup_append.mp hA2Rnodup).2.1
  have hdisjA2R3 : ∀ x ∈ arrived2, x ∉ rest3 :=
    fun x hx => (List.nodup_append.mp hA2Rnodup).2.2 hx
  have hinotarr2 : i ∉ arrived2 := fun hc => hinotrest (hmemArr2 i hc)
  have hbnd2 : ∀ x ∈ arrived2, x < s.procs.length :=
    fun x hx =>
      hbounds x (List.mem_append_left _ (hmemRest x (hmemArr2 x hx)))
  -- the master list after the mid-slice arrivals entered level 0
  have hg5not : ∀ x, x ∉ arrived2 →
      getP (addAllQ0 (mlfqPs4 s arrived lvl i rest) arrived2) x =
        getP (mlfqPs4 s arrived lvl i rest) x :=
    fun x hx => getP_updAll_not_mem _ _ _ _ hx
  have hg5mem : ∀ x ∈ arrived2,
      getP (addAllQ0 (mlfqPs4 s arrived lvl i rest) arrived2) x =
        { getP (mlfqPs4 s arrived lvl i rest) x with
          queueLevel := 0, state := PState.READY } :=
    fun x hx => getP_updAll_mem _ _ _ _ harr2Nodup hx
      (by rw [hlen4]; exact hbnd2 x hx)
  have hlen5 : (addAllQ0 (mlfqPs4 s arrived lvl i rest) arrived2).length =
      s.procs.length := by
    rw [addAllQ0, length_updAll, hlen4]
  have hib5 : i < (addAllQ0 (mlfqPs4 s arrived lvl i rest)
      arrived2).length := by
    rw [hlen5]; exact hiBound
  have hg5i : getP (addAllQ0 (mlfqPs4 s arrived lvl i rest) arrived2) i =
      getP (mlfqPs4 s arrived lvl i rest) i := hg5not i hinotarr2
  have hmap5 : (addAllQ0 (mlfqPs4 s arrived lvl i rest) arrived2).map
      Proc.burst = B := by
    rw [addAllQ0, map_updAll_pres Proc.burst
      (fun p => { p with queueLevel := 0, state := PState.READY })
      _ arrived2 (fun p => rfl)]
    exact hmap4
  have hspent5 : spent (addAllQ0 (mlfqPs4 s arrived lvl i rest) arrived2) =
      spent s.procs + mlfqActual s arrived lvl i rest := by
    have h1 : spent (addAllQ0 (mlfqPs4 s arrived lvl i rest) arrived2) =
        spent (mlfqPs4 s arrived lvl i rest) := by
      rw [addAllQ0]
      exact spent_updAll_pres _ _ _ (fun p => rfl)
    rw [h1, hps4, updAt, spent_set _ _ _ hib3, hspent3]
    have h2 : spentOf (mlfqBurnF s arrived lvl i rest
        (getP (mlfqPs3 s arrived i) i)) =
        spentOf (getP (mlfqPs3 s arrived i) i) +
          mlfqActual s arrived lvl i rest := by
      simp only [spentOf, mlfqBurnF]
      ring
    rw [h2]
    ring
  have hW5 : sumRemNat (addAllQ0 (mlfqPs4 s arrived lvl i rest) arrived2) <
      sumRemNat s.procs := by
    have h1 : sumRemNat (addAllQ0 (mlfqPs4 s arrived lvl i rest) arrived2) =
        sumRemNat (mlfqPs4 s arrived lvl i rest) := by
      rw [addAllQ0]
      exact sumRemNat_updAll_pres _ _ _ (fun p => rfl)
    rw [h1, ← hW3, hps4]
    refine sumRemNat_updAt_lt _ i (mlfqBurnF s arrived lvl i rest) hib3
      ?_ ?_
    · simp only [mlfqBurnF]
      omega
    · simp only [mlfqBurnF]
      omega
  have hready5tl : ∀ x ∈ qtail ++ others,
      (getP (addAllQ0 (mlfqPs4 s arrived lvl i rest) arrived2) x).state =
        PState.READY ∧
      0 < (getP (addAllQ0 (mlfqPs4 s arrived lvl i rest) arrived2)
        x).remainingTime := by
    intro x hx
    have hxi : x ≠ i := fun hc => hiqt (hc ▸ hx)
    have hxarr2 : x ∉ arrived2 := by
      intro hc
      have hxrem : x ∈ s.rem := hmemRest x (hmemArr2 x hc)
      rcases hmemQb x (List.mem_cons_of_mem _ hx) with h | h
      · exact hRemNotQ x hxrem h
      · exact hdisjAR x h (hmemArr2 x hc)
    rw [hg5not x hxarr2, hg4ne x hxi, hg3ne x hxi]
    exact hready2 x (List.mem_cons_of_mem _ hx)
  have hready5a2 : ∀ x ∈ arrived2,
      (getP (addAllQ0 (mlfqPs4 s arrived lvl i rest) arrived2) x).state =
        PState.READY ∧
      0 < (getP (addAllQ0 (mlfqPs4 s arrived lvl i rest) arrived2)
        x).remainingTime := by
    intro x hx
    have hxi : x ≠ i := fun hc => hinotarr2 (hc ▸ hx)
    have hxrem : x ∈ s.rem := hmemRest x (hmemArr2 x hx)
    have hxarr : x ∉ arrived := fun hc => hdisjAR x hc (hmemArr2 x hx)
    have hxq12 : x ∉ s.q1 ++ s.q2 := by
      intro hc
      exact hRemNotQ x hxrem (List.mem_append_right _ hc)
    constructor
    · rw [hg5mem x hx]
    · rw [hg5mem x hx]
      show 0 < (getP (mlfqPs4 s arrived lvl i rest) x).remainingTime
      rw [hg4ne x hxi, hg3ne x hxi, hg2rem x]
      have h2 := (hremNew x hxrem).2
      have hbp : 0 < (getP s.procs x).burst :=
        burst_pos_of_inv hB hlenB x
          (hbounds x (List.mem_append_left _ hxrem))
      omega
  have hdoneSide : ∀ x, x < s.procs.length → x ≠ i → x ∉ qtail ++ others →
      x ∉ arrived2 → x ∉ rest3 →
      getP (addAllQ0 (mlfqPs4 s arrived lvl i rest) arrived2) x =
        getP s.procs x ∧ x ∉ s.rem ∧ x ∉ s.q0 ++ (s.q1 ++ s.q2) := by
    intro x hxlen hxi hxqt hxa2 hxr3
    have hxrest : x ∉ rest := by
      intro hc
      rcases List.mem_append.mp ((hjoin2.symm.mem_iff).mp hc) with h | h
      · exact hxa2 h
      · exact hxr3 h
    have hxQb : x ∉ i :: (qtail ++ others) := by
      intro hc
      rcases List.mem_cons.mp hc with h | h
      · exact hxi h
      · exact hxqt h
    have hxarr : x ∉ arrived := fun hc =>
      hxQb (hmemQb' x (Or.inr hc))
    have hxQ : x ∉ s.q0 ++ (s.q1 ++ s.q2) := fun hc =>
      hxQb (hmemQb' x (Or.inl hc))
    have hxrem : x ∉ s.rem := by
      intro hc
      rcases List.mem_append.mp ((hjoin.symm.mem_iff).mp hc) with h | h
      · exact hxarr h
      · exact hxrest h
    have hxq12 : x ∉ s.q1 ++ s.q2 := fun hc =>
      hxQ (List.mem_append_right _ hc)
    rw [hg5not x hxa2, hg4ne x hxi, hg3ne x hxi, hg2notfull x hxarr hxq12]
    exact ⟨rfl, hxrem, hxQ⟩
  have hrest3New : ∀ x ∈ rest3,
      (getP (addAllQ0 (mlfqPs4 s arrived lvl i rest) arrived2) x).state =
        PState.NEW ∧
      (getP (addAllQ0 (mlfqPs4 s arrived lvl i rest) arrived2)
        x).remainingTime =
      (getP (addAllQ0 (mlfqPs4 s arrived lvl i rest) arrived2) x).burst
      := by
    intro x hx
    have hxrest : x ∈ rest := hmemRest3 x hx
    have hxrem : x ∈ s.rem := hmemRest x hxrest
    have hxa2 : x ∉ arrived2 := fun hc => hdisjA2R3 x hc hx
    have hxarr : x ∉ arrived := fun hc => hdisjAR x hc hxrest
    have hxi : x ≠ i := fun hc => hinotrest (hc ▸ hxrest)
    have hxq12 : x ∉ s.q1 ++ s.q2 := fun hc =>
      hRemNotQ x hxrem (List.mem_append_right _ hc)
    rw [hg5not x hxa2, hg4ne x hxi, hg3ne x hxi,
      hg2notfull x hxarr hxq12]
    exact hremNew x hxrem
  -- the big permutation: the final pending list and queues repartition the
  -- old ones
  have hbigperm : (rest3 ++ ((qtail ++ others) ++ arrived2 ++ [i])).Perm
      (s.rem ++ (s.q0 ++ (s.q1 ++ s.q2))) := by
    have hstep1 : (rest3 ++ ((qtail ++ others) ++ arrived2 ++ [i])).Perm
        ((i :: (qtail ++ others)) ++ (arrived2 ++ rest3)) := by
      refine perm_of_msetEq ?_
      simp only [← Multiset.coe_add, ← Multiset.cons_coe, Multiset.coe_nil,
        Multiset.cons_zero, ← Multiset.singleton_add]
      abel
    refine hstep1.trans ?_
    refine (hIQT.append hjoin2).trans ?_
    rw [List.append_assoc]
    exact (hjoin.append_left _).trans List.perm_append_comm
  have hbignodup : (rest3 ++ ((qtail ++ others) ++ arrived2 ++ [i])).Nodup
      := (hbigperm.nodup_iff).mpr hnodup
  have hlenQb : qtail.length + others.length + 1 =
      (s.q0 ++ (s.q1 ++ s.q2)).length + arrived.length := by
    have h0 := hIQT.length_eq
    simp only [List.length_cons, List.length_append] at h0 ⊢
    omega
  have hlenJ1 : arrived.length + rest.length = s.rem.length :=
    by simpa using hjoin.length_eq
  have hlenJ2 : arrived2.length + rest3.length = rest.length :=
    by simpa using hjoin2.length_eq
  -- shared facts for the two branches that re-queue the process
  simp only [hpop2]
  by_cases hA : (getP (addAllQ0 (mlfqPs4 s arrived lvl i rest) arrived2)
      i).remainingTime ≤ 0
  · -- completion branch
    rw [if_pos hA]
    have hremfin : (getP (addAllQ0 (mlfqPs4 s arrived lvl i rest) arrived2)
        i).remainingTime = 0 := by
      rw [hg5i, hg4rem]
      rw [hg5i, hg4rem] at hA
      omega
    have hgfin : getP (updAt (addAllQ0 (mlfqPs4 s arrived lvl i rest)
        arrived2) i (mlfqTermF s arrived lvl i rest)) i =
        mlfqTermF s arrived lvl i rest
          (getP (addAllQ0 (mlfqPs4 s arrived lvl i rest) arrived2) i) :=
      getP_updAt_self _ _ _ hib5
    have hql : (mlfqQ0c s arrived lvl qtail arrived2 ++
        (mlfqQ1c s lvl qtail ++ mlfqQ2c s lvl qtail)).Perm
        ((qtail ++ others) ++ arrived2) := hqc arrived2
    have hsubperm : (rest3 ++ (mlfqQ0c s arrived lvl qtail arrived2 ++
        (mlfqQ1c s lvl qtail ++ mlfqQ2c s lvl qtail))).Perm
        (rest3 ++ ((qtail ++ others) ++ arrived2)) := hql.append_left rest3
    have hsubnodup : (rest3 ++ ((qtail ++ others) ++ arrived2)).Nodup := by
      refine List.Nodup.sublist ?_ hbignodup
      refine List.Sublist.append_left ?_ rest3
      exact List.sublist_append_left _ _
    constructor
    · refine ⟨?_, ?_, ?_, ?_, ?_, ?_, ?_, ?_, ?_, ?_, ?_⟩
      · simp only [mlfqCompleteState]
        rw [map_updAt_pres Proc.burst _ i
          (mlfqTermF s arrived lvl i rest) (fun p => rfl)]
        exact hmap5
      · intro x hx
        simp only [mlfqCompleteState] at hx ⊢
        rw [length_updAt, hlen5]
        rcases List.mem_append.mp hx with h | h
        · exact hbounds x (List.mem_append_left _
            (hmemRest x (hmemRest3 x h)))
        · rcases List.mem_append.mp (hql.mem_iff.mp h) with h2 | h2
          · exact hbndQb x (List.mem_cons_of_mem _ h2)
          · exact hbnd2 x h2
      · simp only [mlfqCompleteState]
        exact (hsubperm.nodup_iff).mpr hsubnodup
      · intro x hx
        simp only [mlfqCompleteState] at hx ⊢
        have hxi : x ≠ i := fun hc => hinotrest (hc ▸ hmemRest3 x hx)
        rw [getP_updAt_ne _ _ _ _ hxi]
        exact hrest3New x hx
      · intro x hx
        simp only [mlfqCompleteState] at hx ⊢
        rcases List.mem_append.mp (hql.mem_iff.mp hx) with h | h
        · have hxi : x ≠ i := fun hc => hiqt (hc ▸ h)
          rw [getP_updAt_ne _ _ _ _ hxi]
          exact hready5tl x h
        · have hxi : x ≠ i := fun hc => hinotarr2 (hc ▸ h)
          rw [getP_updAt_ne _ _ _ _ hxi]
          exact hready5a2 x h
      · intro x hxlen hx1 hx2
        simp only [mlfqCompleteState] at hxlen hx1 hx2 ⊢
        rw [length_updAt, hlen5] at hxlen
        by_cases hxi : x = i
        · subst hxi
          rw [hgfin]
          exact ⟨rfl, rfl, rfl, rfl⟩
        · have hxqt : x ∉ qtail ++ others := by
            intro hc
            exact hx2 (hql.mem_iff.mpr
              (List.mem_append_left _ hc))
          have hxa2 : x ∉ arrived2 := by
            intro hc
            exact hx2 (hql.mem_iff.mpr
              (List.mem_append_right _ hc))
          obtain ⟨hgx, hxrem, hxQ⟩ :=
            hdoneSide x hxlen hxi hxqt hxa2 hx1
          rw [getP_updAt_ne _ _ _ _ hxi, hgx]
          exact hdone x hxlen hxrem hxQ
      · simp only [mlfqCompleteState]
        rw [length_updAt, hlen5]
        have hl1 := hql.length_eq
        simp only [List.length_append] at hl1 ⊢
        omega
      · intro e he
        simp only [mlfqCompleteState, mlfqG1] at he ⊢
        rcases List.mem_append.mp he with h | h
        · have h1 := hstops e h
          omega
        · simp only [List.mem_singleton] at h
          subst h
          simp
      · intro e he
        simp only [mlfqCompleteState, mlfqG1] at he
        rcases List.mem_append.mp he with h | h
        · exact hpos e h
        · simp only [List.mem_singleton] at h
          subst h
          exact hfingt
      · simp only [mlfqCompleteState, mlfqG1]
        refine List.pairwise_append.mpr
          ⟨hpw, List.pairwise_singleton _ _, ?_⟩
        intro e he e2 he2
        simp only [List.mem_singleton] at he2
        subst he2
        exact hstops e he
      · simp only [mlfqCompleteState, mlfqG1]
        rw [ganttSpan_append]
        rw [show updAt (addAllQ0 (mlfqPs4 s arrived lvl i rest) arrived2) i
            (mlfqTermF s arrived lvl i rest) =
            (addAllQ0 (mlfqPs4 s arrived lvl i rest) arrived2).set i
              (mlfqTermF s arrived lvl i rest
                (getP (addAllQ0 (mlfqPs4 s arrived lvl i rest) arrived2) i))
          from rfl]
        rw [spent_set _ _ _ hib5, hspent5, hspan]
        have h1 : spentOf (mlfqTermF s arrived lvl i rest
            (getP (addAllQ0 (mlfqPs4 s arrived lvl i rest) arrived2) i)) =
            spentOf (getP (addAllQ0 (mlfqPs4 s arrived lvl i rest)
              arrived2) i) := by
          simp only [mlfqTermF, spentOf, calcProcessMetrics, hremfin]
        rw [h1]
        simp only [mlfqFin]
        ring
    · refine lt_of_le_of_lt (mlfqMeasure_le _) ?_
      have hge := mlfqMeasure_ge s
      have hWfin : sumRemNat (mlfqCompleteState s arrived lvl qtail i rest
          arrived2 rest3).procs <
          sumRemNat s.procs := by
        simp only [mlfqCompleteState]
        have h0 : sumRemNat (updAt (addAllQ0 (mlfqPs4 s arrived lvl i rest)
            arrived2) i (mlfqTermF s arrived lvl i rest)) =
            sumRemNat (addAllQ0 (mlfqPs4 s arrived lvl i rest) arrived2)
            := by
          refine sumRemNat_updAt_pres _ _ _ ?_
          simp [mlfqTermF, calcProcessMetrics, hremfin]
        rw [h0]
        exact hW5
      omega
  · -- the process survives its slice and is re-queued
    rw [if_neg hA]
    have hrem5pos : 0 < (getP (addAllQ0 (mlfqPs4 s arrived lvl i rest)
        arrived2) i).remainingTime := by omega
    have hreq : ∀ (nl : Nat) (X0 X1 X2 : List Nat),
        (X0 ++ (X1 ++ X2)).Perm (((qtail ++ others) ++ arrived2) ++ [i]) →
        MLFQInv B
          { procs := updAt (addAllQ0 (mlfqPs4 s arrived lvl i rest)
              arrived2) i
              (fun p0 => { p0 with
                queueLevel := nl, state := PState.READY }),
            rem := rest3, q0 := X0, q1 := X1, q2 := X2,
            t := mlfqFin s arrived lvl i rest,
            gantt := mlfqG1 s arrived lvl i rest, cs := s.cs + 1,
            completed := s.completed, lastBoost := mlfqLastB s } ∧
        mlfqMeasure
          { procs := updAt (addAllQ0 (mlfqPs4 s arrived lvl i rest)
              arrived2) i
              (fun p0 => { p0 with
                queueLevel := nl, state := PState.READY }),
            rem := rest3, q0 := X0, q1 := X1, q2 := X2,
            t := mlfqFin s arrived lvl i rest,
            gantt := mlfqG1 s arrived lvl i rest, cs := s.cs + 1,
            completed := s.completed, lastBoost := mlfqLastB s } <
          mlfqMeasure s := by
      intro nl X0 X1 X2 hqX
      have hgfinR : getP (updAt (addAllQ0 (mlfqPs4 s arrived lvl i rest)
          arrived2) i
          (fun p0 => { p0 with queueLevel := nl, state := PState.READY }))
          i =
          { getP (addAllQ0 (mlfqPs4 s arrived lvl i rest) arrived2) i with
            queueLevel := nl, state := PState.READY } :=
        getP_updAt_self _ _ _ hib5
      have hsubperm2 : (rest3 ++ (X0 ++ (X1 ++ X2))).Perm
          (rest3 ++ (((qtail ++ others) ++ arrived2) ++ [i])) :=
        hqX.append_left rest3
      have hbignodup2 : (rest3 ++ (((qtail ++ others) ++ arrived2) ++ [i])
          ).Nodup := by
        refine (List.Perm.nodup_iff ?_).mpr hbignodup
        refine List.Perm.append_left rest3 ?_
        refine perm_of_msetEq ?_
        simp only [← Multiset.coe_add]
      constructor
      · refine ⟨?_, ?_, ?_, ?_, ?_, ?_, ?_, ?_, ?_, ?_, ?_⟩
        · rw [map_updAt_pres Proc.burst _ i
            (fun p0 => { p0 with queueLevel := nl, state := PState.READY })
            (fun p => rfl)]
          exact hmap5
        · intro x hx
          rw [length_updAt, hlen5]
          rcases List.mem_append.mp hx with h | h
          · exact hbounds x (List.mem_append_left _
              (hmemRest x (hmemRest3 x h)))
          · rcases List.mem_append.mp (hqX.mem_iff.mp h) with h2 | h2
            · rcases List.mem_append.mp h2 with h3 | h3
              · exact hbndQb x (List.mem_cons_of_mem _ h3)
              · exact hbnd2 x h3
            · simp only [List.mem_singleton] at h2
              subst h2
              exact hiBound
        · exact (hsubperm2.nodup_iff).mpr hbignodup2
        · intro x hx
          have hxi : x ≠ i := fun hc => hinotrest (hc ▸ hmemRest3 x hx)
          rw [getP_updAt_ne _ _ _ _ hxi]
          exact hrest3New x hx
        · intro x hx
          rcases List.mem_append.mp (hqX.mem_iff.mp hx) with h | h
          · rcases List.mem_append.mp h with h2 | h2
            · have hxi : x ≠ i := fun hc => hiqt (hc ▸ h2)
              rw [getP_updAt_ne _ _ _ _ hxi]
              exact hready5tl x h2
            · have hxi : x ≠ i := fun hc => hinotarr2 (hc ▸ h2)
              rw [getP_updAt_ne _ _ _ _ hxi]
              exact hready5a2 x h2
          · simp only [List.mem_singleton] at h
            subst h
            rw [hgfinR]
            exact ⟨rfl, hrem5pos⟩
        · intro x hxlen hx1 hx2
          rw [length_updAt, hlen5] at hxlen
          have hxi : x ≠ i := by
            intro hc
            exact hx2 (hqX.mem_iff.mpr (List.mem_append_right _
              (hc ▸ List.mem_singleton.mpr rfl)))
          have hxqt : x ∉ qtail ++ others := by
            intro hc
            exact hx2 (hqX.mem_iff.mpr (List.mem_append_left _
              (List.mem_append_left _ hc)))
          have hxa2 : x ∉ arrived2 := by
            intro hc
            exact hx2 (hqX.mem_iff.mpr (List.mem_append_left _
              (List.mem_append_right _ hc)))
          obtain ⟨hgx, hxrem, hxQ⟩ :=
            hdoneSide x hxlen hxi hxqt hxa2 hx1
          rw [getP_updAt_ne _ _ _ _ hxi, hgx]
          exact hdone x hxlen hxrem hxQ
        · rw [length_updAt, hlen5]
          have hl1 := hqX.length_eq
          simp only [List.length_append, List.length_singleton] at hl1 ⊢
          omega
        · intro e he
          simp only [mlfqG1] at he ⊢
          rcases List.mem_append.mp he with h | h
          · have h1 := hstops e h
            omega
          · simp only [List.mem_singleton] at h
            subst h
            simp
        · intro e he
          simp only [mlfqG1] at he
          rcases List.mem_append.mp he with h | h
          · exact hpos e h
          · simp only [List.mem_singleton] at h
            subst h
            exact hfingt
        · simp only [mlfqG1]
          refine List.pairwise_append.mpr
            ⟨hpw, List.pairwise_singleton _ _, ?_⟩
          intro e he e2 he2
          simp only [List.mem_singleton] at he2
          subst he2
          exact hstops e he
        · simp only [mlfqG1]
          rw [ganttSpan_append]
          rw [show updAt (addAllQ0 (mlfqPs4 s arrived lvl i rest) arrived2)
              i (fun p0 => { p0 with
                queueLevel := nl, state := PState.READY }) =
              (addAllQ0 (mlfqPs4 s arrived lvl i rest) arrived2).set i
                ({ getP (addAllQ0 (mlfqPs4 s arrived lvl i rest) arrived2)
                    i with queueLevel := nl, state := PState.READY })
            from rfl]
          rw [spent_set _ _ _ hib5, hspent5, hspan]
          have h1 : spentOf ({ getP (addAllQ0 (mlfqPs4 s arrived lvl i
              rest) arrived2) i with
              queueLevel := nl, state := PState.READY }) =
              spentOf (getP (addAllQ0 (mlfqPs4 s arrived lvl i rest)
                arrived2) i) := rfl
          rw [h1]
          simp only [mlfqFin]
          ring
      · refine lt_of_le_of_lt (mlfqMeasure_le _) ?_
        show 2 * sumRemNat (updAt (addAllQ0 (mlfqPs4 s arrived lvl i rest)
          arrived2) i
          (fun p0 => { p0 with queueLevel := nl, state := PState.READY }))
          + 1 < mlfqMeasure s
        have hge := mlfqMeasure_ge s
        have hWfin : sumRemNat (updAt (addAllQ0 (mlfqPs4 s arrived lvl i
            rest) arrived2) i
            (fun p0 => { p0 with queueLevel := nl, state := PState.READY }))
            < sumRemNat s.procs := by
          have h0 : sumRemNat (updAt (addAllQ0 (mlfqPs4 s arrived lvl i
              rest) arrived2) i
              (fun p0 => { p0 with
                queueLevel := nl, state := PState.READY })) =
              sumRemNat (addAllQ0 (mlfqPs4 s arrived lvl i rest) arrived2)
              := by
            refine sumRemNat_updAt_pres _ _ _ ?_
            rfl
          rw [h0]
          exact hW5
        omega
    split
    · exact hreq (min (lvl + 1) 2) _ _ _ (hqd arrived2)
    · exact hreq lvl _ _ _ (hqs arrived2)

theorem npPop_append_eq (ps : List Proc) (t : Int) (rem : List Nat) :
    (npPop true ps t rem).1 ++ (npPop true ps t rem).2 = rem := by
  simp [npPop, List.takeWhile_append_dropWhile]

/-- One MLFQ iteration under the loop guard: it returns `some`, preserves the
invariant, and strictly decreases the termination measure. -/
theorem mlfqStep_preserve (B : List Int) (hB : ∀ b ∈ B, 0 < b)
    (s : MLFQState) (hInv : MLFQInv B s)
    (hcond : s.completed < s.procs.length) :
    ∃ s2, mlfqStep s = some s2 ∧ MLFQInv B s2 ∧
      mlfqMeasure s2 < mlfqMeasure s := by
  obtain ⟨hlenB, hbounds, hnodup, hremNew, hqReady, hdone, hcompEq, hstops,
    hpos, hpw, hspan⟩ := hInv
  rcases hpop : npPop true s.procs s.t s.rem with ⟨arrived, rest⟩
  by_cases hq : ((mlfqQ0b s arrived).isEmpty && (mlfqQ1b s).isEmpty &&
      (mlfqQ2b s).isEmpty) = true
  · have hqE : mlfqQ0b s arrived = [] ∧ mlfqQ1b s = [] ∧ mlfqQ2b s = []
        := by
      simp only [Bool.and_eq_true, List.isEmpty_iff] at hq
      exact ⟨hq.1.1, hq.1.2, hq.2⟩
    have hall : s.q0 = [] ∧ s.q1 = [] ∧ s.q2 = [] ∧ arrived = [] := by
      by_cases hbo : mlfqDoBoost s = true
      · have h0 := hqE.1
        simp only [mlfqQ0b, if_pos hbo] at h0
        rcases List.append_eq_nil.mp h0 with ⟨h1, h2⟩
        rcases List.append_eq_nil.mp h1 with ⟨h3, h4⟩
        rcases List.append_eq_nil.mp h2 with ⟨h5, h6⟩
        exact ⟨h3, h5, h6, h4⟩
      · have h0 := hqE.1
        simp only [mlfqQ0b, if_neg hbo] at h0
        rcases List.append_eq_nil.mp h0 with ⟨h1, h2⟩
        have h3 := hqE.2.1
        simp only [mlfqQ1b, if_neg hbo] at h3
        have h4 := hqE.2.2
        simp only [mlfqQ2b, if_neg hbo] at h4
        exact ⟨h1, h3, h4, h2⟩
    obtain ⟨hq0, hq1, hq2, harr⟩ := hall
    have hresteq : rest = s.rem := by
      have h0 := npPop_append_eq s.procs s.t s.rem
      rw [hpop] at h0
      rw [harr] at h0
      simpa using h0
    have hps2nil : mlfqPs2 s arrived = s.procs := by
      by_cases hbo : mlfqDoBoost s = true
      · simp only [mlfqPs2, if_pos hbo, harr, hq1, hq2, addAllQ0,
          updAll_nil, List.append_nil]
      · simp only [mlfqPs2, if_neg hbo, harr, addAllQ0, updAll_nil]
    cases hrest : rest with
    | nil =>
      exfalso
      have hremnil : s.rem = [] := by rw [← hresteq, hrest]
      rw [hremnil, hq0, hq1, hq2] at hcompEq
      simp only [List.length_nil, List.append_nil, List.nil_append]
        at hcompEq
      omega
    | cons j rest2 =>
      have hremc : s.rem = j :: rest2 := by rw [← hresteq, hrest]
      have hjarr : ¬ (getP s.procs j).arrival ≤ s.t := by
        refine npPop_rest_head true s.procs s.t s.rem j rest2 ?_
        rw [hpop, hrest]
      have hjb : j < s.procs.length := by
        refine hbounds j (List.mem_append_left _ ?_)
        rw [hremc]
        exact List.mem_cons_self _ _
      refine ⟨mlfqJumpState s arrived j rest2, ?_, ?_, ?_⟩
      · simp only [mlfqStep, hpop, hrest]
        rw [if_pos hq]
      · refine ⟨?_, ?_, ?_, ?_, ?_, ?_, ?_, ?_, ?_, ?_, ?_⟩ <;>
          simp only [mlfqJumpState, hps2nil]
        · exact hlenB
        · intro x hx
          refine hbounds x ?_
          rw [hremc, hq0, hq1, hq2]
          simpa using hx
        · simp only [List.append_nil]
          have h0 := hnodup
          rw [hremc, hq0, hq1, hq2] at h0
          simpa using h0
        · intro x hx
          refine hremNew x ?_
          rw [hremc]
          simpa using hx
        · intro x hx
          simp at hx
        · intro x hxlen hx1 hx2
          refine hdone x hxlen ?_ (by rw [hq0, hq1, hq2]; simp)
          rw [hremc]
          simpa using hx1
        · rw [hremc] at hcompEq
          rw [hq0, hq1, hq2] at hcompEq
          simpa using hcompEq
        · intro e he
          have h1 := hstops e he
          have h2 : s.t ≤ (getP s.procs j).arrival := by omega
          omega
        · exact hpos
        · exact hpw
        · exact hspan
      · have hhw1 : mlfqHasWork s = false := by
          have hfst : (npPop true s.procs s.t s.rem).1 = [] := by
            rw [hpop]; exact harr
          simp [mlfqHasWork, hq0, hq1, hq2, hfst]
        have hfst2 := npPop_fst_ne_nil true s.procs
          ((getP s.procs j).arrival) j rest2 (le_refl _)
        have hhw2 : mlfqHasWork (mlfqJumpState s arrived j rest2) = true
            := by
          simp only [mlfqHasWork, mlfqJumpState, hps2nil]
          rw [isEmpty_false_of_ne_nil hfst2]
          simp
        have h1 : mlfqMeasure (mlfqJumpState s arrived j rest2) =
            2 * sumRemNat s.procs := by
          rw [mlfqMeasure, hhw2]
          simp [mlfqJumpState, hps2nil]
        have h2 : mlfqMeasure s = 2 * sumRemNat s.procs + 1 := by
          simp [mlfqMeasure, hhw1]
        omega
  · have hstep0 : mlfqStep s = (if (mlfqQ0b s arrived).isEmpty = true then
        if (mlfqQ1b s).isEmpty = true then
          some (mlfqDispatch s arrived 2 ((mlfqQ2b s).tail)
            ((mlfqQ2b s).headD 0) rest)
        else
          some (mlfqDispatch s arrived 1 ((mlfqQ1b s).tail)
            ((mlfqQ1b s).headD 0) rest)
      else
        some (mlfqDispatch s arrived 0 ((mlfqQ0b s arrived).tail)
          ((mlfqQ0b s arrived).headD 0) rest)) := by
      simp only [mlfqStep, hpop]
      rw [if_neg hq]
    by_cases h0e : (mlfqQ0b s arrived).isEmpty = true
    · by_cases h1e : (mlfqQ1b s).isEmpty = true
      · have h2ne : mlfqQ2b s ≠ [] := by
          intro hc
          apply hq
          simp [h0e, h1e, hc]
        cases hq2c : mlfqQ2b s with
        | nil => exact absurd hq2c h2ne
        | cons i tl =>
          have hq0n : mlfqQ0b s arrived = [] := List.isEmpty_iff.mp h0e
          have hq1n : mlfqQ1b s = [] := List.isEmpty_iff.mp h1e
          have hcomb : mlfqQ0b s arrived ++ (mlfqQ1b s ++ mlfqQ2b s) =
              i :: (tl ++ []) := by
            rw [hq0n, hq1n, hq2c]
            simp
          have hcore := mlfqDispatchCore B hB s hlenB hbounds hnodup
            hremNew hqReady hdone hcompEq hstops hpos hpw hspan
            arrived rest hpop 2 tl i [] (Or.inr (Or.inr rfl)) hcomb
            (by
              intro a2
              have e0 : ((2 : Nat) = 0) = False := eq_false (by decide)
              have e1 : ((2 : Nat) = 1) = False := eq_false (by decide)
              have e2 : ((2 : Nat) = 2) = True := eq_true rfl
              have m0 : (min (2 + 1) 2 = 0) = False := eq_false (by decide)
              have m1 : (min (2 + 1) 2 = 1) = False := eq_false (by decide)
              have m2 : (min (2 + 1) 2 = 2) = True := eq_true (by decide)
              simp only [mlfqQ0c, mlfqQ1c, mlfqQ2c, e0, e1, e2, m0, m1, m2,
                if_true, if_false, hq0n, hq1n, List.nil_append,
                List.append_nil]
              refine perm_of_msetEq ?_
              simp only [← Multiset.coe_add, Multiset.coe_nil]
              abel)
            (by
              intro a2
              have e0 : ((2 : Nat) = 0) = False := eq_false (by decide)
              have e1 : ((2 : Nat) = 1) = False := eq_false (by decide)
              have e2 : ((2 : Nat) = 2) = True := eq_true rfl
              have m0 : (min (2 + 1) 2 = 0) = False := eq_false (by decide)
              have m1 : (min (2 + 1) 2 = 1) = False := eq_false (by decide)
              have m2 : (min (2 + 1) 2 = 2) = True := eq_true (by decide)
              simp only [mlfqQ0c, mlfqQ1c, mlfqQ2c, e0, e1, e2, m0, m1, m2,
                if_true, if_false, hq0n, hq1n, List.nil_append,
                List.append_nil]
              refine perm_of_msetEq ?_
              simp only [← Multiset.coe_add, Multiset.coe_nil]
              abel)
            (by
              intro a2
              have e0 : ((2 : Nat) = 0) = False := eq_false (by decide)
              have e1 : ((2 : Nat) = 1) = False := eq_false (by decide)
              have e2 : ((2 : Nat) = 2) = True := eq_true rfl
              have m0 : (min (2 + 1) 2 = 0) = False := eq_false (by decide)
              have m1 : (min (2 + 1) 2 = 1) = False := eq_false (by decide)
              have m2 : (min (2 + 1) 2 = 2) = True := eq_true (by decide)
              simp only [mlfqQ0c, mlfqQ1c, mlfqQ2c, e0, e1, e2, m0, m1, m2,
                if_true, if_false, hq0n, hq1n, List.nil_append,
                List.append_nil]
              refine perm_of_msetEq ?_
              simp only [← Multiset.coe_add, Multiset.coe_nil]
              abel)
          refine ⟨mlfqDispatch s arrived 2 tl i rest, ?_, hcore.1, hcore.2⟩
          rw [hstep0, if_pos h0e, if_pos h1e, hq2c]
          rfl
      · have h1ne : mlfqQ1b s ≠ [] := fun hc => h1e (by rw [hc]; rfl)
        cases hq1c : mlfqQ1b s with
        | nil => exact absurd hq1c h1ne
        | cons i tl =>
          have hq0n : mlfqQ0b s arrived = [] := List.isEmpty_iff.mp h0e
          have hcomb : mlfqQ0b s arrived ++ (mlfqQ1b s ++ mlfqQ2b s) =
              i :: (tl ++ mlfqQ2b s) := by
            rw [hq0n, hq1c]
            simp
          have hcore := mlfqDispatchCore B hB s hlenB hbounds hnodup
            hremNew hqReady hdone hcompEq hstops hpos hpw hspan
            arrived rest hpop 1 tl i (mlfqQ2b s) (Or.inr (Or.inl rfl)) hcomb
            (by
              intro a2
              have e0 : ((1 : Nat) = 0) = False := eq_false (by decide)
              have e1 : ((1 : Nat) = 1) = True := eq_true rfl
              have e2 : ((1 : Nat) = 2) = False := eq_false (by decide)
              have m0 : (min (1 + 1) 2 = 0) = False := eq_false (by decide)
              have m1 : (min (1 + 1) 2 = 1) = False := eq_false (by decide)
              have m2 : (min (1 + 1) 2 = 2) = True := eq_true (by decide)
              simp only [mlfqQ0c, mlfqQ1c, mlfqQ2c, e0, e1, e2, m0, m1, m2,
                if_true, if_false, hq0n, List.nil_append, List.append_nil]
              refine perm_of_msetEq ?_
              simp only [← Multiset.coe_add, Multiset.coe_nil]
              abel)
            (by
              intro a2
              have e0 : ((1 : Nat) = 0) = False := eq_false (by decide)
              have e1 : ((1 : Nat) = 1) = True := eq_true rfl
              have e2 : ((1 : Nat) = 2) = False := eq_false (by decide)
              have m0 : (min (1 + 1) 2 = 0) = False := eq_false (by decide)
              have m1 : (min (1 + 1) 2 = 1) = False := eq_false (by decide)
              have m2 : (min (1 + 1) 2 = 2) = True := eq_true (by decide)
              simp only [mlfqQ0c, mlfqQ1c, mlfqQ2c, e0, e1, e2, m0, m1, m2,
                if_true, if_false, hq0n, List.nil_append, List.append_nil]
              refine perm_of_msetEq ?_
              simp only [← Multiset.coe_add, Multiset.coe_nil]
              abel)
            (by
              intro a2
              have e0 : ((1 : Nat) = 0) = False := eq_false (by decide)
              have e1 : ((1 : Nat) = 1) = True := eq_true rfl
              have e2 : ((1 : Nat) = 2) = False := eq_false (by decide)
              have m0 : (min (1 + 1) 2 = 0) = False := eq_false (by decide)
              have m1 : (min (1 + 1) 2 = 1) = False := eq_false (by decide)
              have m2 : (min (1 + 1) 2 = 2) = True := eq_true (by decide)
              simp only [mlfqQ0c, mlfqQ1c, mlfqQ2c, e0, e1, e2, m0, m1, m2,
                if_true, if_false, hq0n, List.nil_append, List.append_nil]
              refine perm_of_msetEq ?_
              simp only [← Multiset.coe_add, Multiset.coe_nil]
              abel)
          refine ⟨mlfqDispatch s arrived 1 tl i rest, ?_, hcore.1, hcore.2⟩
          rw [hstep0, if_pos h0e, if_neg h1e, hq1c]
          rfl
    · have h0ne : mlfqQ0b s arrived ≠ [] := fun hc => h0e (by rw [hc]; rfl)
      cases hq0c : mlfqQ0b s arrived with
      | nil => exact absurd hq0c h0ne
      | cons i tl =>
        have hcomb : mlfqQ0b s arrived ++ (mlfqQ1b s ++ mlfqQ2b s) =
            i :: (tl ++ (mlfqQ1b s ++ mlfqQ2b s)) := by
          rw [hq0c]
          simp
        have hcore := mlfqDispatchCore B hB s hlenB hbounds hnodup
          hremNew hqReady hdone hcompEq hstops hpos hpw hspan
          arrived rest hpop 0 tl i (mlfqQ1b s ++ mlfqQ2b s) (Or.inl rfl)
          hcomb
          (by
            intro a2
            have e0 : ((0 : Nat) = 0) = True := eq_true rfl
            have e1 : ((0 : Nat) = 1) = False := eq_false (by decide)
            have e2 : ((0 : Nat) = 2) = False := eq_false (by decide)
            have m0 : (min (0 + 1) 2 = 0) = False := eq_false (by decide)
            have m1 : (min (0 + 1) 2 = 1) = True := eq_true (by decide)
            have m2 : (min (0 + 1) 2 = 2) = False := eq_false (by decide)
            simp only [mlfqQ0c, mlfqQ1c, mlfqQ2c, e0, e1, e2, m0, m1, m2,
              if_true, if_false, List.nil_append, List.append_nil]
            refine perm_of_msetEq ?_
            simp only [← Multiset.coe_add, Multiset.coe_nil]
            abel)
          (by
            intro a2
            have e0 : ((0 : Nat) = 0) = True := eq_true rfl
            have e1 : ((0 : Nat) = 1) = False := eq_false (by decide)
            have e2 : ((0 : Nat) = 2) = False := eq_false (by decide)
            have m0 : (min (0 + 1) 2 = 0) = False := eq_false (by decide)
            have m1 : (min (0 + 1) 2 = 1) = True := eq_true (by decide)
            have m2 : (min (0 + 1) 2 = 2) = False := eq_false (by decide)
            simp only [mlfqQ0c, mlfqQ1c, mlfqQ2c, e0, e1, e2, m0, m1, m2,
              if_true, if_false, List.nil_append, List.append_nil]
            refine perm_of_msetEq ?_
            simp only [← Multiset.coe_add, Multiset.coe_nil]
            abel)
          (by
            intro a2
            have e0 : ((0 : Nat) = 0) = True := eq_true rfl
            have e1 : ((0 : Nat) = 1) = False := eq_false (by decide)
            have e2 : ((0 : Nat) = 2) = False := eq_false (by decide)
            have m0 : (min (0 + 1) 2 = 0) = False := eq_false (by decide)
            have m1 : (min (0 + 1) 2 = 1) = True := eq_true (by decide)
            have m2 : (min (0 + 1) 2 = 2) = False := eq_false (by decide)
            simp only [mlfqQ0c, mlfqQ1c, mlfqQ2c, e0, e1, e2, m0, m1, m2,
              if_true, if_false, List.nil_append, List.append_nil]
            refine perm_of_msetEq ?_
            simp only [← Multiset.coe_add, Multiset.coe_nil]
            abel)
        refine ⟨mlfqDispatch s arrived 0 tl i rest, ?_, hcore.1, hcore.2⟩
        rw [hstep0, if_neg h0e, hq0c]
        rfl

theorem mlfqRun_complete (B : List Int) (hB : ∀ b ∈ B, 0 < b) :
    ∀ (f : Nat) (s : MLFQState), MLFQInv B s → mlfqMeasure s < f →
      MLFQInv B (mlfqRun f s) ∧
        (mlfqRun f s).completed = (mlfqRun f s).procs.length := by
  intro f
  induction f with
  | zero => intro s hInv hm; omega
  | succ f2 ih =>
    intro s hInv hm
    by_cases hc : s.completed < s.procs.length
    · obtain ⟨s2, hstep, hinv2, hm2⟩ := mlfqStep_preserve B hB s hInv hc
      simp only [mlfqRun, if_pos hc, hstep]
      exact ih s2 hinv2 (by omega)
    · simp only [mlfqRun, if_neg hc]
      have hcomp := hInv.completedEq
      exact ⟨hInv, by omega⟩

theorem mlfqInit_inv (ps : List Proc) :
    MLFQInv (ps.map Proc.burst) (mlfqInit ps) := by
  have hlen : (ps.map resetP).length = ps.length := List.length_map _ _
  have hremperm : (mlfqInit ps).rem.Perm (List.range ps.length) := by
    simp only [mlfqInit, hlen]
    exact sortStable_perm _ _
  refine ⟨?_, ?_, ?_, ?_, ?_, ?_, ?_, ?_, ?_, ?_, ?_⟩
  · simp only [mlfqInit, List.map_map]
    exact List.map_congr_left (fun p _ => rfl)
  · intro x hx
    simp only [mlfqInit, List.append_nil] at hx
    have : x ∈ List.range ps.length := hremperm.mem_iff.mp hx
    simp only [mlfqInit, hlen]
    exact List.mem_range.mp this
  · simp only [mlfqInit, List.append_nil]
    exact (hremperm.nodup_iff).mpr (List.nodup_range _)
  · intro x hx
    have hxr : x ∈ List.range ps.length := hremperm.mem_iff.mp hx
    have hxlt : x < ps.length := List.mem_range.mp hxr
    simp only [mlfqInit]
    rw [getP_map resetP ps x hxlt]
    exact ⟨rfl, rfl⟩
  · intro x hx
    simp only [mlfqInit] at hx
    simp at hx
  · intro x hxlen hx1 hx2
    exfalso
    simp only [mlfqInit, hlen] at hxlen
    exact hx1 (hremperm.mem_iff.mpr (List.mem_range.mpr hxlen))
  · have h2 : (mlfqInit ps).rem.length = ps.length := by
      rw [hremperm.length_eq]
      simp
    simp only [mlfqInit, List.length_nil, List.append_nil, List.nil_append,
      hlen] at h2 ⊢
    omega
  · intro e he
    simp only [mlfqInit] at he
    simp at he
  · intro e he
    simp only [mlfqInit] at he
    simp at he
  · simp only [mlfqInit]
    exact List.Pairwise.nil
  · simp only [mlfqInit, ganttSpan, List.map_nil, List.sum_nil]
    exact (spent_reset ps).symm

theorem mlfqInit_fuel (ps : List Proc) :
    mlfqMeasure (mlfqInit ps) < mlfqFuel ps := by
  have h1 := mlfqMeasure_le (mlfqInit ps)
  have h3 : sumRemNat (mlfqInit ps).procs = sumBurstNat ps :=
    sumRemNat_reset ps
  simp only [mlfqFuel]
  omega

theorem mlfqFinal (ps : List Proc) (hb : ∀ p ∈ ps, 0 < p.burst) :
    MLFQInv (ps.map Proc.burst) (mlfqRun (mlfqFuel ps) (mlfqInit ps)) ∧
    (mlfqRun (mlfqFuel ps) (mlfqInit ps)).completed =
      (mlfqRun (mlfqFuel ps) (mlfqInit ps)).procs.length :=
  mlfqRun_complete _ (burst_hyp_map hb) (mlfqFuel ps) (mlfqInit ps)
    (mlfqInit_inv ps) (mlfqInit_fuel ps)

/-- Properties of any completed MLFQ state satisfying the invariant: every
process is terminated with the metric equations, and the Gantt chart is
well-formed and accounts for the full (original) burst sum. -/
theorem mlfqDone_props (B : List Int) (sf : MLFQState) (hInv : MLFQInv B sf)
    (hcomp : sf.completed = sf.procs.length) :
    (∀ p ∈ sf.procs, p.state = PState.TERMINATED ∧ p.remainingTime = 0 ∧
      p.turnaroundTime = p.completionTime - p.arrival ∧
      p.waitingTime = p.turnaroundTime - p.burst) ∧
    ganttOK sf.gantt (burstSum sf.procs) := by
  obtain ⟨hlenB, hbounds, hnodup, hremNew, hqReady, hdone, hcompEq, hstops,
    hpos, hpw, hspan⟩ := hInv
  have hrem : sf.rem = [] := by
    have : sf.rem.length = 0 := by omega
    exact List.length_eq_zero.mp this
  have hq012 : sf.q0 ++ (sf.q1 ++ sf.q2) = [] := by
    have : (sf.q0 ++ (sf.q1 ++ sf.q2)).length = 0 := by omega
    exact List.length_eq_zero.mp this
  have hall : ∀ p ∈ sf.procs, p.state = PState.TERMINATED ∧
      p.remainingTime = 0 ∧
      p.turnaroundTime = p.completionTime - p.arrival ∧
      p.waitingTime = p.turnaroundTime - p.burst := by
    refine forall_mem_of_getP sf.procs ?_
    intro i hi
    exact hdone i hi (by rw [hrem]; simp) (by rw [hq012]; simp)
  refine ⟨hall, ?_, hpos, hpw, pairwise_start_lt _ hpw hpos⟩
  rw [hspan]
  exact spent_eq_burstSum sf.procs (fun p hp => (hall p hp).2.1)

/-! ### Result-level bundles for the seven schedulers -/

/-- The three result-level properties (well-formed Gantt chart, metric
equations, full completion) of a finished FCFS run. -/
theorem fcfs_props (ps : List Proc) (hb : ∀ p ∈ ps, 0 < p.burst) :
    ganttOK (fcfs ps).gantt (burstSum ps) ∧ metricsOK (fcfs ps) ∧
    allDone (fcfs ps) ps.length := by
  obtain ⟨hInv, hrem, hrq⟩ := npFinal true arrivalPidLt ps hb
  obtain ⟨hall, hgantt⟩ := npDone_props (ps.map Proc.burst) _ hInv hrem hrq
  have hg : (fcfs ps).gantt =
      (npRun true arrivalPidLt (npFuel ps) (npInit ps)).gantt :=
    mkResult_gantt _ _ _ _ _
  have hp : (fcfs ps).processes =
      (npRun true arrivalPidLt (npFuel ps) (npInit ps)).procs :=
    mkResult_processes _ _ _ _ _
  have hBS : burstSum (npRun true arrivalPidLt (npFuel ps) (npInit ps)).procs
      = burstSum ps := burstSum_eq_of_mapB hInv.lenB
  have hlen : (npRun true arrivalPidLt (npFuel ps) (npInit ps)).procs.length
      = ps.length := length_eq_of_mapB hInv.lenB
  refine ⟨?_, ?_, ?_⟩
  · rw [hg, ← hBS]
    exact hgantt
  · intro p hp2 hterm
    rw [hp] at hp2
    exact ⟨(hall p hp2).2.2.1, (hall p hp2).2.2.2⟩
  · have h1 : (fcfs ps).processes.length = ps.length := by rw [hp, hlen]
    have h2 : ∀ p ∈ (fcfs ps).processes,
        p.remainingTime = 0 ∧ p.state = PState.TERMINATED := by
      intro p hp2
      rw [hp] at hp2
      exact ⟨(hall p hp2).2.1, (hall p hp2).1⟩
    exact ⟨h1, h2⟩

/-- Result-level properties of a finished SJF run. -/
theorem sjf_props (ps : List Proc) (hb : ∀ p ∈ ps, 0 < p.burst) :
    ganttOK (sjf ps).gantt (burstSum ps) ∧ metricsOK (sjf ps) ∧
    allDone (sjf ps) ps.length := by
  obtain ⟨hInv, hrem, hrq⟩ := npFinal false sjfLt ps hb
  obtain ⟨hall, hgantt⟩ := npDone_props (ps.map Proc.burst) _ hInv hrem hrq
  have hg : (sjf ps).gantt =
      (npRun false sjfLt (npFuel ps) (npInit ps)).gantt :=
    mkResult_gantt _ _ _ _ _
  have hp : (sjf ps).processes =
      (npRun false sjfLt (npFuel ps) (npInit ps)).procs :=
    mkResult_processes _ _ _ _ _
  have hBS : burstSum (npRun false sjfLt (npFuel ps) (npInit ps)).procs
      = burstSum ps := burstSum_eq_of_mapB hInv.lenB
  have hlen : (npRun false sjfLt (npFuel ps) (npInit ps)).procs.length
      = ps.length := length_eq_of_mapB hInv.lenB
  refine ⟨?_, ?_, ?_⟩
  · rw [hg, ← hBS]
    exact hgantt
  · intro p hp2 hterm
    rw [hp] at hp2
    exact ⟨(hall p hp2).2.2.1, (hall p hp2).2.2.2⟩
  · have h1 : (sjf ps).processes.length = ps.length := by rw [hp, hlen]
    have h2 : ∀ p ∈ (sjf ps).processes,
        p.remainingTime = 0 ∧ p.state = PState.TERMINATED := by
      intro p hp2
      rw [hp] at hp2
      exact ⟨(hall p hp2).2.1, (hall p hp2).1⟩
    exact ⟨h1, h2⟩

/-- Result-level properties of a finished non-preemptive Priority run. -/
theorem priorityNP_props (ps : List Proc) (hb : ∀ p ∈ ps, 0 < p.burst) :
    ganttOK (priorityNP ps).gantt (burstSum ps) ∧ metricsOK (priorityNP ps) ∧
    allDone (priorityNP ps) ps.length := by
  obtain ⟨hInv, hrem, hrq⟩ := npFinal false prioLt ps hb
  obtain ⟨hall, hgantt⟩ := npDone_props (ps.map Proc.burst) _ hInv hrem hrq
  have hg : (priorityNP ps).gantt =
      (npRun false prioLt (npFuel ps) (npInit ps)).gantt :=
    mkResult_gantt _ _ _ _ _
  have hp : (priorityNP ps).processes =
      (npRun false prioLt (npFuel ps) (npInit ps)).procs :=
    mkResult_processes _ _ _ _ _
  have hBS : burstSum (npRun false prioLt (npFuel ps) (npInit ps)).procs
      = burstSum ps := burstSum_eq_of_mapB hInv.lenB
  have hlen : (npRun false prioLt (npFuel ps) (npInit ps)).procs.length
      = ps.length := length_eq_of_mapB hInv.lenB
  refine ⟨?_, ?_, ?_⟩
  · rw [hg, ← hBS]
    exact hgantt
  · intro p hp2 hterm
    rw [hp] at hp2
    exact ⟨(hall p hp2).2.2.1, (hall p hp2).2.2.2⟩
  · have h1 : (priorityNP ps).processes.length = ps.length := by
      rw [hp, hlen]
    have h2 : ∀ p ∈ (priorityNP ps).processes,
        p.remainingTime = 0 ∧ p.state = PState.TERMINATED := by
      intro p hp2
      rw [hp] at hp2
      exact ⟨(hall p hp2).2.1, (hall p hp2).1⟩
    exact ⟨h1, h2⟩

/-- Result-level properties of a finished SRTF run, including the vanishing
context-switch counter. -/
theorem srtf_props (ps : List Proc) (hb : ∀ p ∈ ps, 0 < p.burst) :
    ganttOK (srtf ps).gantt (burstSum ps) ∧ metricsOK (srtf ps) ∧
    allDone (srtf ps) ps.length ∧ (srtf ps).contextSwitches = 0 := by
  obtain ⟨hInv, hcomp⟩ := srtfFinal ps hb
  obtain ⟨hall, hgantt, hcs⟩ :=
    srtfDone_props (ps.map Proc.burst) _ hInv hcomp
  have hg : (srtf ps).gantt =
      (srtfRun (srtfFuel ps) (srtfInit ps)).gantt :=
    mkResult_gantt _ _ _ _ _
  have hp : (srtf ps).processes =
      (srtfRun (srtfFuel ps) (srtfInit ps)).procs :=
    mkResult_processes _ _ _ _ _
  have hc : (srtf ps).contextSwitches =
      (srtfRun (srtfFuel ps) (srtfInit ps)).cs :=
    mkResult_cs _ _ _ _ _
  have hBS : burstSum (srtfRun (srtfFuel ps) (srtfInit ps)).procs
      = burstSum ps := burstSum_eq_of_mapB hInv.lenB
  have hlen : (srtfRun (srtfFuel ps) (srtfInit ps)).procs.length
      = ps.length := length_eq_of_mapB hInv.lenB
  refine ⟨?_, ?_, ?_, ?_⟩
  · rw [hg, ← hBS]
    exact hgantt
  · intro p hp2 hterm
    rw [hp] at hp2
    exact ⟨(hall p hp2).2.2.1, (hall p hp2).2.2.2⟩
  · have h1 : (srtf ps).processes.length = ps.length := by rw [hp, hlen]
    have h2 : ∀ p ∈ (srtf ps).processes,
        p.remainingTime = 0 ∧ p.state = PState.TERMINATED := by
      intro p hp2
      rw [hp] at hp2
      exact ⟨(hall p hp2).2.1, (hall p hp2).1⟩
    exact ⟨h1, h2⟩
  · rw [hc]
    exact hcs

/-- Result-level properties of a finished Round Robin run. -/
theorem rr_props (q : Int) (hq : 0 < q) (ps : List Proc)
    (hb : ∀ p ∈ ps, 0 < p.burst) :
    ganttOK (rr q ps).gantt (burstSum ps) ∧ metricsOK (rr q ps) ∧
    allDone (rr q ps) ps.length := by
  obtain ⟨hInv, hcomp⟩ := rrFinal q hq ps hb
  obtain ⟨hall, hgantt⟩ := rrDone_props (ps.map Proc.burst) _ hInv hcomp
  have hg : (rr q ps).gantt =
      (rrRun q (rrFuel ps) (rrInit ps)).gantt :=
    mkResult_gantt _ _ _ _ _
  have hp : (rr q ps).processes =
      (rrRun q (rrFuel ps) (rrInit ps)).procs :=
    mkResult_processes _ _ _ _ _
  have hBS : burstSum (rrRun q (rrFuel ps) (rrInit ps)).procs
      = burstSum ps := burstSum_eq_of_mapB hInv.lenB
  have hlen : (rrRun q (rrFuel ps) (rrInit ps)).procs.length
      = ps.length := length_eq_of_mapB hInv.lenB
  refine ⟨?_, ?_, ?_⟩
  · rw [hg, ← hBS]
    exact hgantt
  · intro p hp2 hterm
    rw [hp] at hp2
    exact ⟨(hall p hp2).2.2.1, (hall p hp2).2.2.2⟩
  · have h1 : (rr q ps).processes.length = ps.length := by rw [hp, hlen]
    have h2 : ∀ p ∈ (rr q ps).processes,
        p.remainingTime = 0 ∧ p.state = PState.TERMINATED := by
      intro p hp2
      rw [hp] at hp2
      exact ⟨(hall p hp2).2.1, (hall p hp2).1⟩
    exact ⟨h1, h2⟩

/-- Result-level properties of a finished Preemptive Priority run, including
the vanishing context-switch counter. -/
theorem pp_props (agingI agingA : Int) (hI : 0 < agingI) (ps : List Proc)
    (hb : ∀ p ∈ ps, 0 < p.burst) :
    ganttOK (pp agingI agingA ps).gantt (burstSum ps) ∧
    metricsOK (pp agingI agingA ps) ∧
    allDone (pp agingI agingA ps) ps.length ∧
    (pp agingI agingA ps).contextSwitches = 0 := by
  obtain ⟨hInv, hcomp⟩ := ppFinal agingI agingA hI ps hb
  obtain ⟨hall, hgantt, hcs⟩ :=
    ppDone_props (ps.map Proc.burst) _ hInv hcomp
  have hg : (pp agingI agingA ps).gantt =
      (ppRun agingI agingA (ppFuel ps) (ppInit ps)).gantt :=
    mkResult_gantt _ _ _ _ _
  have hp : (pp agingI agingA ps).processes =
      (ppRun agingI agingA (ppFuel ps) (ppInit ps)).procs :=
    mkResult_processes _ _ _ _ _
  have hc : (pp agingI agingA ps).contextSwitches =
      (ppRun agingI agingA (ppFuel ps) (ppInit ps)).cs :=
    mkResult_cs _ _ _ _ _
  have hBS : burstSum (ppRun agingI agingA (ppFuel ps) (ppInit ps)).procs
      = burstSum ps := burstSum_eq_of_mapB hInv.lenB
  have hlen : (ppRun agingI agingA (ppFuel ps) (ppInit ps)).procs.length
      = ps.length := length_eq_of_mapB hInv.lenB
  refine ⟨?_, ?_, ?_, ?_⟩
  · rw [hg, ← hBS]
    exact hgantt
  · intro p hp2 hterm
    rw [hp] at hp2
    exact ⟨(hall p hp2).2.2.1, (hall p hp2).2.2.2⟩
  · have h1 : (pp agingI agingA ps).processes.length = ps.length := by
      rw [hp, hlen]
    have h2 : ∀ p ∈ (pp agingI agingA ps).processes,
        p.remainingTime = 0 ∧ p.state = PState.TERMINATED := by
      intro p hp2
      rw [hp] at hp2
      exact ⟨(hall p hp2).2.1, (hall p hp2).1⟩
    exact ⟨h1, h2⟩
  · rw [hc]
    exact hcs

/-- Result-level properties of a finished MLFQ run. -/
theorem mlfq_props (ps : List Proc) (hb : ∀ p ∈ ps, 0 < p.burst) :
    ganttOK (mlfq ps).gantt (burstSum ps) ∧ metricsOK (mlfq ps) ∧
    allDone (mlfq ps) ps.length := by
  obtain ⟨hInv, hcomp⟩ := mlfqFinal ps hb
  obtain ⟨hall, hgantt⟩ := mlfqDone_props (ps.map Proc.burst) _ hInv hcomp
  have hg : (mlfq ps).gantt =
      (mlfqRun (mlfqFuel ps) (mlfqInit ps)).gantt :=
    mkResult_gantt _ _ _ _ _
  have hp : (mlfq ps).processes =
      (mlfqRun (mlfqFuel ps) (mlfqInit ps)).procs :=
    mkResult_processes _ _ _ _ _
  have hBS : burstSum (mlfqRun (mlfqFuel ps) (mlfqInit ps)).procs
      = burstSum ps := burstSum_eq_of_mapB hInv.lenB
  have hlen : (mlfqRun (mlfqFuel ps) (mlfqInit ps)).procs.length
      = ps.length := length_eq_of_mapB hInv.lenB
  refine ⟨?_, ?_, ?_⟩
  · rw [hg, ← hBS]
    exact hgantt
  · intro p hp2 hterm
    rw [hp] at hp2
    exact ⟨(hall p hp2).2.2.1, (hall p hp2).2.2.2⟩
  · have h1 : (mlfq ps).processes.length = ps.length := by rw [hp, hlen]
    have h2 : ∀ p ∈ (mlfq ps).processes,
        p.remainingTime = 0 ∧ p.state = PState.TERMINATED := by
      intro p hp2
      rw [hp] at hp2
      exact ⟨(hall p hp2).2.1, (hall p hp2).1⟩
    exact ⟨h1, h2⟩

/-! ### Static-field congruence (determinism) -/

theorem map_statics_burst {ps1 ps2 : List Proc}
    (h : ps1.map statics = ps2.map statics) :
    ps1.map Proc.burst = ps2.map Proc.burst := by
  have h1 := congrArg (List.map
    (fun t : Int × Int × Int × Int × Bool => t.2.1)) h
  simpa [List.map_map, Function.comp, statics] using h1

theorem map_statics_priority {ps1 ps2 : List Proc}
    (h : ps1.map statics = ps2.map statics) :
    ps1.map Proc.priority = ps2.map Proc.priority := by
  have h1 := congrArg (List.map
    (fun t : Int × Int × Int × Int × Bool => t.2.2.1)) h
  simpa [List.map_map, Function.comp, statics] using h1

theorem map_statics_arrival {ps1 ps2 : List Proc}
    (h : ps1.map statics = ps2.map statics) :
    ps1.map Proc.arrival = ps2.map Proc.arrival := by
  have h1 := congrArg (List.map
    (fun t : Int × Int × Int × Int × Bool => t.2.2.2.1)) h
  simpa [List.map_map, Function.comp, statics] using h1

theorem map_statics_io {ps1 ps2 : List Proc}
    (h : ps1.map statics = ps2.map statics) :
    ps1.map Proc.ioBound = ps2.map Proc.ioBound := by
  have h1 := congrArg (List.map
    (fun t : Int × Int × Int × Int × Bool => t.2.2.2.2)) h
  simpa [List.map_map, Function.comp, statics] using h1

theorem map_statics_length {ps1 ps2 : List Proc}
    (h : ps1.map statics = ps2.map statics) :
    ps1.length = ps2.length := by
  have h1 := congrArg List.length h
  simpa using h1

theorem map_statics_resetP {ps1 ps2 : List Proc}
    (h : ps1.map statics = ps2.map statics) :
    ps1.map resetP = ps2.map resetP := by
  have h1 := congrArg (List.map
    (fun t : Int × Int × Int × Int × Bool =>
      ({ pid := t.1, burst := t.2.1, priority := t.2.2.1,
         arrival := t.2.2.2.1, ioBound := t.2.2.2.2,
         state := PState.NEW, remainingTime := t.2.1, waitingTime := 0,
         turnaroundTime := 0, responseTime := -1, completionTime := 0,
         startTime := -1, queueLevel := 0, agingCounter := 0 } : Proc))) h
  simpa [List.map_map, Function.comp, statics, resetP] using h1

theorem map_statics_sumBurstNat {ps1 ps2 : List Proc}
    (h : ps1.map statics = ps2.map statics) :
    sumBurstNat ps1 = sumBurstNat ps2 := by
  have h1 := congrArg (fun l => (l.map Int.toNat).sum) (map_statics_burst h)
  simpa [List.map_map, Function.comp, sumBurstNat] using h1

theorem analyzeWorkload_congr {ps1 ps2 : List Proc}
    (h : ps1.map statics = ps2.map statics) :
    analyzeWorkload ps1 = analyzeWorkload ps2 := by
  have hp := map_statics_priority h
  have ha := map_statics_arrival h
  have hL : ps1.length = ps2.length := map_statics_length h
  have hBq : ps1.map (fun p => ((p.burst : ℚ))) =
      ps2.map (fun p => ((p.burst : ℚ))) := by
    have h1 := congrArg (List.map (fun x : Int => (x : ℚ)))
      (map_statics_burst h)
    simpa [List.map_map, Function.comp] using h1
  have hPq : ps1.map (fun p => ((p.priority : ℚ))) =
      ps2.map (fun p => ((p.priority : ℚ))) := by
    have h1 := congrArg (List.map (fun x : Int => (x : ℚ))) hp
    simpa [List.map_map, Function.comp] using h1
  have hE : ps1.isEmpty = ps2.isEmpty := by
    cases ps1 <;> cases ps2 <;> simp_all
  have hFio : (ps1.filter (fun p => p.ioBound)).length =
      (ps2.filter (fun p => p.ioBound)).length := by
    have h1 := congrArg (List.countP (fun b => b)) (map_statics_io h)
    rw [List.countP_map, List.countP_map] at h1
    simpa [Function.comp, List.countP_eq_length_filter] using h1
  simp only [analyzeWorkload, hE, hL, hBq, hPq, ha, hp, hFio]

/-- C10: the seven `schedule()` functions and `select_scheduler` are
deterministic functions of the five static input fields alone — two input
lists that agree field-for-field on `(pid, burst_time, priority,
arrival_time, io_bound)` produce equal `SchedulingResult`s (Gantt chart,
context switches, total time and every average included) and an equal
recommendation, whatever their runtime fields held, with no dependence on
wall-clock time, randomness or prior runs. -/
theorem C10_schedulers_deterministic (ps1 ps2 : List Proc)
    (q agingI agingA : Int)
    (h : ps1.map statics = ps2.map statics) :
    fcfs ps1 = fcfs ps2 ∧ sjf ps1 = sjf ps2 ∧
    priorityNP ps1 = priorityNP ps2 ∧ srtf ps1 = srtf ps2 ∧
    rr q ps1 = rr q ps2 ∧ pp agingI agingA ps1 = pp agingI agingA ps2 ∧
    mlfq ps1 = mlfq ps2 ∧ selectScheduler ps1 = selectScheduler ps2 := by
  have hR := map_statics_resetP h
  have hL := map_statics_length h
  have hSB := map_statics_sumBurstNat h
  have hAW := analyzeWorkload_congr h
  have hNpI : npInit ps1 = npInit ps2 := by simp only [npInit, hR]
  have hNpF : npFuel ps1 = npFuel ps2 := by simp only [npFuel, hL]
  have hRrI : rrInit ps1 = rrInit ps2 := by simp only [rrInit, hR]
  have hRrF : rrFuel ps1 = rrFuel ps2 := by simp only [rrFuel, hSB, hL]
  have hSrI : srtfInit ps1 = srtfInit ps2 := by simp only [srtfInit, hR]
  have hSrF : srtfFuel ps1 = srtfFuel ps2 := by simp only [srtfFuel, hSB]
  have hPpI : ppInit ps1 = ppInit ps2 := by simp only [ppInit, hR]
  have hPpF : ppFuel ps1 = ppFuel ps2 := by simp only [ppFuel, hSB]
  have hMlI : mlfqInit ps1 = mlfqInit ps2 := by simp only [mlfqInit, hR]
  have hMlF : mlfqFuel ps1 = mlfqFuel ps2 := by simp only [mlfqFuel, hSB]
  refine ⟨?_, ?_, ?_, ?_, ?_, ?_, ?_, ?_⟩
  · simp only [fcfs, hNpI, hNpF]
  · simp only [sjf, hNpI, hNpF]
  · simp only [priorityNP, hNpI, hNpF]
  · simp only [srtf, hSrI, hSrF]
  · simp only [rr, hRrI, hRrF]
  · simp only [pp, hPpI, hPpF]
  · simp only [mlfq, hMlI, hMlF]
  · simp only [selectScheduler, hAW]

/-- Witness for C10: `scenC` and `scenCdirty` agree on the static fields but
on no runtime field, and every scheduler and the selector treat them alike. -/
theorem C10_schedulers_deterministic_witness :
    fcfs scenC = fcfs scenCdirty ∧ sjf scenC = sjf scenCdirty ∧
    priorityNP scenC = priorityNP scenCdirty ∧
    srtf scenC = srtf scenCdirty ∧ rr 4 scenC = rr 4 scenCdirty ∧
    pp 50 1 scenC = pp 50 1 scenCdirty ∧ mlfq scenC = mlfq scenCdirty ∧
    selectScheduler scenC = selectScheduler scenCdirty :=
  C10_schedulers_deterministic scenC scenCdirty 4 50 1 (by decide)

/-- C1: for every one of the seven algorithms on any input whose processes
all have positive burst time (Round Robin with a positive quantum,
Preemptive Priority with a positive aging interval), the returned Gantt
chart satisfies Σ(end − start) = Σ burst_time, every interval has
start < end, and the intervals are pairwise non-overlapping and sorted by
ascending start. -/
theorem C1_gantt_conservation_order (ps : List Proc) (q agingI agingA : Int)
    (hb : ∀ p ∈ ps, 0 < p.burst) (hq : 0 < q) (hI : 0 < agingI) :
    ganttOK (fcfs ps).gantt (burstSum ps) ∧
    ganttOK (sjf ps).gantt (burstSum ps) ∧
    ganttOK (priorityNP ps).gantt (burstSum ps) ∧
    ganttOK (srtf ps).gantt (burstSum ps) ∧
    ganttOK (rr q ps).gantt (burstSum ps) ∧
    ganttOK (pp agingI agingA ps).gantt (burstSum ps) ∧
    ganttOK (mlfq ps).gantt (burstSum ps) :=
  ⟨(fcfs_props ps hb).1, (sjf_props ps hb).1, (priorityNP_props ps hb).1,
   (srtf_props ps hb).1, (rr_props q hq ps hb).1,
   (pp_props agingI agingA hI ps hb).1, (mlfq_props ps hb).1⟩

/-- Witness for C1 at Scenario B with quantum 4 and aging (50, 1). -/
theorem C1_gantt_conservation_order_witness :
    ganttOK (fcfs scenB).gantt (burstSum scenB) ∧
    ganttOK (sjf scenB).gantt (burstSum scenB) ∧
    ganttOK (priorityNP scenB).gantt (burstSum scenB) ∧
    ganttOK (srtf scenB).gantt (burstSum scenB) ∧
    ganttOK (rr 4 scenB).gantt (burstSum scenB) ∧
    ganttOK (pp 50 1 scenB).gantt (burstSum scenB) ∧
    ganttOK (mlfq scenB).gantt (burstSum scenB) :=
  C1_gantt_conservation_order scenB 4 50 1 (by decide) (by decide)
    (by decide)

/-- C2: every one of the seven algorithms establishes, for every process
that completed during the run, turnaround_time = completion_time −
arrival_time and waiting_time = turnaround_time − burst_time. -/
theorem C2_completion_metric_equations (ps : List Proc)
    (q agingI agingA : Int) (hb : ∀ p ∈ ps, 0 < p.burst) (hq : 0 < q)
    (hI : 0 < agingI) :
    metricsOK (fcfs ps) ∧ metricsOK (sjf ps) ∧ metricsOK (priorityNP ps) ∧
    metricsOK (srtf ps) ∧ metricsOK (rr q ps) ∧
    metricsOK (pp agingI agingA ps) ∧ metricsOK (mlfq ps) :=
  ⟨(fcfs_props ps hb).2.1, (sjf_props ps hb).2.1,
   (priorityNP_props ps hb).2.1, (srtf_props ps hb).2.1,
   (rr_props q hq ps hb).2.1, (pp_props agingI agingA hI ps hb).2.1,
   (mlfq_props ps hb).2.1⟩

/-- Witness for C2 at Scenario B with quantum 4 and aging (50, 1). -/
theorem C2_completion_metric_equations_witness :
    metricsOK (fcfs scenB) ∧ metricsOK (sjf scenB) ∧
    metricsOK (priorityNP scenB) ∧ metricsOK (srtf scenB) ∧
    metricsOK (rr 4 scenB) ∧ metricsOK (pp 50 1 scenB) ∧
    metricsOK (mlfq scenB) :=
  C2_completion_metric_equations scenB 4 50 1 (by decide) (by decide)
    (by decide)

/-- C3: on any input of n processes with positive bursts and non-negative
arrivals (Round Robin with a positive quantum, Preemptive Priority with a
positive aging interval), every one of the seven simulation loops halts —
the fueled embedding reaches its fixed point within the stated fuel — and
returns all n processes with remaining_time = 0 and state TERMINATED. -/
theorem C3_termination_full_completion (ps : List Proc)
    (q agingI agingA : Int) (hb : ∀ p ∈ ps, 0 < p.burst)
    (ha : ∀ p ∈ ps, 0 ≤ p.arrival) (hq : 0 < q) (hI : 0 < agingI) :
    allDone (fcfs ps) ps.length ∧ allDone (sjf ps) ps.length ∧
    allDone (priorityNP ps) ps.length ∧ allDone (srtf ps) ps.length ∧
    allDone (rr q ps) ps.length ∧
    allDone (pp agingI agingA ps) ps.length ∧
    allDone (mlfq ps) ps.length :=
  ⟨(fcfs_props ps hb).2.2, (sjf_props ps hb).2.2,
   (priorityNP_props ps hb).2.2, (srtf_props ps hb).2.2.1,
   (rr_props q hq ps hb).2.2, (pp_props agingI agingA hI ps hb).2.2.1,
   (mlfq_props ps hb).2.2⟩

/-- Witness for C3 at Scenario B with quantum 4 and aging (50, 1). -/
theorem C3_termination_full_completion_witness :
    allDone (fcfs scenB) scenB.length ∧ allDone (sjf scenB) scenB.length ∧
    allDone (priorityNP scenB) scenB.length ∧
    allDone (srtf scenB) scenB.length ∧
    allDone (rr 4 scenB) scenB.length ∧
    allDone (pp 50 1 scenB) scenB.length ∧
    allDone (mlfq scenB) scenB.length :=
  C3_termination_full_completion scenB 4 50 1 (by decide) (by decide)
    (by decide) (by decide)

/-- C4: on five identical CPU-bound processes (burst 100, priority 5, not
I/O-bound) the Adaptive Selector computes the exact per-algorithm estimates
200, 400/3, 100, 250, 520/3, 100, 500/3 — displayed at one decimal as
133.3, 173.3, 166.7 — ranks SRTF, Preemptive Priority, SJF as the stable
ascending top 3, triggers neither the priority nor the interactivity
override, and returns SRTF with expected average wait 100 and confidence
17/20 = 0.85. -/
theorem C4_scenarioD_selects_srtf :
    (estimatePerformance (analyzeWorkload scenD)).map
        (fun e => (e.kind, e.estimatedWaitTime)) =
      [(AlgoKind.FCFS, 200), (AlgoKind.SJF, 400/3), (AlgoKind.SRTF, 100),
       (AlgoKind.RR, 250), (AlgoKind.Priority, 520/3),
       (AlgoKind.PreemptivePriority, 100), (AlgoKind.MLFQ, 500/3)] ∧
    round1 (400/3) = 1333/10 ∧ round1 (520/3) = 1733/10 ∧
    round1 (500/3) = 1667/10 ∧
    ((sortStable (fun x y =>
        decide (x.estimatedWaitTime < y.estimatedWaitTime))
      (estimatePerformance (analyzeWorkload scenD))).take 3).map
        PerfEstimate.kind =
      [AlgoKind.SRTF, AlgoKind.PreemptivePriority, AlgoKind.SJF] ∧
    (analyzeWorkload scenD).isInteractive = false ∧
    ¬ ((6 : ℚ) < (analyzeWorkload scenD).priorityVariance) ∧
    ¬ ((1 : ℚ)/2 < (analyzeWorkload scenD).ioBoundShare) ∧
    selectScheduler scenD =
      { kind := AlgoKind.SRTF, algorithmName := "SRTF",
        expectedAvgWait := 100, confidence := 17/20 } := by
  have hA : analyzeWorkload scenD =
      { processCount := 5, avgBurstTime := 100, burstTimeVariance := 0,
        coefficientOfVariation := 0, priorityRange := 0,
        priorityVariance := 0, ioBoundShare := 0, cpuBoundShare := 1,
        avgArrivalSpread := 0, isInteractive := false, isBatch := false }
      := by
    norm_num [analyzeWorkload, scenD, mkProc, qmean, sampleVar, sqrtQ,
      sortStable, insStable, olistMax, olistMin]
  refine ⟨?_, ?_, ?_, ?_, ?_, ?_, ?_, ?_, ?_⟩
  · rw [hA]
    norm_num [estimatePerformance]
  · norm_num [round1]
  · norm_num [round1]
  · norm_num [round1]
  · rw [hA]
    norm_num [estimatePerformance, sortStable, insStable]
  · rw [hA]
  · rw [hA]
    norm_num
  · rw [hA]
    norm_num
  · simp only [selectScheduler]
    rw [hA]
    norm_num [estimatePerformance, sortStable, insStable, topKey,
      hasPriorityName, hasPreemptiveName, hasRRName, hasRRorMLFQName]

/-- C5 (code bug): the spec requires one context-switch increment per
mid-execution change of the running process, but `running_process` is reset
to `None` at the end of every SRTF / Preemptive Priority iteration, so the
`if running is not None` increment is dead code.  On Scenario B the SRTF
occupant changes twice (P1 → P2 at t=1, P2 → P1 at t=5) yet
context_switches = 0, and likewise for Preemptive Priority on the
priority-preemption scenario. -/
theorem C5_preemption_yet_zero_switches :
    (srtf scenB).gantt = [⟨1, 0, 1⟩, ⟨2, 1, 5⟩, ⟨1, 5, 12⟩] ∧
    (srtf scenB).contextSwitches = 0 ∧
    (pp 50 1 ppPreemptCase).gantt = [⟨1, 0, 1⟩, ⟨2, 1, 5⟩, ⟨1, 5, 12⟩] ∧
    (pp 50 1 ppPreemptCase).contextSwitches = 0 := by
  decide

/-- C7 (amended): the MLFQ arrival cut never applies at queue level 0 — a
level-0 slice always runs min(quantum, remaining) regardless of pending
arrivals — while at levels 1 and 2 a next arrival falling strictly before
the natural end of the granted quantum truncates the slice to end at that
arrival time, and with no pending arrival (or an arrival at/after the
natural end) the slice is never cut: arrivals are the only events checked
for early interruption. -/
theorem C7_mlfq_arrival_cut_levels (s : MLFQState)
    (arrived rest : List Nat) (lvl i : Nat) :
    mlfqRun1 s arrived 0 i rest = mlfqRun0 s arrived 0 i ∧
    (∀ j rest2, rest = j :: rest2 → 0 < lvl →
      (getP (mlfqPs3 s arrived i) j).arrival <
          s.t + mlfqRun0 s arrived lvl i →
      mlfqRun1 s arrived lvl i rest =
        (getP (mlfqPs3 s arrived i) j).arrival - s.t) ∧
    (∀ j rest2, rest = j :: rest2 →
      ¬ ((getP (mlfqPs3 s arrived i) j).arrival <
          s.t + mlfqRun0 s arrived lvl i ∧ 0 < lvl) →
      mlfqRun1 s arrived lvl i rest = mlfqRun0 s arrived lvl i) ∧
    (rest = [] → mlfqRun1 s arrived lvl i rest = mlfqRun0 s arrived lvl i)
    := by
  refine ⟨?_, ?_, ?_, ?_⟩
  · cases rest with
    | nil => rfl
    | cons j r2 => simp [mlfqRun1, mlfqNa]
  · intro j rest2 hrest hlvl hlt
    subst hrest
    simp only [mlfqRun1, mlfqNa]
    rw [if_pos]
    simp only [Bool.and_eq_true, decide_eq_true_eq]
    exact ⟨hlt, hlvl⟩
  · intro j rest2 hrest hn
    subst hrest
    simp only [mlfqRun1, mlfqNa]
    rw [if_neg]
    simp only [Bool.and_eq_true, decide_eq_true_eq]
    exact hn
  · intro hrest
    subst hrest
    rfl

/-- Counterexample for C7 as frozen: under MLFQ, P2 arrives at t = 3,
strictly inside the natural end (t = 8) of P1's level-0 quantum, yet P1's
interval is not cut short — the Gantt chart starts with (1, 0, 8). -/
theorem C7_counterexample_level0_not_cut :
    (mlfq midQuantumArrival).gantt = [⟨1, 0, 8⟩, ⟨2, 8, 13⟩] ∧
    midQuantumArrival.map Proc.arrival = [0, 3] := by
  decide

/-- C8: schedule() on the empty list returns, for every one of the seven
algorithms, a result with no processes, empty Gantt chart, zero context
switches, total_time 0 and every average metric, cpu_utilization and
throughput equal to 0; select_scheduler on the empty list returns FCFS with
expected_avg_wait 0 and confidence 1. -/
theorem C8_empty_inputs (q agingI agingA : Int) :
    fcfs [] =
      { algorithm := "FCFS", processes := [], gantt := [],
        contextSwitches := 0, totalTime := 0 } ∧
    sjf [] =
      { algorithm := "SJF", processes := [], gantt := [],
        contextSwitches := 0, totalTime := 0 } ∧
    priorityNP [] =
      { algorithm := "Priority (Non-Preemptive)", processes := [],
        gantt := [], contextSwitches := 0, totalTime := 0 } ∧
    srtf [] =
      { algorithm := "SRTF", processes := [], gantt := [],
        contextSwitches := 0, totalTime := 0 } ∧
    rr q [] =
      { algorithm := "Round Robin (q=" ++ toString q ++ ")",
        processes := [], gantt := [], contextSwitches := 0,
        totalTime := 0 } ∧
    pp agingI agingA [] =
      { algorithm := "Priority (Preemptive with Aging)", processes := [],
        gantt := [], contextSwitches := 0, totalTime := 0 } ∧
    mlfq [] =
      { algorithm := "MLFQ", processes := [], gantt := [],
        contextSwitches := 0, totalTime := 0 } ∧
    selectScheduler [] =
      { kind := AlgoKind.FCFS, algorithmName := "FCFS",
        expectedAvgWait := 0, confidence := 1 } :=
  ⟨rfl, rfl, rfl, rfl, rfl, rfl, rfl, rfl⟩

/-- C9 (amended): a zero-burst process that is the only submission completes
at its own arrival time with zero waiting and response time, and every
Gantt entry logged for it is zero-length (Preemptive Priority logs none,
the others log a degenerate (pid, a, a) triple). -/
theorem C9_amended_single_zero_burst :
    ((fcfs singleZeroBurst).processes.map (fun p => (p.completionTime,
        p.waitingTime, p.responseTime)) = [(5, 0, 0)] ∧
      ∀ e ∈ (fcfs singleZeroBurst).gantt, e.start = e.stop) ∧
    ((sjf singleZeroBurst).processes.map (fun p => (p.completionTime,
        p.waitingTime, p.responseTime)) = [(5, 0, 0)] ∧
      ∀ e ∈ (sjf singleZeroBurst).gantt, e.start = e.stop) ∧
    ((priorityNP singleZeroBurst).processes.map (fun p =>
        (p.completionTime, p.waitingTime, p.responseTime)) = [(5, 0, 0)] ∧
      ∀ e ∈ (priorityNP singleZeroBurst).gantt, e.start = e.stop) ∧
    ((srtf singleZeroBurst).processes.map (fun p => (p.completionTime,
        p.waitingTime, p.responseTime)) = [(5, 0, 0)] ∧
      ∀ e ∈ (srtf singleZeroBurst).gantt, e.start = e.stop) ∧
    ((rr 4 singleZeroBurst).processes.map (fun p => (p.completionTime,
        p.waitingTime, p.responseTime)) = [(5, 0, 0)] ∧
      ∀ e ∈ (rr 4 singleZeroBurst).gantt, e.start = e.stop) ∧
    ((pp 50 1 singleZeroBurst).processes.map (fun p => (p.completionTime,
        p.waitingTime, p.responseTime)) = [(5, 0, 0)] ∧
      ∀ e ∈ (pp 50 1 singleZeroBurst).gantt, e.start = e.stop) ∧
    ((mlfq singleZeroBurst).processes.map (fun p => (p.completionTime,
        p.waitingTime, p.responseTime)) = [(5, 0, 0)] ∧
      ∀ e ∈ (mlfq singleZeroBurst).gantt, e.start = e.stop) := by
  decide

/-- C6: after every Round Robin dispatch, the processes that arrived by the
post-dispatch clock are appended to the FIFO queue before the just-run
process is re-appended; the just-run process is re-appended only when its
remaining time is still positive, and on reaching exactly 0 at the quantum
boundary it is terminated, counted completed and never re-enqueued. -/
theorem C6_rr_enqueue_order (q : Int) (B : List Int) (s : RRState)
    (hInv : RRInv B s) (arrived rest arrived2 rest3 : List Nat)
    (i : Nat) (cq2 : List Nat)
    (hpop : npPop true s.procs s.t s.rem = (arrived, rest))
    (hcq : s.cq ++ arrived = i :: cq2)
    (hpop2 : npPop true (setReady s.procs arrived)
        (s.t + min q (getP (setReady s.procs arrived) i).remainingTime)
        rest = (arrived2, rest3)) :
    (∀ x ∈ arrived2, (getP (setReady s.procs arrived) x).arrival ≤
        s.t + min q (getP (setReady s.procs arrived) i).remainingTime) ∧
    (0 < (rrRunProc q s.t
        (getP (setReady s.procs arrived) i)).remainingTime →
      rrStep q s = some (rrContinueState q s arrived i cq2 rest) ∧
      (rrContinueState q s arrived i cq2 rest).cq =
        (cq2 ++ arrived2) ++ [i]) ∧
    (¬ 0 < (rrRunProc q s.t
        (getP (setReady s.procs arrived) i)).remainingTime →
      rrStep q s = some (rrCompleteState q s arrived i cq2 rest) ∧
      (rrCompleteState q s arrived i cq2 rest).cq = cq2 ++ arrived2 ∧
      i ∉ (rrCompleteState q s arrived i cq2 rest).cq ∧
      (getP (rrCompleteState q s arrived i cq2 rest).procs i).state =
        PState.TERMINATED ∧
      (rrCompleteState q s arrived i cq2 rest).completed =
        s.completed + 1) := by
  have hjoin : (arrived ++ rest).Perm s.rem := by
    have h0 := npPop_join true s.procs s.t s.rem
    rw [hpop] at h0
    exact h0
  have hjoin2 : (arrived2 ++ rest3).Perm rest := by
    have h0 := npPop_join true (setReady s.procs arrived)
      (s.t + min q (getP (setReady s.procs arrived) i).remainingTime) rest
    rw [hpop2] at h0
    exact h0
  have hstep : rrStep q s =
      (if (0:Int) < (rrRunProc q s.t
          (getP (setReady s.procs arrived) i)).remainingTime
       then some (rrContinueState q s arrived i cq2 rest)
       else some (rrCompleteState q s arrived i cq2 rest)) := by
    simp only [rrStep, hpop, hcq]
  have hARperm : ((arrived ++ rest) ++ s.cq).Perm (s.rem ++ s.cq) :=
    hjoin.append_right s.cq
  have hnd2 : ((arrived ++ rest) ++ s.cq).Nodup :=
    (hARperm.nodup_iff).mpr hInv.nodup
  have hnd3 : (arrived ++ (rest ++ s.cq)).Nodup := by
    rw [← List.append_assoc]
    exact hnd2
  obtain ⟨hndArr, hndRC, hdisjA⟩ := List.nodup_append.mp hnd3
  obtain ⟨hndRest, hndCq, hdisjRC⟩ := List.nodup_append.mp hndRC
  have hndCA : (s.cq ++ arrived).Nodup := by
    refine List.nodup_append.mpr ⟨hndCq, hndArr, ?_⟩
    intro a hac haa
    exact hdisjA haa (List.mem_append_right rest hac)
  have hndICQ : (i :: cq2).Nodup := hcq ▸ hndCA
  have hinotcq2 : i ∉ cq2 := (List.nodup_cons.mp hndICQ).1
  have hiCA : i ∈ s.cq ++ arrived := by
    rw [hcq]
    exact List.mem_cons_self _ _
  have hsubA2 : ∀ x ∈ arrived2, x ∈ rest :=
    fun x hx => hjoin2.mem_iff.mp (List.mem_append_left rest3 hx)
  have hinotA2 : i ∉ arrived2 := by
    intro hiA2
    have hirest : i ∈ rest := hsubA2 i hiA2
    rcases List.mem_append.mp hiCA with hic | hia
    · exact hdisjRC hirest hic
    · exact hdisjA hia (List.mem_append_left s.cq hirest)
  have hib : i < s.procs.length := by
    refine hInv.bounds i ?_
    rcases List.mem_append.mp hiCA with hic | hia
    · exact List.mem_append_right _ hic
    · exact List.mem_append_left _
        (hjoin.mem_iff.mp (List.mem_append_left rest hia))
  have hcqC : (rrContinueState q s arrived i cq2 rest).cq =
      (cq2 ++ arrived2) ++ [i] := by
    simp only [rrContinueState, hpop2]
  have hcqT : (rrCompleteState q s arrived i cq2 rest).cq =
      cq2 ++ arrived2 := by
    simp only [rrCompleteState, hpop2]
  have hlen2 : i < (setReady (setReady s.procs arrived) arrived2).length
      := by
    rw [length_setReady, length_setReady]
    exact hib
  have hterm : (getP (rrCompleteState q s arrived i cq2 rest).procs
      i).state = PState.TERMINATED := by
    simp only [rrCompleteState, hpop2]
    rw [getP_set_self _ _ _ hlen2]
    rfl
  refine ⟨?_, ?_, ?_⟩
  · intro x hx
    have hmem : x ∈ (npPop true (setReady s.procs arrived)
        (s.t + min q (getP (setReady s.procs arrived) i).remainingTime)
        rest).1 := by
      rw [hpop2]
      exact hx
    exact npPop_arrived_le true (setReady s.procs arrived) _ rest x hmem
  · intro hpos
    refine ⟨?_, hcqC⟩
    rw [hstep, if_pos hpos]
  · intro hneg
    refine ⟨?_, hcqT, ?_, hterm, ?_⟩
    · rw [hstep, if_neg hneg]
    · rw [hcqT]
      intro h
      rcases List.mem_append.mp h with h1 | h2
      · exact hinotcq2 h1
      · exact hinotA2 h2
    · simp only [rrCompleteState, hpop2]

/-- Witness for C6 at the start of Scenario C under quantum 4: both
processes arrive at time 0, P1 (index 0) is dispatched for 4 < 5 ticks and
is re-appended after the (empty) batch of new arrivals. -/
theorem C6_rr_enqueue_order_witness :
    rrStep 4 (rrInit scenC) =
      some (rrContinueState 4 (rrInit scenC) [0, 1] 0 [1] []) ∧
    (rrContinueState 4 (rrInit scenC) [0, 1] 0 [1] []).cq =
      ([1] ++ []) ++ [0] :=
  (C6_rr_enqueue_order 4 (scenC.map Proc.burst) (rrInit scenC)
    (rrInit_inv scenC) [0, 1] [] [] [] 0 [1] (by decide) (by decide)
    (by decide)).2.1 (by decide)

/-- Counterexample for C9 as frozen: in FCFS, a zero-burst process (P2,
arrival 0) behind a burst-5 process is only reached at t = 5, so it
completes at 5 ≠ its arrival, with waiting_time = response_time = 5 ≠ 0,
and the Gantt chart carries the triple (2, 5, 5) with its pid. -/
theorem C9_counterexample_delayed_zero_burst :
    (fcfs zeroBurstRace).processes.map
        (fun p => (p.pid, p.waitingTime, p.responseTime,
          p.completionTime)) = [(1, 0, 0, 5), (2, 5, 5, 5)] ∧
    GEntry.mk 2 5 5 ∈ (fcfs zeroBurstRace).gantt ∧
    zeroBurstRace.map (fun p => (p.pid, p.burst, p.arrival)) =
      [(1, 5, 0), (2, 0, 0)] := by
  decide

end OSSim